import Mathlib

/-!
Verification of deepgrid: signature generation, attempt reconciliation and incremental
indexing.

A shallow embedding of `pkg/denoise/denoise.go`, `pkg/artifacts/artifacts.go` and
`cmd/deepgrid/index.go`.

Go strings are modelled as lists of Unicode characters (`Str`), that is as valid UTF-8 text;
the indexer only fingerprints text it has forced to valid UTF-8.  Go's byte-wise string order
coincides on such text with the code-point-wise lexicographic order used here.
-/

namespace Deepgrid

/-- Go `string`, as the list of its characters. -/
abbrev Str := List Char

/-! ## Regular expressions (the fragment of Go `regexp` syntax the program uses) -/

/-- Regular expressions: character classes, concatenation, alternation, `r?`, `[class]*` and
the end-of-text anchor `$`. -/
inductive Re where
  | eps : Re
  | eos : Re
  | cls : (Char → Bool) → Re
  | cat : Re → Re → Re
  | alt : Re → Re → Re
  | opt : Re → Re
  | star : (Char → Bool) → Re

/-- Greedy `[class]*` followed by the continuation `k`: the longest run is tried first and the
run is given back one character at a time while `k` refuses. -/
def starRun (p : Char → Bool) (k : Str → Option Str) : Str → Option Str
  | [] => k []
  | c :: cs =>
    if p c then
      match starRun p k cs with
      | some r => some r
      | none => k (c :: cs)
    else k (c :: cs)

/-- Backtracking matcher anchored at the start of the input.  Alternatives are tried in the
priority order of Go's leftmost-first semantics; the result is what the continuation returns
for the first alternative it accepts (for `k = some`: the text left after the match). -/
def Re.run : Re → (Str → Option Str) → Str → Option Str
  | .eps, k, s => k s
  | .eos, k, s =>
    match s with
    | [] => k []
    | _ :: _ => none
  | .cls p, k, s =>
    match s with
    | [] => none
    | c :: cs => if p c then k cs else none
  | .cat a b, k, s => a.run (b.run k) s
  | .alt a b, k, s =>
    match a.run k s with
    | some r => some r
    | none => b.run k s
  | .opt a, k, s =>
    match a.run k s with
    | some r => some r
    | none => k s
  | .star p, k, s => starRun p k s

/-- Length of the match of `re` that starts at the first character of `s`, if there is one. -/
def matchLen (re : Re) (s : Str) : Option Nat :=
  (re.run some s).map fun rest => s.length - rest.length

/-- Go `Regexp.MatchString`: does `re` match somewhere in `s`. -/
def matchString (re : Re) : Str → Bool
  | [] => (re.run some []).isSome
  | c :: cs => (re.run some (c :: cs)).isSome || matchString re cs

/-- Scanning loop of `Regexp.ReplaceAllString`.  The first argument counts the characters of
the current match that are still to be skipped.  At a position where `re` matches, the matched
text is replaced by `repl` of it and the scan resumes behind the match; elsewhere the character
is copied.  None of the program's patterns matches the empty string. -/
def replaceAllAux (re : Re) (repl : Str → Str) : Nat → Str → Str
  | _, [] => []
  | skip + 1, _ :: cs => replaceAllAux re repl skip cs
  | 0, c :: cs =>
    match matchLen re (c :: cs) with
    | some (n + 1) => repl ((c :: cs).take (n + 1)) ++ replaceAllAux re repl n cs
    | _ => c :: replaceAllAux re repl 0 cs

/-- Go `Regexp.ReplaceAllString` for a non-empty-matching pattern. -/
def replaceAll (re : Re) (repl : Str → Str) (s : Str) : Str :=
  replaceAllAux re repl 0 s

/-! ### Pattern building blocks -/

/-- `[0-9]`. -/
def isDigit (c : Char) : Bool := 48 ≤ c.toNat && c.toNat ≤ 57

/-- `[a-z]`. -/
def isLower (c : Char) : Bool := 97 ≤ c.toNat && c.toNat ≤ 122

/-- `[A-Z]`. -/
def isUpper (c : Char) : Bool := 65 ≤ c.toNat && c.toNat ≤ 90

/-- `[A-Za-z0-9]`. -/
def isAlnum (c : Char) : Bool := isUpper c || isLower c || isDigit c

/-- `[0-9a-f]`. -/
def isLowerHex (c : Char) : Bool := isDigit c || (97 ≤ c.toNat && c.toNat ≤ 102)

/-- `[._-]`. -/
def isSep (c : Char) : Bool := c == '.' || c == '_' || c == '-'

/-- `[A-Za-z0-9._-]`. -/
def isSuffixChar (c : Char) : Bool := isAlnum c || isSep c

/-- `[ \t]`. -/
def isBlank (c : Char) : Bool := c == ' ' || c == '\t'

/-- `.` (without the `s` flag): any character but a newline. -/
def isAny (c : Char) : Bool := c != '\n'

/-- A literal character. -/
def Re.chr (x : Char) : Re := .cls fun c => c == x

/-- Characters a literal `x` matches under the `(?i)` flag: the simple case-folding orbit of
`x`.  For an ASCII letter that is the letter in both cases, and moreover U+017F for `s` and
U+212A for `k`. -/
def foldEq (x c : Char) : Bool :=
  c == x || (isLower x && c.toNat + 32 == x.toNat) || (isUpper x && c.toNat == x.toNat + 32)
    || ((x == 's' || x == 'S') && c.toNat == 0x17F)
    || ((x == 'k' || x == 'K') && c.toNat == 0x212A)

/-- A literal character under `(?i)`. -/
def Re.chrI (x : Char) : Re := .cls (foldEq x)

/-- A literal string. -/
def Re.lit (s : Str) : Re := s.foldr (fun c r => .cat (.chr c) r) .eps

/-- A literal string under `(?i)`. -/
def Re.litI (s : Str) : Re := s.foldr (fun c r => .cat (.chrI c) r) .eps

/-- The pattern `[class]{n}`. -/
def Re.rep (p : Char → Bool) : Nat → Re
  | 0 => .eps
  | n + 1 => .cat (.cls p) (Re.rep p n)

/-- The pattern `[class]+`. -/
def Re.plus (p : Char → Bool) : Re := .cat (.cls p) (.star p)

/-- The patterns `r1|r2|...|rn`. -/
def Re.alts : List Re → Re
  | [] => .cls fun _ => false
  | [r] => r
  | r :: rs => .alt r (Re.alts rs)

/-! ## pkg/denoise -/

/-- The pattern `[A-Za-z0-9]{64,}`. -/
def hashRe : Re := .cat (Re.rep isAlnum 64) (.star isAlnum)

/-- The pattern `[0-9a-f]{8}-[0-9a-f]{4}-[0-9a-f]{4}-[0-9a-f]{4}-[0-9a-f]{12}`. -/
def uuidRe : Re :=
  .cat (Re.rep isLowerHex 8) (.cat (Re.chr '-')
  (.cat (Re.rep isLowerHex 4) (.cat (Re.chr '-')
  (.cat (Re.rep isLowerHex 4) (.cat (Re.chr '-')
  (.cat (Re.rep isLowerHex 4) (.cat (Re.chr '-')
  (Re.rep isLowerHex 12))))))))

/-- The pattern `0x[0-9a-f]+`. -/
def pointerRe : Re := .cat (Re.chr '0') (.cat (Re.chr 'x') (Re.plus isLowerHex))

/-- The pattern `[0-9]+`. -/
def numberRe : Re := Re.plus isDigit

/-- The pattern `([._-])[A-Za-z0-9._-]+`. -/
def randomSuffixRe : Re := .cat (.cls isSep) (Re.plus isSuffixChar)

/-- The pattern `[ \t]+`. -/
def spaceRe : Re := Re.plus isBlank

/-- Go `Denoise`.  In the template `${1}RANDOM` group 1 is the first character of the match. -/
def Denoise (line : Str) : Str :=
  let line := replaceAll hashRe (fun _ => "HASH".toList) line
  let line := replaceAll uuidRe (fun _ => "UUID".toList) line
  let line := replaceAll pointerRe (fun _ => "0xdeadbeef".toList) line
  let line := replaceAll numberRe (fun _ => "0".toList) line
  let line := replaceAll randomSuffixRe (fun m => m.take 1 ++ "RANDOM".toList) line
  let line := replaceAll spaceRe (fun _ => " ".toList) line
  line

/-! ## cmd/deepgrid: signatures -/

/-- The pattern `(?i)(?:INFO: .* event for)`. -/
def excludeLineRe : Re :=
  .cat (Re.litI "INFO: ".toList) (.cat (.star isAny) (Re.litI " event for".toList))

/-- The pattern `(?i)(?:error|fail|unable|illegal|violation|forbidden|cannot|can't|should not|`
`did not|didn't|isn't|is not|aren't|are not|timed?.?out|unavailable)`. -/
def errorLineRe : Re :=
  Re.alts [
    Re.litI "error".toList, Re.litI "fail".toList, Re.litI "unable".toList,
    Re.litI "illegal".toList, Re.litI "violation".toList, Re.litI "forbidden".toList,
    Re.litI "cannot".toList, Re.litI "can't".toList, Re.litI "should not".toList,
    Re.litI "did not".toList, Re.litI "didn't".toList, Re.litI "isn't".toList,
    Re.litI "is not".toList, Re.litI "aren't".toList, Re.litI "are not".toList,
    .cat (Re.litI "time".toList) (.cat (.opt (Re.chrI 'd')) (.cat (.opt (.cls isAny))
      (Re.litI "out".toList))),
    Re.litI "unavailable".toList]

/-- Go `strings.Split(data, "\n")`: the text between newlines; never the empty list. -/
def splitLines : Str → List Str
  | [] => [[]]
  | c :: cs =>
    if c = '\n' then [] :: splitLines cs
    else
      match splitLines cs with
      | [] => [[c]]
      | l :: ls => (c :: l) :: ls

/-- Go `a < b` on strings. -/
def strLess : Str → Str → Bool
  | [], [] => false
  | [], _ :: _ => true
  | _ :: _, [] => false
  | a :: as, b :: bs => decide (a.toNat < b.toNat) || (a == b && strLess as bs)

/-- The order `sort.Strings` sorts by: `a` may stand before `b` unless `b < a`. -/
def strLE (a b : Str) : Prop := strLess b a = false

instance strLE.decidable : DecidableRel strLE := fun a b =>
  inferInstanceAs (Decidable (strLess b a = false))

/-- Does a denoised line enter the signature: `errorLineRe.MatchString(line) &&`
`!excludeLineRe.MatchString(line)`. -/
def keepLine (line : Str) : Bool :=
  matchString errorLineRe line && !matchString excludeLineRe line

/-- The denoised lines of `data` that pass the filter, in input order with repetitions: the
keys set in the map `errorLines`. -/
def errorLines (data : Str) : List Str :=
  ((splitLines data).map Denoise).filter keepLine

/-- Second half of `generateSignature`, from an enumeration `keys` of the map's key set:
`sort.Strings` then `strings.Join(lines, "\n")`.  `sort.Strings` yields the one sorted
arrangement of its input, as insertion sort does. -/
def signatureOfKeys (keys : List Str) : Str :=
  List.intercalate ['\n'] (keys.insertionSort strLE)

/-- Go `generateSignature`.  The keys of the map `errorLines` are enumerated here in order of
first insertion; Go enumerates them in an unspecified order, which the sort makes irrelevant
(`signatureOfKeys_perm`). -/
def generateSignature (data : Str) : Str :=
  signatureOfKeys (errorLines data).dedup


/-! ## pkg/artifacts: test results -/

/-- Go `type TestStatus int`. -/
abbrev TestStatus := Int

/-- Go `TestStatusInfo`. -/
def TestStatusInfo : TestStatus := 0
/-- Go `TestStatusSkipped`. -/
def TestStatusSkipped : TestStatus := 1
/-- Go `TestStatusError`. -/
def TestStatusError : TestStatus := 2
/-- Go `TestStatusFailure`. -/
def TestStatusFailure : TestStatus := 3
/-- Go `TestStatusFlake`. -/
def TestStatusFlake : TestStatus := 4
/-- Go `TestStatusSuccess`. -/
def TestStatusSuccess : TestStatus := 5

/-- Go `TestResult`. -/
structure TestResult where
  Test : Str
  Status : TestStatus
  Output : Str
  deriving DecidableEq, Repr, Inhabited

/-! ## cmd/deepgrid: the reconcile loop

`resultsList` is a slice of pointers to pairwise distinct `TestResult` objects (each one is
allocated by `analyzeSuite` or `GetBuildLogs`).  The objects are modelled as a heap, the list of
their current values, and the pointer `resultsList[i]` as the index `i` into it. -/

/-- Go `map[string][]*TestResult`: entries in order of first insertion, values are lists of
pointers. -/
abbrev ResultMap := List (Str × List Nat)

/-- Go `results[key]`: the slice stored under `key`, the nil slice when there is none. -/
def ResultMap.get (m : ResultMap) (key : Str) : List Nat :=
  match m with
  | [] => []
  | (k, v) :: rest => if k = key then v else ResultMap.get rest key

/-- Go `results[key] = v`. -/
def ResultMap.set (m : ResultMap) (key : Str) (v : List Nat) : ResultMap :=
  match m with
  | [] => [(key, v)]
  | (k, w) :: rest => if k = key then (key, v) :: rest else (k, w) :: ResultMap.set rest key v

/-- The inner loop `for _, prev := range results[result.Test]`: every pointed-to object whose
status is `Failure` gets status `Flake`. -/
def promote (heap : List TestResult) : List Nat → List TestResult
  | [] => heap
  | prev :: rest =>
    match heap.get? prev with
    | none => promote heap rest
    | some r =>
      if r.Status = TestStatusFailure then
        promote (heap.set prev { r with Status := TestStatusFlake }) rest
      else promote heap rest

/-- One iteration of `for _, result := range resultsList`, for `result = resultsList[i]`. -/
def reconcileStep (st : List TestResult × ResultMap) (i : Nat) : List TestResult × ResultMap :=
  match st.1.get? i with
  | none => st
  | some result =>
    let heap :=
      if result.Status = TestStatusSuccess then promote st.1 (st.2.get result.Test) else st.1
    (heap, st.2.set result.Test (st.2.get result.Test ++ [i]))

/-- The reconcile loop run over the first `k` entries of `resultsList`. -/
def reconcileUpto (resultsList : List TestResult) (k : Nat) : List TestResult × ResultMap :=
  (List.range k).foldl reconcileStep (resultsList, [])

/-- The reconcile loop of `indexCmd.Run`: the objects and the map `results` after it. -/
def reconcile (resultsList : List TestResult) : List TestResult × ResultMap :=
  reconcileUpto resultsList resultsList.length

/-- Go `DBTestResult`. -/
structure DBTestResult where
  Job : Str
  BuildID : Str
  Test : Str
  FinishedTimestamp : Int
  Attempt : Int
  Attempts : Int
  Status : Int
  Output : Str
  Signature : Str
  deriving DecidableEq, Repr

/-- The `DBTestResult` built for `r = testResults[i]` of a group of `n` results. -/
def mkRow (job buildID : Str) (finished : Int) (test : Str) (n i : Nat) (r : TestResult) :
    DBTestResult :=
  { Job := job, BuildID := buildID, Test := test, FinishedTimestamp := finished,
    Attempt := (i : Int) - (n : Int) + 1, Attempts := (n : Int), Status := r.Status,
    Output := r.Output, Signature := generateSignature r.Output }

/-- The inner loop `for i, r := range testResults`: the rows handed to `saveTestResult` for
one map entry. -/
def groupRows (job buildID : Str) (finished : Int) (heap : List TestResult) (test : Str)
    (testResults : List Nat) : List DBTestResult :=
  testResults.enum.map fun ir =>
    mkRow job buildID finished test testResults.length ir.1 (heap.getD ir.2 default)

/-- The loop `for test, testResults := range results`: all rows handed to `saveTestResult`.
Go enumerates the map in an unspecified order; here it is the order of first insertion. -/
def mapRows (job buildID : Str) (finished : Int) (heap : List TestResult) (m : ResultMap) :
    List DBTestResult :=
  m.flatMap fun e => groupRows job buildID finished heap e.1 e.2

/-- The rows `indexCmd.Run` hands to `saveTestResult` for a build with the given
`resultsList`. -/
def testResultRows (job buildID : Str) (finished : Int) (resultsList : List TestResult) :
    List DBTestResult :=
  mapRows job buildID finished (reconcile resultsList).1 (reconcile resultsList).2

/-! ## pkg/artifacts: builds, errors and the world around the program -/

/-- Go `Build`. -/
structure Build where
  Job : Str
  BuildID : Str
  GCSBucket : Str
  GCSPrefix : Str
  deriving DecidableEq, Repr

/-- Go `BuildMeta`; the key set of the map `Files` is a list without repetitions. -/
structure BuildMeta where
  Build : Build
  Files : List Str
  deriving DecidableEq, Repr

/-- Go `BuildStatus`. -/
structure BuildStatus where
  StartedTimestamp : Int
  FinishedTimestamp : Int
  Result : Str
  deriving DecidableEq, Repr

/-- Go error values.  `err == artifacts.ErrNotFound` and `err == pgx.ErrNoRows` compare
against the two sentinel values; `wrap` is `fmt.Errorf("...: %w", err)`; the other
constructors stand for the errors of the operating system, the database, the remote store and
the decoders, and for a `panic`. -/
inductive Err where
  | ErrNotFound : Err
  | ErrNoRows : Err
  | ErrObjectNotExist : Err
  | wrap : Str → Err → Err
  | os : Nat → Err
  | db : Nat → Err
  | remote : Nat → Err
  | decode : Nat → Err
  | invalidPrefix : Str → Err
  | panic : Str → Err
  deriving DecidableEq, Repr

/-- What the remote store answers to `NewReader`: the object's bytes, "object doesn't exist",
or another failure. -/
inductive RemoteObject where
  | content : Str → RemoteObject
  | notExist : RemoteObject
  | fail : Nat → RemoteObject
  deriving DecidableEq, Repr

/-- The local I/O step of one `gcsOpen` call that fails, if any.  `copy n rm`: `io.Copy`
fails after `n` characters were written, and `rm` tells whether the clean-up `os.Remove`
fails too. -/
inductive Fault where
  | none : Fault
  | openErr : Fault
  | mkdir : Fault
  | create : Fault
  | copy : Nat → Bool → Fault
  | close : Fault
  | rename : Fault
  | reopen : Fault
  deriving DecidableEq, Repr

/-- Go `junit.Result` (external package), the fields `analyzeSuite` reads. -/
structure JUnitResult where
  Name : Str
  Output : Option Str
  Failure : Option Str
  Error : Option Str
  Skipped : Option Str
  deriving DecidableEq, Repr

/-- Go `junit.Suite` (external package), the field `analyzeSuite` reads. -/
structure JUnitSuite where
  Results : List JUnitResult
  deriving DecidableEq, Repr

/-- What the program does to the outside, in order. -/
inductive Event where
  | loadBuildStatus : Str → Str → Event
  | loadBuildMeta : Str → Str → Event
  | saveBuildMeta : Str → Str → Event
  | saveTestResult : DBTestResult → Event
  | saveBuildStatus : Str → Str → Event
  | listDir : Str → Str → Event
  | listFiles : Str → Str → Event
  | gcsOpen : Str → Str → Event
  | download : Str → Str → Event
  deriving DecidableEq, Repr

/-- Everything outside the program: the remote store, the failures of the database and of
local I/O (asked for by the number of events so far), and the library functions it calls. -/
structure World where
  /-- Directories the remote store lists under `bucket`, `prefix` with delimiter `/`. -/
  listDir : Str → Str → Except Nat (List Str)
  /-- Objects the remote store lists under `bucket`, `prefix`. -/
  listFiles : Str → Str → Except Nat (List Str)
  /-- Answer of the remote store to a read of `bucket`, `object`. -/
  object : Str → Str → RemoteObject
  /-- Failure of the database call made after so many events. -/
  dbFault : Nat → Option Nat
  /-- Failing I/O step of the `gcsOpen` call made after so many events. -/
  ioFault : Nat → Fault
  /-- Decoding of `started.json`: the timestamp. -/
  decodeStarted : Str → Except Nat Int
  /-- Decoding of `finished.json`: the timestamp and the result. -/
  decodeFinished : Str → Except Nat (Int × Str)
  /-- Go `junit.ParseStream`. -/
  parseStream : Str → Except Nat (List JUnitSuite)
  /-- Go `junit.Result.Message`. -/
  message : JUnitResult → Nat → Str
  /-- Go `utf8.ValidString`. -/
  validString : Str → Bool
  /-- Go `strings.ToValidUTF8(s, "?")`. -/
  toValidUTF8 : Str → Str

/-- The tables of the database: `build_statuses`, `build_artifacts` and `test_results`. -/
structure DB where
  build_statuses : List (Str × Str × BuildStatus)
  build_artifacts : List (Str × Str × List Str)
  test_results : List DBTestResult
  deriving DecidableEq, Repr

/-- State outside the program's memory: the database, the files of the cache directory
(path and content) and the events so far. -/
structure Sys where
  db : DB
  cache : List (Str × Str)
  trace : List Event
  deriving DecidableEq, Repr

/-- How a loop body ends: the loop goes on, or the process exits in `klog.Fatal` or a
`panic`. -/
inductive Outcome where
  | next : Outcome
  | fatal : Err → Outcome
  deriving DecidableEq, Repr

/-- Append an event to the trace. -/
def Sys.log (s : Sys) (ev : Event) : Sys := { s with trace := s.trace ++ [ev] }

/-! ## pkg/artifacts: the object cache and the resolvers -/

/-- Content of the cache file at `path`, if the file exists.  The cache directory of `Sys`
holds regular files, kept by their path as it is written. -/
def fileGet (fs : List (Str × Str)) (path : Str) : Option Str :=
  match fs with
  | [] => none
  | (q, data) :: rest => if q = path then some data else fileGet rest path

/-- Remove the cache file at `path`. -/
def fileRemove (fs : List (Str × Str)) (path : Str) : List (Str × Str) :=
  fs.filter fun e => decide (e.1 ≠ path)

/-- Create or overwrite the cache file at `path`. -/
def fileSet (fs : List (Str × Str)) (path data : Str) : List (Str × Str) :=
  (path, data) :: fileRemove fs path

/-- The cache path `fmt.Sprintf("%s/%s/%s", c.cacheDir, bucket, object)` for the `cacheDir`
of `NewClient`. -/
def cachePath (bucket object : Str) : Str :=
  "./cache".toList ++ "/".toList ++ bucket ++ "/".toList ++ object

/-- The message `fmt.Sprintf("unable to open gs://%s/%s", bucket, object)`. -/
def unableToOpen (bucket object : Str) : Str :=
  "unable to open gs://".toList ++ bucket ++ "/".toList ++ object

/-- Go `Client.gcsOpen`; the reader it returns is modelled by the content it reads. -/
def gcsOpen (w : World) (s : Sys) (bucket object : Str) : Sys × Except Err Str :=
  let path := cachePath bucket object
  let fault := w.ioFault s.trace.length
  let s := s.log (.gcsOpen bucket object)
  -- f, err := os.Open(path)
  if fault = .openErr then (s, .error (.os 1))
  else
    match fileGet s.cache path with
    | some data => (s, .ok data)
    | none =>
      -- err = os.MkdirAll(filepath.Dir(path), os.ModePerm)
      if fault = .mkdir then (s, .error (.os 2))
      else
        -- r, err := bkt.Object(object).NewReader(ctx)
        let s := s.log (.download bucket object)
        match w.object bucket object with
        | .notExist => (s, .error (.wrap (unableToOpen bucket object) .ErrObjectNotExist))
        | .fail code => (s, .error (.wrap (unableToOpen bucket object) (.remote code)))
        | .content data =>
          -- f, err = os.Create(path + ".part")
          if fault = .create then (s, .error (.os 3))
          else
            let part := path ++ ".part".toList
            let s := { s with cache := fileSet s.cache part [] }
            -- _, err = io.Copy(f, r)
            match fault with
            | .copy n rm =>
              let s := { s with cache := fileSet s.cache part (data.take n) }
              let s := if rm then s else { s with cache := fileRemove s.cache part }
              (s, .error (.os 4))
            | _ =>
              let s := { s with cache := fileSet s.cache part data }
              -- err = f.Close()
              if fault = .close then (s, .error (.os 5))
              -- err = os.Rename(path+".part", path)
              else if fault = .rename then (s, .error (.os 6))
              else
                let s := { s with cache := fileSet (fileRemove s.cache part) path data }
                -- return os.Open(path)
                if fault = .reopen then (s, .error (.os 7))
                else (s, .ok data)

/-- Go `strings.SplitN(s, "/", 2)` when it yields two parts: the text before and after the
first `/`. -/
def splitFirstSlash : Str → Option (Str × Str)
  | [] => none
  | c :: cs =>
    if c = '/' then some ([], cs)
    else
      match splitFirstSlash cs with
      | some (a, b) => some (c :: a, b)
      | none => none

/-- The loop of `FindBuilds` over the listed directories; a directory name that is too short
raises a panic. -/
def buildsOfDirs (name bucket pfx : Str) : List Str → Except Err (List Build)
  | [] => .ok []
  | dir :: dirs =>
    if dir.length ≤ pfx.length + 1 then .error (.panic dir)
    else
      match buildsOfDirs name bucket pfx dirs with
      | .error e => .error e
      | .ok builds =>
        .ok ({ Job := name, BuildID := (dir.take (dir.length - 1)).drop pfx.length,
               GCSBucket := bucket, GCSPrefix := dir } :: builds)

/-- Go `Client.FindBuilds`. -/
def FindBuilds (w : World) (s : Sys) (name gcsBucketPrefix : Str) :
    Sys × Except Err (List Build) :=
  let gcsBucketPrefix :=
    if gcsBucketPrefix.getLast? = some '/' then gcsBucketPrefix
    else gcsBucketPrefix ++ "/".toList
  match splitFirstSlash gcsBucketPrefix with
  | none => (s, .error (.invalidPrefix gcsBucketPrefix))
  | some (bucket, pfx) =>
    let s := s.log (.listDir bucket pfx)
    match w.listDir bucket pfx with
    | .error code => (s, .error (.remote code))
    | .ok dirs => (s, buildsOfDirs name bucket pfx dirs)

/-- Go `Client.GetBuildMeta`. -/
def GetBuildMeta (w : World) (s : Sys) (build : Build) : Sys × Except Err BuildMeta :=
  let s := s.log (.listFiles build.GCSBucket build.GCSPrefix)
  match w.listFiles build.GCSBucket build.GCSPrefix with
  | .error code => (s, .error (.remote code))
  | .ok files => (s, .ok { Build := build, Files := files.dedup })

/-- Go `Client.GetStartedJson`: the timestamp of `started.json`. -/
def GetStartedJson (w : World) (s : Sys) (build : Build) : Sys × Except Err Int :=
  match gcsOpen w s build.GCSBucket (build.GCSPrefix ++ "started.json".toList) with
  | (s, .error err) => (s, .error err)
  | (s, .ok f) =>
    match w.decodeStarted f with
    | .error code => (s, .error (.decode code))
    | .ok j => (s, .ok j)

/-- Go `Client.GetFinishedJson`: the timestamp and the result of `finished.json`. -/
def GetFinishedJson (w : World) (s : Sys) (build : Build) : Sys × Except Err (Int × Str) :=
  match gcsOpen w s build.GCSBucket (build.GCSPrefix ++ "finished.json".toList) with
  | (s, .error err) => (s, .error err)
  | (s, .ok f) =>
    match w.decodeFinished f with
    | .error code => (s, .error (.decode code))
    | .ok j => (s, .ok j)

/-- Go `Client.GetBuildStatus`. -/
def GetBuildStatus (w : World) (s : Sys) (buildMeta : BuildMeta) :
    Sys × Except Err BuildStatus :=
  if buildMeta.Build.GCSPrefix ++ "finished.json".toList ∉ buildMeta.Files then
    (s, .error .ErrNotFound)
  else
    match GetStartedJson w s buildMeta.Build with
    | (s, .error err) => (s, .error err)
    | (s, .ok started) =>
      match GetFinishedJson w s buildMeta.Build with
      | (s, .error err) => (s, .error err)
      | (s, .ok finished) =>
        (s, .ok { StartedTimestamp := started, FinishedTimestamp := finished.1,
                  Result := finished.2 })

/-- The pattern `/junit.*\.xml$`. -/
def junitObject : Re :=
  .cat (Re.lit "/junit".toList) (.cat (.star isAny) (.cat (Re.lit ".xml".toList) .eos))

/-- The pattern `/build-log.txt$`. -/
def buildLogObject : Re :=
  .cat (Re.lit "/build-log".toList) (.cat (.cls isAny) (.cat (Re.lit "txt".toList) .eos))

/-- Go `analyzeSuite`. -/
def analyzeSuite (w : World) (suite : JUnitSuite) : List TestResult :=
  suite.Results.map fun result =>
    let output :=
      match result.Output with
      | some out =>
        if w.validString out then out else "invalid utf8: ".toList ++ w.toValidUTF8 out
      | none => w.message result (2 ^ 20)
    let status :=
      if result.Failure.isSome then TestStatusFailure
      else if result.Error.isSome then TestStatusError
      else if result.Skipped.isSome then TestStatusSkipped
      else TestStatusSuccess
    { Test := result.Name, Status := status, Output := output }

/-- Go `analyzeSuites`. -/
def analyzeSuites (w : World) (suites : List JUnitSuite) : List TestResult :=
  suites.flatMap (analyzeSuite w)

/-- The loop of `GetTestResults` over the names in `Files`, with the results so far.  Go
enumerates the map in an unspecified order; here it is the order of the list. -/
def testResultsLoop (w : World) (bucket : Str) :
    List Str → Sys → List TestResult → Sys × List TestResult × Option Err
  | [], s, results => (s, results, none)
  | objectName :: rest, s, results =>
    if matchString junitObject objectName then
      match gcsOpen w s bucket objectName with
      | (s, .error err) => (s, results, some err)
      | (s, .ok f) =>
        match w.parseStream f with
        | .error code =>
          (s, results, some (.wrap ("unable to parse gs://".toList ++ bucket ++ "/".toList
            ++ objectName) (.decode code)))
        | .ok suites => testResultsLoop w bucket rest s (results ++ analyzeSuites w suites)
    else testResultsLoop w bucket rest s results

/-- Go `Client.GetTestResults`. -/
def GetTestResults (w : World) (s : Sys) (buildMeta : BuildMeta) :
    Sys × List TestResult × Option Err :=
  testResultsLoop w buildMeta.Build.GCSBucket buildMeta.Files s []

/-- The loop of `GetBuildLogs` over the names in `Files`, with the results so far, in the
order of the list.  Reading the opened file does not fail here; invalid UTF-8 is replaced and
NUL characters become `?`. -/
def buildLogsLoop (w : World) (bucket pfx : Str) :
    List Str → Sys → List TestResult → Sys × List TestResult × Option Err
  | [], s, results => (s, results, none)
  | objectName :: rest, s, results =>
    if matchString buildLogObject objectName then
      match gcsOpen w s bucket objectName with
      | (s, .error err) => (s, results, some err)
      | (s, .ok f) =>
        let content := if w.validString f then f else w.toValidUTF8 f
        let content := content.map fun c => if c = Char.ofNat 0 then '?' else c
        buildLogsLoop w bucket pfx rest s
          (results ++ [{ Test := objectName.drop pfx.length, Status := TestStatusInfo,
                         Output := content }])
    else buildLogsLoop w bucket pfx rest s results

/-- Go `Client.GetBuildLogs`. -/
def GetBuildLogs (w : World) (s : Sys) (buildMeta : BuildMeta) :
    Sys × List TestResult × Option Err :=
  buildLogsLoop w buildMeta.Build.GCSBucket buildMeta.Build.GCSPrefix buildMeta.Files s []

/-! ## cmd/deepgrid: the indexer -/

/-- Go `loadBuildStatus`: the first row of `build_statuses` for the build's job and id, or
`pgx.ErrNoRows`. -/
def loadBuildStatus (w : World) (s : Sys) (build : Build) : Sys × Except Err BuildStatus :=
  let fault := w.dbFault s.trace.length
  let s := s.log (.loadBuildStatus build.Job build.BuildID)
  match fault with
  | some code => (s, .error (.db code))
  | none =>
    match s.db.build_statuses.find? fun row =>
        decide (row.1 = build.Job ∧ row.2.1 = build.BuildID) with
    | some row => (s, .ok row.2.2)
    | none => (s, .error .ErrNoRows)

/-- Go `saveBuildStatus`. -/
def saveBuildStatus (w : World) (s : Sys) (build : Build) (status : BuildStatus) :
    Sys × Option Err :=
  let fault := w.dbFault s.trace.length
  let s := s.log (.saveBuildStatus build.Job build.BuildID)
  match fault with
  | some code => (s, some (.db code))
  | none =>
    ({ s with db := { s.db with
        build_statuses := s.db.build_statuses ++ [(build.Job, build.BuildID, status)] } },
      none)

/-- Go `loadBuildMeta`: the first row of `build_artifacts` for the build's job and id, or
`pgx.ErrNoRows`.  The column `files` holds the key set of `Files` as `saveBuildMeta` wrote
it, so that decoding it gives the set back. -/
def loadBuildMeta (w : World) (s : Sys) (build : Build) : Sys × Except Err BuildMeta :=
  let fault := w.dbFault s.trace.length
  let s := s.log (.loadBuildMeta build.Job build.BuildID)
  match fault with
  | some code => (s, .error (.db code))
  | none =>
    match s.db.build_artifacts.find? fun row =>
        decide (row.1 = build.Job ∧ row.2.1 = build.BuildID) with
    | some row => (s, .ok { Build := build, Files := row.2.2 })
    | none => (s, .error .ErrNoRows)

/-- Go `saveBuildMeta`. -/
def saveBuildMeta (w : World) (s : Sys) (buildMeta : BuildMeta) : Sys × Option Err :=
  let fault := w.dbFault s.trace.length
  let s := s.log (.saveBuildMeta buildMeta.Build.Job buildMeta.Build.BuildID)
  match fault with
  | some code => (s, some (.db code))
  | none =>
    ({ s with db := { s.db with
        build_artifacts := s.db.build_artifacts ++
          [(buildMeta.Build.Job, buildMeta.Build.BuildID, buildMeta.Files)] } },
      none)

/-- Modelled from the spec: the key of table `test_results`, whose schema is not part of the
sources: rows are keyed by job, build id, test and attempt. -/
def sameKey (a b : DBTestResult) : Bool :=
  decide (a.Job = b.Job ∧ a.BuildID = b.BuildID ∧ a.Test = b.Test ∧ a.Attempt = b.Attempt)

/-- Go `saveTestResult`: `insert ... on conflict do nothing`. -/
def saveTestResult (w : World) (s : Sys) (result : DBTestResult) : Sys × Option Err :=
  let fault := w.dbFault s.trace.length
  let s := s.log (.saveTestResult result)
  match fault with
  | some code => (s, some (.db code))
  | none =>
    if s.db.test_results.any (sameKey result) then (s, none)
    else
      ({ s with db := { s.db with test_results := s.db.test_results ++ [result] } }, none)

/-- The two loops of `indexCmd.Run` that save the rows of one build, up to the first
failure. -/
def saveRows (w : World) : List DBTestResult → Sys → Sys × Option Err
  | [], s => (s, none)
  | row :: rest, s =>
    match saveTestResult w s row with
    | (s, some err) => (s, some err)
    | (s, none) => saveRows w rest s

/-- The body of the per-build loop of `indexCmd.Run` from `client.GetBuildStatus` on, with
the build's metadata resolved. -/
def indexBuildWithMeta (w : World) (s : Sys) (build : Build) (buildMeta : BuildMeta)
    (buildMetaCached : Bool) : Sys × Outcome :=
  match GetBuildStatus w s buildMeta with
  | (s, .error err) => if err = .ErrNotFound then (s, .next) else (s, .fatal err)
  | (s, .ok status) =>
    match (if buildMetaCached then (s, none) else saveBuildMeta w s buildMeta) with
    | (s, some err) => (s, .fatal err)
    | (s, none) =>
      match GetTestResults w s buildMeta with
      | (s, _, some err) => (s, .fatal err)
      | (s, resultsList, none) =>
        match GetBuildLogs w s buildMeta with
        | (s, _, some err) => (s, .fatal err)
        | (s, buildLogs, none) =>
          match saveRows w (testResultRows build.Job build.BuildID status.FinishedTimestamp
              (resultsList ++ buildLogs)) s with
          | (s, some err) => (s, .fatal err)
          | (s, none) =>
            match saveBuildStatus w s build status with
            | (s, some err) => (s, .fatal err)
            | (s, none) => (s, .next)

/-- The body of the per-build loop of `indexCmd.Run`. -/
def indexBuild (w : World) (s : Sys) (build : Build) : Sys × Outcome :=
  match loadBuildStatus w s build with
  | (s, .ok _) => (s, .next)
  | (s, .error err) =>
    if err ≠ .ErrNoRows then (s, .fatal err)
    else
      match loadBuildMeta w s build with
      | (s, .ok buildMeta) => indexBuildWithMeta w s build buildMeta true
      | (s, .error err) =>
        if err = .ErrNoRows then
          match GetBuildMeta w s build with
          | (s, .error err) => (s, .fatal err)
          | (s, .ok buildMeta) => indexBuildWithMeta w s build buildMeta false
        else (s, .fatal err)

/-- The per-build loop of `indexCmd.Run`; it ends at the first fatal error. -/
def indexBuilds (w : World) : List Build → Sys → Sys × Outcome
  | [], s => (s, .next)
  | build :: rest, s =>
    match indexBuild w s build with
    | (s, .fatal err) => (s, .fatal err)
    | (s, .next) => indexBuilds w rest s

/-- A test group of the configuration: the fields `indexCmd.Run` reads. -/
structure TestGroup where
  Name : Str
  GCSPrefix : Str
  deriving DecidableEq, Repr

/-- The constant `maxBuilds`. -/
def maxBuilds : Nat := 5

/-- The truncation `if len(builds) > maxBuilds { builds = builds[len(builds)-maxBuilds:] }`:
the last `maxBuilds` of the builds found. -/
def lastBuilds (builds : List Build) : List Build :=
  if builds.length > maxBuilds then builds.drop (builds.length - maxBuilds) else builds

/-- The body of the loop of `indexCmd.Run` over the test groups. -/
def indexGroup (w : World) (s : Sys) (testGroup : TestGroup) : Sys × Outcome :=
  match FindBuilds w s testGroup.Name testGroup.GCSPrefix with
  | (s, .error err) => (s, .fatal err)
  | (s, .ok builds) =>
    indexBuilds w (lastBuilds builds) s

/-- The loop of `indexCmd.Run` over the test groups of the configuration. -/
def indexRun (w : World) : List TestGroup → Sys → Sys × Outcome
  | [], s => (s, .next)
  | testGroup :: rest, s =>
    match indexGroup w s testGroup with
    | (s, .fatal err) => (s, .fatal err)
    | (s, .next) => indexRun w rest s

/-! ### Vocabulary for the statements about the indexer -/

/-- The state `s'` comes from `s` by steps that do not write the database: the database is
the same and the trace is extended. -/
structure Reads (s s' : Sys) : Prop where
  db : s'.db = s.db
  trace : s.trace <+: s'.trace

/-- The name of the finish manifest of a build: `GCSPrefix + "finished.json"`. -/
def finishedName (build : Build) : Str := build.GCSPrefix ++ "finished.json".toList

/-- The status cached for the build, if any. -/
def cachedStatus (db : DB) (build : Build) : Option BuildStatus :=
  (db.build_statuses.find? fun row =>
    decide (row.1 = build.Job ∧ row.2.1 = build.BuildID)).map fun row => row.2.2

/-- The file set cached for the build, if any. -/
def cachedFiles (db : DB) (build : Build) : Option (List Str) :=
  (db.build_artifacts.find? fun row =>
    decide (row.1 = build.Job ∧ row.2.1 = build.BuildID)).map fun row => row.2.2

/-- The file set of the build as the indexer sees it: the cached one if there is one, else
the listing of the remote store (none when the listing fails). -/
def buildFileSet (w : World) (db : DB) (build : Build) : Option (List Str) :=
  match cachedFiles db build with
  | some files => some files
  | none =>
    match w.listFiles build.GCSBucket build.GCSPrefix with
    | .ok files => some files.dedup
    | .error _ => none

/-- Is the event a write to the database. -/
def Event.isWrite : Event → Bool
  | .saveBuildMeta _ _ => true
  | .saveTestResult _ => true
  | .saveBuildStatus _ _ => true
  | _ => false

/-- Is the event an access to the object cache or to an object of the remote store. -/
def Event.isFetch : Event → Bool
  | .gcsOpen _ _ => true
  | .download _ _ => true
  | _ => false

/-- What it means that a step only looked: database and cache directory are the same, the
events it added are neither writes nor fetches, and it went on unless the database failed. -/
structure OnlyLooked (w : World) (s : Sys) (r : Sys × Outcome) : Prop where
  db : r.1.db = s.db
  cache : r.1.cache = s.cache
  trace : ∃ added, r.1.trace = s.trace ++ added ∧
    ∀ ev ∈ added, ev.isWrite = false ∧ ev.isFetch = false
  next : (∀ n, w.dbFault n = none) → r.2 = .next

/-- The state `s'` comes from `s` by steps that leave the tables `build_statuses` and
`build_artifacts` as they are. -/
structure Keeps (s s' : Sys) : Prop where
  statuses : s'.db.build_statuses = s.db.build_statuses
  artifacts : s'.db.build_artifacts = s.db.build_artifacts
  trace : s.trace <+: s'.trace

/-- What a per-build step can have done to the database: nothing at all to the table of
statuses, and nothing whatsoever if it went on; or it went on after appending the status of
the build as its last event, and the metadata row if the metadata was not cached. -/
def StepEffect (s : Sys) (build : Build) (extra : List (Str × Str × List Str))
    (skipped : Prop) (r : Sys × Outcome) : Prop :=
  (r.1.db.build_statuses = s.db.build_statuses ∧ (r.2 = .next → r.1.db = s.db ∧ skipped)) ∨
  (r.2 = .next ∧ ∃ st pre,
    r.1.db.build_statuses = s.db.build_statuses ++ [(build.Job, build.BuildID, st)] ∧
    r.1.db.build_artifacts = s.db.build_artifacts ++ extra ∧
    r.1.trace = s.trace ++ pre ++ [.saveBuildStatus build.Job build.BuildID])

/-- Nothing is left to do for the build in this state of the database: its status is cached,
or its file set, as the indexer sees it, does not contain the finish manifest. -/
def Settled (w : World) (db : DB) (build : Build) : Prop :=
  cachedStatus db build ≠ none ∨
    ∃ files, buildFileSet w db build = some files ∧ finishedName build ∉ files

/-- A world for examples: an empty remote store, no failures, decoders that refuse. -/
def World.empty : World where
  listDir := fun _ _ => .ok []
  listFiles := fun _ _ => .ok []
  object := fun _ _ => .notExist
  dbFault := fun _ => none
  ioFault := fun _ => .none
  decodeStarted := fun _ => .error 0
  decodeFinished := fun _ => .error 0
  parseStream := fun _ => .error 0
  message := fun _ _ => []
  validString := fun _ => true
  toValidUTF8 := fun x => x

/-- A world for examples: the remote store holds build `1` of a job, finished, with one
report of two attempts of a test and a build log, and build `2` of the job, not finished. -/
def World.sample : World where
  listDir := fun _ _ => .ok ["logs/job/1/".toList, "logs/job/2/".toList]
  listFiles := fun _ pfx =>
    if pfx = "logs/job/1/".toList then
      .ok ["logs/job/1/started.json".toList, "logs/job/1/finished.json".toList,
        "logs/job/1/artifacts/junit_e2e.xml".toList, "logs/job/1/build-log.txt".toList]
    else .ok ["logs/job/2/started.json".toList]
  object := fun _ _ => .content "x".toList
  dbFault := fun _ => none
  ioFault := fun _ => .none
  decodeStarted := fun _ => .ok 10
  decodeFinished := fun _ => .ok (20, "SUCCESS".toList)
  parseStream := fun _ =>
    .ok [⟨[⟨"t".toList, some "error 12".toList, some [], none, none⟩,
      ⟨"t".toList, some "ok".toList, none, none, none⟩]⟩]
  message := fun _ _ => []
  validString := fun _ => true
  toValidUTF8 := fun x => x

/-- A world for examples: the listings of `World.sample`, but the remote store reports of
every object that it does not exist. -/
def World.missing : World :=
  { World.sample with object := fun _ _ => .notExist }

/-- The state with an empty database, an empty cache directory and no events. -/
def Sys.empty : Sys := ⟨⟨[], [], []⟩, [], []⟩

/-! ### What the reconcile loop is expected to compute -/

/-- Is there, among the first `k` entries of `rs`, an entry behind position `i` with test name
`t` and status `Success`. -/
def laterSuccess (rs : List TestResult) (k i : Nat) (t : Str) : Bool :=
  (List.range k).any fun j =>
    decide (i < j) &&
      match rs[j]? with
      | some r => decide (r.Test = t ∧ r.Status = TestStatusSuccess)
      | none => false

/-- Status expected for the entry `r` at position `i` once the first `k` entries of `rs` have
been processed: `Flake` for a `Failure` followed by a `Success` of the same test. -/
def expStatus (rs : List TestResult) (k i : Nat) (r : TestResult) : TestStatus :=
  if r.Status = TestStatusFailure ∧ laterSuccess rs k i r.Test = true then TestStatusFlake
  else r.Status

/-- Positions among the first `k` entries of `rs` that hold a result of test `t`. -/
def positionsOf (rs : List TestResult) (k : Nat) (t : Str) : List Nat :=
  (List.range k).filter fun i =>
    match rs[i]? with
    | some r => decide (r.Test = t)
    | none => false

/-- Invariant of the reconcile loop after `k` iterations. -/
structure ReconcileInv (rs : List TestResult) (k : Nat) (st : List TestResult × ResultMap) :
    Prop where
  len : st.1.length = rs.length
  heap : ∀ (i : Nat) (r : TestResult), rs[i]? = some r →
    st.1[i]? = some ({ r with Status := expStatus rs k i r } : TestResult)
  get : ∀ t, st.2.get t = positionsOf rs k t
  keys : (st.2.map Prod.fst).Nodup
  size : (st.2.map fun e => e.2.length).sum = k

/-! ### Shapes of text used in the statements about `Denoise` -/

/-- A token of the shape 8-4-4-4-12: five groups of lowercase hexadecimal digits of these
lengths, joined by `-`. -/
def IsUUIDToken (u : Str) : Prop :=
  ∃ g₁ g₂ g₃ g₄ g₅ : Str,
    g₁.length = 8 ∧ g₂.length = 4 ∧ g₃.length = 4 ∧ g₄.length = 4 ∧ g₅.length = 12 ∧
    (∀ c ∈ g₁ ++ g₂ ++ g₃ ++ g₄ ++ g₅, isLowerHex c = true) ∧
    u = g₁ ++ '-' :: (g₂ ++ '-' :: (g₃ ++ '-' :: (g₄ ++ '-' :: g₅)))

/-- Does the text contain two adjacent spaces. -/
def hasAdjacentSpaces : Str → Bool
  | [] => false
  | a :: rest =>
    (a == ' ' &&
      match rest with
      | [] => false
      | b :: _ => b == ' ') || hasAdjacentSpaces rest

/-- Neutral context: no decimal digit, no `.`, `_` or `-`, no tab and no two adjacent
spaces. -/
def IsNeutral (x : Str) : Prop :=
  (∀ c ∈ x, isDigit c = false ∧ isSep c = false ∧ c ≠ '\t') ∧ hasAdjacentSpaces x = false

/-- The text is empty or starts with a character that is not a decimal digit. -/
def startsNoDigit (r : Str) : Bool :=
  match r with
  | [] => true
  | d :: _ => !isDigit d

/-- Digits are normalized: every decimal digit is `0` and no decimal digit follows it. -/
def digitsNormalized : Str → Bool
  | [] => true
  | c :: rest => (!isDigit c || (c == '0' && startsNoDigit rest)) && digitsNormalized rest

/-- The text is empty or starts with a character outside `[A-Za-z0-9._-]`. -/
def startsOutside (r : Str) : Bool :=
  match r with
  | [] => true
  | d :: _ => !isSuffixChar d

/-- What may follow a separator once suffixes are normalized: nothing of the class
`[A-Za-z0-9._-]`, or `RANDOM` and then nothing of that class. -/
def afterSepOk (rest : Str) : Bool :=
  startsOutside rest ||
    ("RANDOM".toList.isPrefixOf rest && startsOutside (rest.drop 6))

/-- Suffixes are normalized: every one of `.`, `_`, `-` is followed as `afterSepOk` says. -/
def suffixesNormalized : Str → Bool
  | [] => true
  | c :: rest => (!isSep c || afterSepOk rest) && suffixesNormalized rest

/-- No run of letters and digits that starts at the head of the text has 64 characters
or more. -/
def shortRunAt (t : Str) : Bool := decide ((t.takeWhile isAlnum).length < 64)

/-- The text has no run of 64 or more letters and digits. -/
def alnumRunFree : Str → Bool
  | [] => true
  | c :: rest => shortRunAt (c :: rest) && alnumRunFree rest

/-- Where the text starts with `0x`, the lowercase hexadecimal digits that follow are none
or exactly `deadbeef`. -/
def pointerOk (t : Str) : Bool :=
  match t with
  | '0' :: 'x' :: rest =>
    rest.takeWhile isLowerHex == [] || rest.takeWhile isLowerHex == "deadbeef".toList
  | _ => true

/-- Every `0x` of the text is followed by no lowercase hexadecimal digit or by exactly
`deadbeef`. -/
def pointersNormalized : Str → Bool
  | [] => true
  | c :: rest => pointerOk (c :: rest) && pointersNormalized rest

/-! ### The directory entries of one object during `gcsOpen` -/

/-- A directory entry: nothing, a regular file with its content, or a directory. -/
inductive Entry where
  | absent : Entry
  | file : Str → Entry
  | dir : Entry
  deriving DecidableEq, Repr

/-- The two directory entries that the `gcsOpen` calls for one object work on: the entry at
the cache path and the entry at the temporary path, which adds `.part` to it. -/
structure Slots where
  path : Entry
  part : Entry
  deriving DecidableEq, Repr

/-- What an `os.Open` that succeeds returns: an open regular file, given by its content, or
an open directory, from which no bytes can be read. -/
inductive Opened where
  | file : Str → Opened
  | dir : Opened
  deriving DecidableEq, Repr

/-- The entries while `io.Copy` writes to the temporary file: after `os.Create`, and after
each of the first `n` characters of `data`. -/
def copyMoments (e : Slots) (data : Str) (n : Nat) : List Slots :=
  (List.range (n + 1)).map fun k => { e with part := .file (data.take k) }

/-- Go `Client.gcsOpen` for one object, as it acts on the two directory entries: the entries
after each file operation, in order, beginning with the entries as the call finds them, and
what the call returns.  `fault` is the I/O step of this call that fails, as in `gcsOpen`;
`os.Open` succeeds on a directory too, `os.Create` fails on one, and `os.Rename` puts the
temporary file in place in one step. -/
def gcsOpenEntries (w : World) (fault : Fault) (bucket object : Str) (e : Slots) :
    List Slots × Except Err Opened :=
  -- f, err := os.Open(path)
  if fault = .openErr then ([e], .error (.os 1))
  else
    match e.path with
    | .file data => ([e], .ok (.file data))
    | .dir => ([e], .ok .dir)
    | .absent =>
      -- err = os.MkdirAll(filepath.Dir(path), os.ModePerm)
      if fault = .mkdir then ([e], .error (.os 2))
      else
        -- r, err := bkt.Object(object).NewReader(ctx)
        match w.object bucket object with
        | .notExist => ([e], .error (.wrap (unableToOpen bucket object) .ErrObjectNotExist))
        | .fail code => ([e], .error (.wrap (unableToOpen bucket object) (.remote code)))
        | .content data =>
          -- f, err = os.Create(path + ".part")
          if fault = .create ∨ e.part = .dir then ([e], .error (.os 3))
          else
            -- _, err = io.Copy(f, r)
            match fault with
            | .copy n rm =>
              if rm then (e :: copyMoments e data n, .error (.os 4))
              else (e :: copyMoments e data n ++ [{ e with part := .absent }], .error (.os 4))
            | _ =>
              -- err = f.Close()
              if fault = .close then (e :: copyMoments e data data.length, .error (.os 5))
              -- err = os.Rename(path+".part", path)
              else if fault = .rename then
                (e :: copyMoments e data data.length, .error (.os 6))
              else
                -- return os.Open(path)
                if fault = .reopen then
                  (e :: copyMoments e data data.length ++ [⟨.file data, .absent⟩],
                    .error (.os 7))
                else
                  (e :: copyMoments e data data.length ++ [⟨.file data, .absent⟩],
                    .ok (.file data))

/-- The entries a call leaves: the last of its moments. -/
def entriesAfter (moments : List Slots) (e : Slots) : Slots := moments.getLast?.getD e

/-- Calls of `gcsOpen` for one object, made one after another, one call for each fault of
the list: the entries at every moment, and what the calls return. -/
def repeatEntries (w : World) (bucket object : Str) :
    List Fault → Slots → List Slots × List (Except Err Opened)
  | [], e => ([e], [])
  | fault :: rest, e =>
    let r := gcsOpenEntries w fault bucket object e
    let rs := repeatEntries w bucket object rest (entriesAfter r.1 e)
    (r.1 ++ rs.1, r.2 :: rs.2)

/-- The last path element of a name: what follows its last `/`. -/
def lastElement (name : Str) : Str := (name.reverse.takeWhile fun c => c != '/').reverse

/-- The name ends in a path element that names a file in its directory: the element is not
empty, not `.` and not `..`.  For such a name the cache path and the temporary path, which
adds `.part` to it, are two entries of one directory. -/
def endsInFileName (name : Str) : Bool :=
  lastElement name != [] && lastElement name != ".".toList && lastElement name != "..".toList

/-- The entry at the cache path of the object is absent, or it is a regular file that holds
the complete bytes of the remote object. -/
def EntrySound (w : World) (bucket object : Str) (e : Slots) : Prop :=
  match e.path with
  | .absent => True
  | .file data => w.object bucket object = .content data
  | .dir => False

/-- The entry that the cache directory of `Sys`, which holds regular files only, has at a
path. -/
def entryOf (file : Option Str) : Entry :=
  match file with
  | none => .absent
  | some data => .file data

/-- The two entries of the object in the cache directory of `Sys`. -/
def slotsOf (c : List (Str × Str)) (bucket object : Str) : Slots :=
  ⟨entryOf (fileGet c (cachePath bucket object)),
    entryOf (fileGet c (cachePath bucket object ++ ".part".toList))⟩

/-- A world for examples: the remote store holds the objects `o` and `o.part`; in the first
`gcsOpen` call `io.Copy` fails after one character and the clean-up `os.Remove` fails too. -/
def World.partCopy : World :=
  { World.empty with
    object := fun _ object =>
      if object = "o".toList then .content "abc".toList
      else if object = "o.part".toList then .content "xyz".toList
      else .notExist
    ioFault := fun n => if n = 0 then .copy 1 true else .none }

/-! ### `gcsOpen` statement by statement, on files with numbers -/

/-- The regular files of the cache directory, with the open ones: `names` gives the file
number behind a path, `files` the content of every file by number.  An open file is a file
number, which stays valid when its path is renamed.  A path is looked up by the names the
file system walks for it (`samePath`). -/
structure Disk where
  names : List (Str × Nat)
  files : List Str
  deriving DecidableEq, Repr

/-- The elements of a path: the texts between its `/`. -/
def splitSlash : Str → List Str
  | [] => [[]]
  | c :: cs =>
    if c = '/' then [] :: splitSlash cs
    else
      match splitSlash cs with
      | [] => [[c]]
      | e :: es => (c :: e) :: es

/-- The names that the file system walks for a path: its elements without the empty ones,
which repeated `/` give, and without `.`.  The element `..` is kept as a name: paths with
`..` are not described here. -/
def pathElements (path : Str) : List Str :=
  (splitSlash path).filter fun e => e != [] && e != ".".toList

/-- Do the two paths name the same directory entry. -/
def samePath (p q : Str) : Bool := pathElements p == pathElements q

/-- The file number behind `path`, if the file exists. -/
def Disk.lookup (d : Disk) (path : Str) : Option Nat :=
  (d.names.find? fun e => samePath e.1 path).map fun e => e.2

/-- The content of the file at `path`, if the file exists. -/
def Disk.read (d : Disk) (path : Str) : Option Str :=
  (d.lookup path).map fun f => d.files.getD f []

/-- The call `os.Create(path)`: an existing file is truncated, else an empty file is made;
the open file is returned. -/
def Disk.create (d : Disk) (path : Str) : Disk × Nat :=
  match d.lookup path with
  | some f => ({ d with files := d.files.set f [] }, f)
  | none => (⟨(path, d.files.length) :: d.names, d.files ++ [[]]⟩, d.files.length)

/-- One `Write` of `io.Copy`: the character `ch` goes to offset `k` of the open file `f`; a
gap before the offset reads as zero bytes. -/
def Disk.writeAt (d : Disk) (f k : Nat) (ch : Char) : Disk :=
  let old := d.files.getD f []
  let new := old.take k ++ List.replicate (k - old.length) (Char.ofNat 0) ++ ch :: old.drop (k + 1)
  { d with files := d.files.set f new }

/-- The call `os.Rename(old, new)`: it fails when `old` does not exist, else `new` names the
file of `old` from then on. -/
def Disk.rename (d : Disk) (old new : Str) : Option Disk :=
  match d.lookup old with
  | none => none
  | some f =>
    some { d with
      names := (new, f) :: d.names.filter fun e => !samePath e.1 old && !samePath e.1 new }

/-- Where a `gcsOpen` call stands: the statement it runs next, with the content of its reader
and its open file, or what it has returned. -/
inductive Pc where
  | osOpen : Pc
  | mkdirAll : Pc
  | newReader : Pc
  | create : Str → Pc
  | copy : Nat → Str → Nat → Pc
  | close : Nat → Pc
  | rename : Pc
  | reopen : Pc
  | opened : Nat → Pc
  | failed : Err → Pc
  deriving DecidableEq, Repr

/-- One statement of `Client.gcsOpen` for `bucket`, `object`, where no I/O step fails unless
the state of the directory makes it fail; `io.Copy` writes one character per step. -/
def gcsOpenStep (w : World) (bucket object : Str) (d : Disk) : Pc → Disk × Pc
  -- f, err := os.Open(path)
  | .osOpen =>
    match d.lookup (cachePath bucket object) with
    | some f => (d, .opened f)
    | none => (d, .mkdirAll)
  -- err = os.MkdirAll(filepath.Dir(path), os.ModePerm)
  | .mkdirAll => (d, .newReader)
  -- r, err := bkt.Object(object).NewReader(ctx)
  | .newReader =>
    match w.object bucket object with
    | .notExist => (d, .failed (.wrap (unableToOpen bucket object) .ErrObjectNotExist))
    | .fail code => (d, .failed (.wrap (unableToOpen bucket object) (.remote code)))
    | .content data => (d, .create data)
  -- f, err = os.Create(path + ".part")
  | .create data =>
    let r := d.create (cachePath bucket object ++ ".part".toList)
    (r.1, .copy r.2 data 0)
  -- _, err = io.Copy(f, r)
  | .copy f data k =>
    match data[k]? with
    | some ch => (d.writeAt f k ch, .copy f data (k + 1))
    | none => (d, .close f)
  -- err = f.Close()
  | .close _ => (d, .rename)
  -- err = os.Rename(path+".part", path)
  | .rename =>
    match d.rename (cachePath bucket object ++ ".part".toList) (cachePath bucket object) with
    | some d₁ => (d₁, .reopen)
    | none => (d, .failed (.os 6))
  -- return os.Open(path)
  | .reopen =>
    match d.lookup (cachePath bucket object) with
    | some f => (d, .opened f)
    | none => (d, .failed (.os 7))
  | .opened f => (d, .opened f)
  | .failed e => (d, .failed e)

/-- Calls run statement by statement: `turns` lists, in order, which call runs its next
statement, so that calls can overlap in time or follow one another; `pcs` holds where each
call stands. -/
def runOverlapped (w : World) (calls : List (Str × Str)) :
    Disk → List Pc → List Nat → Disk × List Pc
  | d, pcs, [] => (d, pcs)
  | d, pcs, i :: turns =>
    match calls[i]?, pcs[i]? with
    | some (bucket, object), some pc =>
      let r := gcsOpenStep w bucket object d pc
      runOverlapped w calls r.1 (pcs.set i r.2) turns
    | _, _ => runOverlapped w calls d pcs turns

/-- A world for examples: every remote object holds `abc`, and nothing fails. -/
def World.plain : World :=
  { World.empty with object := fun _ _ => .content "abc".toList }

/-- A world for examples: the remote object `logs/job/1/junit.xml` holds `xyz`, every other
remote object holds `abc`, and nothing fails. -/
def World.twoReports : World :=
  { World.empty with
    object := fun _ object =>
      if object = "logs/job/1/junit.xml".toList then .content "xyz".toList
      else .content "abc".toList }

/-- The rows of `build` as a per-build step that starts in `s` makes them, and the events
`pre` of the step up to the end of the fetches.  The metadata `buildMeta` is that of the build,
with the file set the step sees; from `s` the step only looked (state `s₀`), resolved the
status `st` from the manifests, saved the metadata if it was not cached (state `s₁`), and
fetched all report files and all build logs of the file set without error (state `s₃`);
`rows` are the rows made from all these results. -/
def FetchedRows (w : World) (s : Sys) (build : Build) (st : BuildStatus) (pre : List Event)
    (rows : List DBTestResult) : Prop :=
  ∃ (buildMeta : BuildMeta) (s₀ s₀' s₁ s₂ s₃ : Sys) (pre₀ : List Event)
    (resultsList buildLogs : List TestResult),
    buildMeta.Build = build ∧ buildFileSet w s.db build = some buildMeta.Files ∧
    s₀.db = s.db ∧ s₀.cache = s.cache ∧ s₀.trace = s.trace ++ pre₀ ∧
    (∀ ev ∈ pre₀, ev.isWrite = false ∧ ev.isFetch = false) ∧
    GetBuildStatus w s₀ buildMeta = (s₀', .ok st) ∧
    (s₁ = s₀' ∨ saveBuildMeta w s₀' buildMeta = (s₁, none)) ∧
    GetTestResults w s₁ buildMeta = (s₂, resultsList, none) ∧
    GetBuildLogs w s₂ buildMeta = (s₃, buildLogs, none) ∧
    s₃.trace = s.trace ++ pre ∧
    rows = testResultRows build.Job build.BuildID st.FinishedTimestamp
      (resultsList ++ buildLogs)

/-- A world for examples: `World.sample`, but the database fails at its fifteenth call, which
is the second insert of a row of build `1`. -/
def World.rowFault : World :=
  { World.sample with dbFault := fun n => if n = 14 then some 1 else none }

/-! ## Properties of the string order -/

theorem char_eq_of_toNat_eq {a b : Char} (h : a.toNat = b.toNat) : a = b := by
  apply Char.ext
  apply UInt32.ext
  exact h

theorem strLess_asymm : ∀ a b : Str, strLess a b = true → strLess b a = false
  | [], [] => by simp [strLess]
  | [], _ :: _ => by simp [strLess]
  | _ :: _, [] => by simp [strLess]
  | a :: as, b :: bs => by
    intro h
    simp only [strLess, Bool.or_eq_true, decide_eq_true_eq, Bool.and_eq_true, beq_iff_eq] at h
    simp only [strLess, Bool.or_eq_false_iff, decide_eq_false_iff_not, Bool.and_eq_false_imp,
      beq_iff_eq]
    rcases h with h | ⟨rfl, h⟩
    · refine ⟨by omega, ?_⟩
      intro hb
      subst hb
      omega
    · exact ⟨by omega, fun _ => strLess_asymm as bs h⟩

theorem strLess_antisymm : ∀ a b : Str, strLess b a = false → strLess a b = false → a = b
  | [], [] => by simp
  | [], _ :: _ => by simp [strLess]
  | _ :: _, [] => by simp [strLess]
  | a :: as, b :: bs => by
    intro h1 h2
    simp only [strLess, Bool.or_eq_false_iff, decide_eq_false_iff_not, Bool.and_eq_false_imp,
      beq_iff_eq] at h1 h2
    have hab : a = b := char_eq_of_toNat_eq (by omega)
    subst hab
    rw [strLess_antisymm as bs (h1.2 rfl) (h2.2 rfl)]

theorem strLess_trans_le : ∀ a b c : Str,
    strLess b a = false → strLess c b = false → strLess c a = false
  | [], _, [] => by simp [strLess]
  | [], [], _ :: _ => by simp [strLess]
  | [], _ :: _, _ :: _ => by simp [strLess]
  | _ :: _, [], _ => by simp [strLess]
  | _ :: _, _ :: _, [] => by simp [strLess]
  | a :: as, b :: bs, c :: cs => by
    intro h1 h2
    simp only [strLess, Bool.or_eq_false_iff, decide_eq_false_iff_not, Bool.and_eq_false_imp,
      beq_iff_eq] at h1 h2 ⊢
    refine ⟨by omega, ?_⟩
    intro hca
    subst hca
    have hcb : c = b := char_eq_of_toNat_eq (by omega)
    subst hcb
    exact strLess_trans_le as bs cs (h1.2 rfl) (h2.2 rfl)

theorem strLE_total (a b : Str) : strLE a b ∨ strLE b a := by
  unfold strLE
  cases h : strLess b a
  · exact Or.inl rfl
  · exact Or.inr (strLess_asymm b a h)

/-- The signature does not depend on the order in which the map's keys are enumerated. -/
theorem signatureOfKeys_perm {k₁ k₂ : List Str} (h : k₁.Perm k₂) :
    signatureOfKeys k₁ = signatureOfKeys k₂ := by
  unfold signatureOfKeys
  haveI : IsTotal Str strLE := ⟨strLE_total⟩
  haveI : IsTrans Str strLE := ⟨strLess_trans_le⟩
  haveI : IsAntisymm Str strLE := ⟨strLess_antisymm⟩
  have hp : (k₁.insertionSort strLE).Perm (k₂.insertionSort strLE) :=
    (List.perm_insertionSort strLE k₁).trans (h.trans (List.perm_insertionSort strLE k₂).symm)
  rw [List.eq_of_perm_of_sorted hp (List.sorted_insertionSort strLE k₁)
    (List.sorted_insertionSort strLE k₂)]

/-- Texts with the same set of surviving denoised lines have the same signature. -/
theorem generateSignature_congr (a b : Str)
    (h : ∀ l, l ∈ errorLines a ↔ l ∈ errorLines b) :
    generateSignature a = generateSignature b := by
  unfold generateSignature
  apply signatureOfKeys_perm
  rw [List.perm_ext_iff_of_nodup (List.nodup_dedup _) (List.nodup_dedup _)]
  intro l
  simp only [List.mem_dedup]
  exact h l


/-! ## Properties of the reconcile loop -/

theorem promote_length (ptrs : List Nat) : ∀ heap : List TestResult,
    (promote heap ptrs).length = heap.length := by
  induction ptrs with
  | nil => intro heap; rfl
  | cons p ps ih =>
    intro heap
    unfold promote
    split
    · exact ih heap
    · split
      · rw [ih, List.length_set]
      · exact ih heap

theorem promote_getElem? (ptrs : List Nat) : ∀ (heap : List TestResult) (i : Nat)
    (r : TestResult), heap[i]? = some r →
    (promote heap ptrs)[i]? = some
      (if i ∈ ptrs ∧ r.Status = TestStatusFailure then { r with Status := TestStatusFlake }
        else r) := by
  induction ptrs with
  | nil => intro heap i r h; simpa [promote] using h
  | cons p ps ih =>
    intro heap i r h
    unfold promote
    split
    · rename_i hp
      have hne : i ≠ p := by
        rintro rfl
        simp only [List.get?_eq_getElem?] at hp
        rw [hp] at h
        cases h
      rw [ih heap i r h]
      simp [hne]
    · rename_i r0 hp
      simp only [List.get?_eq_getElem?] at hp
      split
      · rename_i hs
        by_cases hip : i = p
        · subst hip
          have hr : r0 = r := by rw [hp] at h; exact Option.some.inj h
          subst hr
          have h' : (heap.set i { r0 with Status := TestStatusFlake })[i]? =
              some { r0 with Status := TestStatusFlake } := by
            have hlt : i < heap.length := by
              by_contra hge
              rw [List.getElem?_eq_none (by omega)] at hp
              cases hp
            simp [List.getElem?_set, hlt]
          rw [ih _ i _ h']
          simp [hs, TestStatusFlake, TestStatusFailure]
        · have h' : (heap.set p { r0 with Status := TestStatusFlake })[i]? = some r := by
            rw [List.getElem?_set_ne (Ne.symm hip)]
            exact h
          rw [ih _ i r h']
          simp [hip]
      · rename_i hs
        rw [ih heap i r h]
        by_cases hip : i = p
        · subst hip
          have hr : r0 = r := by rw [hp] at h; exact Option.some.inj h
          subst hr
          simp [hs]
        · simp [hip]


theorem ResultMap.get_set (key : Str) (v : List Nat) (key' : Str) : ∀ m : ResultMap,
    (ResultMap.set m key v).get key' = if key = key' then v else ResultMap.get m key' := by
  intro m
  induction m with
  | nil => simp [ResultMap.set, ResultMap.get]
  | cons e rest ih =>
    obtain ⟨k, w⟩ := e
    by_cases hk : k = key
    · subst hk
      by_cases hk' : k = key' <;> simp [ResultMap.set, ResultMap.get, hk']
    · by_cases hk' : k = key'
      · subst hk'
        have : ¬ key = k := fun h => hk h.symm
        simp [ResultMap.set, ResultMap.get, hk, this]
      · simp [ResultMap.set, ResultMap.get, hk, hk', ih]

theorem ResultMap.keys_set (key : Str) (v : List Nat) : ∀ m : ResultMap,
    (ResultMap.set m key v).map Prod.fst =
      if key ∈ m.map Prod.fst then m.map Prod.fst else m.map Prod.fst ++ [key] := by
  intro m
  induction m with
  | nil => simp [ResultMap.set]
  | cons e rest ih =>
    obtain ⟨k, w⟩ := e
    by_cases hk : k = key
    · subst hk
      simp [ResultMap.set]
    · have hk' : ¬ key = k := fun h => hk h.symm
      simp only [ResultMap.set, hk, if_false, List.map_cons, ih, List.mem_cons, hk', false_or]
      split <;> simp

theorem ResultMap.nodup_keys_set (key : Str) (v : List Nat) (m : ResultMap)
    (h : (m.map Prod.fst).Nodup) : ((ResultMap.set m key v).map Prod.fst).Nodup := by
  rw [ResultMap.keys_set]
  split
  · exact h
  · rename_i hk
    rw [List.nodup_append]
    refine ⟨h, List.nodup_singleton _, ?_⟩
    intro a ha hb
    simp only [List.mem_singleton] at hb
    subst hb
    exact hk ha

theorem ResultMap.size_set (key : Str) (i : Nat) : ∀ m : ResultMap,
    ((ResultMap.set m key (ResultMap.get m key ++ [i])).map fun e => e.2.length).sum =
      (m.map fun e => e.2.length).sum + 1 := by
  intro m
  induction m with
  | nil => simp [ResultMap.set, ResultMap.get]
  | cons e rest ih =>
    obtain ⟨k, w⟩ := e
    by_cases hk : k = key
    · subst hk
      simp [ResultMap.set, ResultMap.get]
      omega
    · simp only [ResultMap.set, ResultMap.get, hk, if_false, List.map_cons, List.sum_cons, ih]
      omega


theorem laterSuccess_succ (rs : List TestResult) (k i : Nat) (t : Str) :
    laterSuccess rs (k + 1) i t =
      (laterSuccess rs k i t ||
        (decide (i < k) &&
          match rs[k]? with
          | some r => decide (r.Test = t ∧ r.Status = TestStatusSuccess)
          | none => false)) := by
  simp [laterSuccess, List.range_succ, List.any_append]

theorem laterSuccess_of_le (rs : List TestResult) (k i : Nat) (t : Str) (h : k ≤ i + 1) :
    laterSuccess rs k i t = false := by
  unfold laterSuccess
  rw [List.any_eq_false]
  intro j hj
  have : j < k := List.mem_range.mp hj
  have hij : ¬ i < j := by omega
  simp [hij]

theorem positionsOf_succ (rs : List TestResult) (k : Nat) (t : Str) (r : TestResult)
    (h : rs[k]? = some r) :
    positionsOf rs (k + 1) t = if r.Test = t then positionsOf rs k t ++ [k]
      else positionsOf rs k t := by
  unfold positionsOf
  rw [List.range_succ, List.filter_append]
  by_cases ht : r.Test = t <;> simp [List.filter, h, ht]

theorem mem_positionsOf (rs : List TestResult) (k : Nat) (t : Str) (i : Nat) (r : TestResult)
    (h : rs[i]? = some r) : i ∈ positionsOf rs k t ↔ i < k ∧ r.Test = t := by
  simp [positionsOf, h]

theorem reconcileInv_zero (rs : List TestResult) : ReconcileInv rs 0 (rs, []) where
  len := rfl
  heap := by
    intro i r h
    have : expStatus rs 0 i r = r.Status := by
      simp [expStatus, laterSuccess]
    simp [h, this]
  get := by intro t; simp [ResultMap.get, positionsOf]
  keys := by simp
  size := by simp


theorem expStatus_self (rs : List TestResult) (k i : Nat) (r : TestResult) (h : k ≤ i + 1) :
    expStatus rs k i r = r.Status := by
  simp [expStatus, laterSuccess_of_le rs k i r.Test h]

theorem reconcileStep_eq (rs : List TestResult) (k : Nat) (st : List TestResult × ResultMap)
    (result : TestResult) (hr : rs[k]? = some result) (inv : ReconcileInv rs k st) :
    reconcileStep st k =
      (if result.Status = TestStatusSuccess then promote st.1 (positionsOf rs k result.Test)
        else st.1,
       st.2.set result.Test (positionsOf rs k result.Test ++ [k])) := by
  have h := inv.heap k result hr
  rw [expStatus_self rs k k result (by omega)] at h
  have h' : st.1.get? k = some result := by
    rw [List.get?_eq_getElem?, h]
  unfold reconcileStep
  rw [h']
  simp only [inv.get]

theorem reconcileInv_step (rs : List TestResult) (k : Nat) (st : List TestResult × ResultMap)
    (hk : k < rs.length) (inv : ReconcileInv rs k st) :
    ReconcileInv rs (k + 1) (reconcileStep st k) := by
  have hr : rs[k]? = some rs[k] := List.getElem?_eq_getElem hk
  generalize rs[k] = result at hr
  rw [reconcileStep_eq rs k st result hr inv]
  refine ⟨?_, ?_, ?_, ?_, ?_⟩
  · show (if _ then _ else _ : List TestResult).length = _
    split
    · rw [promote_length, inv.len]
    · exact inv.len
  · intro i r hi
    have h := inv.heap i r hi
    show (if _ then _ else _ : List TestResult)[i]? = _
    have hls := laterSuccess_succ rs k i r.Test
    rw [hr] at hls
    split
    · rename_i hs
      rw [promote_getElem? _ _ i _ h]
      congr 1
      simp only [mem_positionsOf rs k result.Test i r hi, expStatus, hls, hs]
      by_cases hf : r.Status = TestStatusFailure
      · by_cases hl : laterSuccess rs k i r.Test = true
        · simp [hf, hl, TestStatusFlake, TestStatusFailure]
        · by_cases hik : i < k
          · by_cases ht : result.Test = r.Test
            · simp [hf, hl, hik, ht]
            · have ht' : ¬ r.Test = result.Test := fun e => ht e.symm
              simp [hf, hl, hik, ht, ht']
          · simp [hf, hl, hik]
      · simp [hf]
    · rename_i hs
      rw [h]
      congr 1
      simp [expStatus, hls, hs]
  · intro t
    show ResultMap.get (ResultMap.set _ _ _) t = _
    rw [ResultMap.get_set, positionsOf_succ rs k t result hr, inv.get]
    by_cases ht : result.Test = t
    · subst ht
      simp
    · simp [ht]
  · exact ResultMap.nodup_keys_set _ _ _ inv.keys
  · show ((ResultMap.set _ _ _).map _).sum = _
    rw [← inv.get, ResultMap.size_set, inv.size]

theorem reconcileInv_upto (rs : List TestResult) : ∀ k, k ≤ rs.length →
    ReconcileInv rs k (reconcileUpto rs k) := by
  intro k
  induction k with
  | zero => intro _; exact reconcileInv_zero rs
  | succ k ih =>
    intro hk
    have h := reconcileInv_step rs k _ (by omega) (ih (by omega))
    unfold reconcileUpto at h ⊢
    rw [List.range_succ, List.foldl_append]
    exact h

theorem reconcileInv_final (rs : List TestResult) :
    ReconcileInv rs rs.length (reconcile rs) :=
  reconcileInv_upto rs rs.length (Nat.le_refl _)


theorem laterSuccess_iff (rs : List TestResult) (i : Nat) (t : Str) :
    laterSuccess rs rs.length i t = true ↔
      ∃ j r₂, i < j ∧ rs[j]? = some r₂ ∧ r₂.Test = t ∧ r₂.Status = TestStatusSuccess := by
  unfold laterSuccess
  rw [List.any_eq_true]
  constructor
  · rintro ⟨j, _, hj⟩
    rw [Bool.and_eq_true, decide_eq_true_eq] at hj
    obtain ⟨hij, hm⟩ := hj
    cases hjr : rs[j]? with
    | none => rw [hjr] at hm; cases hm
    | some r₂ =>
      rw [hjr] at hm
      simp only [decide_eq_true_eq] at hm
      exact ⟨j, r₂, hij, hjr, hm.1, hm.2⟩
  · rintro ⟨j, r₂, hij, hjr, ht, hs⟩
    refine ⟨j, ?_, ?_⟩
    · rw [List.mem_range]
      by_contra hge
      rw [List.getElem?_eq_none (by omega)] at hjr
      cases hjr
    · rw [hjr]
      simp [hij, ht, hs]

/-- C2 (flake promotion).  The reconcile loop keeps the number of results, and the name and
the output of every result; it keeps the status of every result whose status is not
`Failure`; a result with status `Failure` ends with status `Flake` or `Failure`, and with
`Flake` exactly when a later result of the list has the same test name and status `Success`.
In particular the attempts `[Failure, Failure, Success]` of one test end as
`[Flake, Flake, Success]` and `[Failure, Failure]` stays as it is. -/
theorem reconcile_flake_promotion :
    (∀ (rs : List TestResult) (i : Nat) (r : TestResult), rs[i]? = some r →
      (reconcile rs).1.length = rs.length ∧
      ∃ r' : TestResult, (reconcile rs).1[i]? = some r' ∧ r'.Test = r.Test ∧
        r'.Output = r.Output ∧
        (r.Status ≠ TestStatusFailure → r'.Status = r.Status) ∧
        (r.Status = TestStatusFailure →
          (r'.Status = TestStatusFlake ∨ r'.Status = TestStatusFailure) ∧
          (r'.Status = TestStatusFlake ↔
            ∃ j r₂, i < j ∧ rs[j]? = some r₂ ∧ r₂.Test = r.Test ∧
              r₂.Status = TestStatusSuccess))) ∧
    (∀ t o₁ o₂ o₃ : Str,
      (reconcile [⟨t, TestStatusFailure, o₁⟩, ⟨t, TestStatusFailure, o₂⟩,
          ⟨t, TestStatusSuccess, o₃⟩]).1 =
        [⟨t, TestStatusFlake, o₁⟩, ⟨t, TestStatusFlake, o₂⟩, ⟨t, TestStatusSuccess, o₃⟩]) ∧
    (∀ t o₁ o₂ : Str,
      (reconcile [⟨t, TestStatusFailure, o₁⟩, ⟨t, TestStatusFailure, o₂⟩]).1 =
        [⟨t, TestStatusFailure, o₁⟩, ⟨t, TestStatusFailure, o₂⟩]) := by
  refine ⟨?_, ?_, ?_⟩
  · intro rs i r hi
    have inv := reconcileInv_final rs
    refine ⟨inv.len, _, inv.heap i r hi, rfl, rfl, ?_, ?_⟩
    · intro hf
      simp [expStatus, hf]
    · intro hf
      have hiff := laterSuccess_iff rs i r.Test
      by_cases hl : laterSuccess rs rs.length i r.Test = true
      · have he : expStatus rs rs.length i r = TestStatusFlake := by simp [expStatus, hf, hl]
        simp only [he, true_or, true_and, true_iff]
        exact hiff.mp hl
      · have he : expStatus rs rs.length i r = TestStatusFailure := by
          simp [expStatus, hf, hl]
        simp only [he, or_true, true_and]
        constructor
        · intro h; cases h
        · intro h; exact absurd (hiff.mpr h) hl
  · intro t o₁ o₂ o₃
    simp [reconcile, reconcileUpto, reconcileStep, promote, ResultMap.get, ResultMap.set,
      List.range_succ, TestStatusFailure, TestStatusSuccess, TestStatusFlake]
  · intro t o₁ o₂
    simp [reconcile, reconcileUpto, reconcileStep, promote, ResultMap.get, ResultMap.set,
      List.range_succ, TestStatusFailure, TestStatusSuccess, TestStatusFlake]

/-- Witness for C2: the second of the attempts `[Failure, Failure, Success]` of a test. -/
theorem reconcile_flake_promotion_witness :
    (reconcile [⟨['t'], TestStatusFailure, []⟩, ⟨['t'], TestStatusFailure, ['x']⟩,
        ⟨['t'], TestStatusSuccess, []⟩]).1.length = 3 ∧
    ∃ r' : TestResult,
      (reconcile [⟨['t'], TestStatusFailure, []⟩, ⟨['t'], TestStatusFailure, ['x']⟩,
        ⟨['t'], TestStatusSuccess, []⟩]).1[1]? = some r' ∧ r'.Test = ['t'] ∧
        r'.Output = ['x'] ∧
        (TestStatusFailure ≠ TestStatusFailure → r'.Status = TestStatusFailure) ∧
        (TestStatusFailure = TestStatusFailure →
          (r'.Status = TestStatusFlake ∨ r'.Status = TestStatusFailure) ∧
          (r'.Status = TestStatusFlake ↔
            ∃ j r₂, 1 < j ∧
              ([⟨['t'], TestStatusFailure, []⟩, ⟨['t'], TestStatusFailure, ['x']⟩,
                ⟨['t'], TestStatusSuccess, []⟩] : List TestResult)[j]? = some r₂ ∧
              r₂.Test = ['t'] ∧ r₂.Status = TestStatusSuccess)) :=
  reconcile_flake_promotion.1
    [⟨['t'], TestStatusFailure, []⟩, ⟨['t'], TestStatusFailure, ['x']⟩,
      ⟨['t'], TestStatusSuccess, []⟩] 1 ⟨['t'], TestStatusFailure, ['x']⟩ rfl


theorem splitLines_of_no_newline : ∀ line : Str, '\n' ∉ line → splitLines line = [line]
  | [], _ => rfl
  | c :: cs, h => by
    have hc : ¬ c = '\n' := fun e => h (by simp [e])
    have hcs : '\n' ∉ cs := fun e => h (List.mem_cons_of_mem _ e)
    simp [splitLines, hc, splitLines_of_no_newline cs hcs]

theorem splitLines_append_newline (rest : Str) : ∀ l : Str, '\n' ∉ l →
    splitLines (l ++ '\n' :: rest) = l :: splitLines rest
  | [], _ => by simp [splitLines]
  | c :: l, h => by
    have hc : ¬ c = '\n' := fun e => h (by simp [e])
    have hl : '\n' ∉ l := fun e => h (List.mem_cons_of_mem _ e)
    simp [splitLines, hc, splitLines_append_newline rest l hl]

theorem splitLines_intercalate : ∀ lines : List Str, lines ≠ [] →
    (∀ l ∈ lines, '\n' ∉ l) → splitLines (List.intercalate ['\n'] lines) = lines
  | [], h, _ => absurd rfl h
  | [l], _, hl => by
    have := splitLines_of_no_newline l (hl l (List.mem_cons_self _ _))
    simpa [List.intercalate, List.intersperse] using this
  | l :: l' :: ls, _, hl => by
    have ih := splitLines_intercalate (l' :: ls) (by simp)
      (fun x hx => hl x (List.mem_cons_of_mem _ hx))
    have e : List.intercalate ['\n'] (l :: l' :: ls) =
        l ++ '\n' :: List.intercalate ['\n'] (l' :: ls) := by
      simp [List.intercalate, List.intersperse]
    rw [e, splitLines_append_newline _ l (hl l (List.mem_cons_self _ _)), ih]

/-- C1 (signature determinism).  Two output texts whose sets of denoised lines that pass the
filter are equal have the same signature; so the signature of a text made of lines does not
change when the lines are permuted or repeated; in particular
`ERROR: foo 123\nERROR: foo 456` and `ERROR: foo 456\nERROR: foo 123` have the same
signature. -/
theorem generateSignature_set_invariant :
    (∀ a b : Str, (∀ l, l ∈ errorLines a ↔ l ∈ errorLines b) →
      generateSignature a = generateSignature b) ∧
    (∀ lines₁ lines₂ : List Str, lines₁ ≠ [] → lines₂ ≠ [] →
      (∀ l ∈ lines₁, '\n' ∉ l) → (∀ l ∈ lines₂, '\n' ∉ l) →
      (∀ l, l ∈ lines₁ ↔ l ∈ lines₂) →
      generateSignature (List.intercalate ['\n'] lines₁) =
        generateSignature (List.intercalate ['\n'] lines₂)) ∧
    generateSignature "ERROR: foo 123\nERROR: foo 456".toList =
      generateSignature "ERROR: foo 456\nERROR: foo 123".toList := by
  refine ⟨generateSignature_congr, ?_, ?_⟩
  · intro lines₁ lines₂ h₁ h₂ n₁ n₂ hset
    apply generateSignature_congr
    intro l
    simp only [errorLines, splitLines_intercalate _ h₁ n₁, splitLines_intercalate _ h₂ n₂,
      List.mem_filter, List.mem_map, hset]
  · decide

/-- Witness for C1: three lines against a reordering of them with one line repeated and the
numbers changed. -/
theorem generateSignature_set_invariant_witness :
    (∀ l, l ∈ errorLines "b failed 1\na error\nok\nb failed 22".toList ↔
      l ∈ errorLines "a error\nb failed 7\na error".toList) ∧
    generateSignature "b failed 1\na error\nok\nb failed 22".toList =
      generateSignature "a error\nb failed 7\na error".toList := by
  have ha : errorLines "b failed 1\na error\nok\nb failed 22".toList =
      ["b failed 0".toList, "a error".toList, "b failed 0".toList] := by decide
  have hb : errorLines "a error\nb failed 7\na error".toList =
      ["a error".toList, "b failed 0".toList, "a error".toList] := by decide
  have h : ∀ l, l ∈ errorLines "b failed 1\na error\nok\nb failed 22".toList ↔
      l ∈ errorLines "a error\nb failed 7\na error".toList := by
    intro l
    rw [ha, hb]
    simp only [List.mem_cons, List.mem_singleton, List.not_mem_nil, or_false]
    tauto
  exact ⟨h, generateSignature_set_invariant.1 _ _ h⟩


/-! ## Properties of the persisted rows -/

theorem groupRows_test (job buildID : Str) (fin : Int) (heap : List TestResult) (test : Str)
    (ptrs : List Nat) : ∀ row ∈ groupRows job buildID fin heap test ptrs, row.Test = test := by
  intro row h
  simp only [groupRows, List.mem_map] at h
  obtain ⟨_, _, rfl⟩ := h
  rfl

theorem groupRows_length (job buildID : Str) (fin : Int) (heap : List TestResult) (test : Str)
    (ptrs : List Nat) : (groupRows job buildID fin heap test ptrs).length = ptrs.length := by
  simp [groupRows]

theorem mapRows_test (job buildID : Str) (fin : Int) (heap : List TestResult) (m : ResultMap) :
    ∀ row ∈ mapRows job buildID fin heap m, row.Test ∈ m.map Prod.fst := by
  intro row h
  simp only [mapRows, List.mem_flatMap] at h
  obtain ⟨e, he, hrow⟩ := h
  rw [groupRows_test _ _ _ _ _ _ row hrow]
  exact List.mem_map_of_mem _ he

theorem mapRows_length (job buildID : Str) (fin : Int) (heap : List TestResult) :
    ∀ m : ResultMap,
      (mapRows job buildID fin heap m).length = (m.map fun e => e.2.length).sum := by
  intro m
  induction m with
  | nil => rfl
  | cons e rest ih =>
    have : mapRows job buildID fin heap (e :: rest) =
        groupRows job buildID fin heap e.1 e.2 ++ mapRows job buildID fin heap rest := by
      simp [mapRows]
    rw [this, List.length_append, ih, groupRows_length]
    simp

theorem mapRows_filter (job buildID : Str) (fin : Int) (heap : List TestResult) (t : Str) :
    ∀ m : ResultMap, (m.map Prod.fst).Nodup →
      (mapRows job buildID fin heap m).filter (fun row => decide (row.Test = t)) =
        groupRows job buildID fin heap t (ResultMap.get m t) := by
  intro m
  induction m with
  | nil => intro _; rfl
  | cons e rest ih =>
    intro hnd
    obtain ⟨k, v⟩ := e
    have hcons : mapRows job buildID fin heap ((k, v) :: rest) =
        groupRows job buildID fin heap k v ++ mapRows job buildID fin heap rest := by
      simp [mapRows]
    rw [hcons, List.filter_append]
    simp only [List.map_cons, List.nodup_cons] at hnd
    by_cases hk : k = t
    · subst hk
      have h1 : (groupRows job buildID fin heap k v).filter (fun row => decide (row.Test = k)) =
          groupRows job buildID fin heap k v := by
        rw [List.filter_eq_self]
        intro row hrow
        simp [groupRows_test _ _ _ _ _ _ row hrow]
      have h2 : (mapRows job buildID fin heap rest).filter (fun row => decide (row.Test = k)) =
          [] := by
        rw [List.filter_eq_nil_iff]
        intro row hrow
        have := mapRows_test _ _ _ _ _ row hrow
        simp only [decide_eq_true_eq]
        intro h
        rw [h] at this
        exact hnd.1 this
      rw [h1, h2]
      simp [ResultMap.get]
    · have h1 : (groupRows job buildID fin heap k v).filter (fun row => decide (row.Test = t)) =
          [] := by
        rw [List.filter_eq_nil_iff]
        intro row hrow
        simp [groupRows_test _ _ _ _ _ _ row hrow, hk]
      rw [h1, ih hnd.2]
      simp [ResultMap.get, hk]

theorem positionsOf_map (rs : List TestResult) (t : Str) : ∀ k, k ≤ rs.length →
    (positionsOf rs k t).map (fun p => rs[p]?.getD default) =
      (rs.take k).filter (fun r => decide (r.Test = t)) := by
  intro k
  induction k with
  | zero => intro _; simp [positionsOf]
  | succ k ih =>
    intro hk
    have hr : rs[k]? = some rs[k] := List.getElem?_eq_getElem (by omega)
    rw [positionsOf_succ rs k t _ hr, List.take_succ, hr, List.filter_append]
    by_cases ht : rs[k].Test = t
    · simp [ht, ih (by omega), hr, List.filter]
    · simp [ht, ih (by omega), List.filter]

theorem mem_positionsOf_lt (rs : List TestResult) (k : Nat) (t : Str) (p : Nat)
    (h : p ∈ positionsOf rs k t) : p < k := by
  simp only [positionsOf, List.mem_filter, List.mem_range] at h
  exact h.1


theorem testResultRows_filter (job buildID : Str) (fin : Int) (rs : List TestResult) (t : Str) :
    (testResultRows job buildID fin rs).filter (fun row => decide (row.Test = t)) =
      groupRows job buildID fin (reconcile rs).1 t (positionsOf rs rs.length t) := by
  have inv := reconcileInv_final rs
  unfold testResultRows
  rw [mapRows_filter _ _ _ _ _ _ inv.keys, inv.get]

theorem positionsOf_getElem? (rs : List TestResult) (t : Str) (k : Nat) (r : TestResult)
    (h : (rs.filter fun x => decide (x.Test = t))[k]? = some r) :
    ∃ p, (positionsOf rs rs.length t)[k]? = some p ∧ rs[p]? = some r := by
  have hm := positionsOf_map rs t rs.length (Nat.le_refl _)
  rw [List.take_length] at hm
  rw [← hm, List.getElem?_map] at h
  cases hp : (positionsOf rs rs.length t)[k]? with
  | none => rw [hp] at h; cases h
  | some p =>
    rw [hp] at h
    refine ⟨p, rfl, ?_⟩
    have hmem : p ∈ positionsOf rs rs.length t := List.getElem?_mem hp
    have hlt := mem_positionsOf_lt rs _ t p hmem
    have hr : rs[p]? = some rs[p] := List.getElem?_eq_getElem hlt
    simp only [Option.map_some', hr, Option.getD_some, Option.some.injEq] at h
    rw [hr, h]

theorem groupRows_pairwise (job buildID : Str) (fin : Int) (heap : List TestResult)
    (test : Str) (ptrs : List Nat) :
    (groupRows job buildID fin heap test ptrs).Pairwise fun a b => sameKey a b = false := by
  unfold groupRows
  rw [List.pairwise_map]
  have hnd : (ptrs.enum.map Prod.fst).Nodup := by
    rw [List.enum_map_fst]
    exact List.nodup_range _
  have hp : ptrs.enum.Pairwise fun a b => a.1 ≠ b.1 := by
    have := hnd
    unfold List.Nodup at this
    rwa [List.pairwise_map] at this
  refine hp.imp ?_
  intro a b hab
  simp only [sameKey, mkRow, decide_eq_false_iff_not, not_and]
  intro _ _ _ h
  apply hab
  omega

theorem mapRows_pairwise (job buildID : Str) (fin : Int) (heap : List TestResult)
    (m : ResultMap) (hnd : (m.map Prod.fst).Nodup) :
    (mapRows job buildID fin heap m).Pairwise fun a b => sameKey a b = false := by
  unfold mapRows
  rw [List.pairwise_flatMap]
  refine ⟨fun e _ => groupRows_pairwise _ _ _ _ _ _, ?_⟩
  have hp : m.Pairwise fun a b => a.1 ≠ b.1 := by
    unfold List.Nodup at hnd
    rwa [List.pairwise_map] at hnd
  refine hp.imp ?_
  intro e₁ e₂ hne x hx y hy
  have h1 := groupRows_test _ _ _ _ _ _ x hx
  have h2 := groupRows_test _ _ _ _ _ _ y hy
  simp only [sameKey, decide_eq_false_iff_not, not_and]
  intro _ _ h
  rw [h1, h2] at h
  exact absurd h hne

theorem testResultRows_job (job buildID : Str) (fin : Int) (rs : List TestResult) :
    ∀ row ∈ testResultRows job buildID fin rs, row.Job = job ∧ row.BuildID = buildID := by
  intro row h
  simp only [testResultRows, mapRows, List.mem_flatMap, groupRows, List.mem_map] at h
  obtain ⟨_, _, _, _, rfl⟩ := h
  exact ⟨rfl, rfl⟩

/-- Rows with pairwise distinct keys, none of which is in the table yet, are all inserted,
in order, when the database does not fail. -/
theorem saveRows_appends (w : World) (hw : ∀ n, w.dbFault n = none) :
    ∀ (rows : List DBTestResult) (s : Sys),
      rows.Pairwise (fun a b => sameKey a b = false) →
      (∀ r ∈ rows, ∀ x ∈ s.db.test_results, sameKey r x = false) →
      (saveRows w rows s).2 = none ∧
      (saveRows w rows s).1.db.test_results = s.db.test_results ++ rows
  | [], s, _, _ => ⟨rfl, by simp [saveRows]⟩
  | row :: rest, s, hp, hs => by
    rw [List.pairwise_cons] at hp
    have hany : s.db.test_results.any (sameKey row) = false := by
      rw [List.any_eq_false]
      intro x hx
      rw [hs row (List.mem_cons_self _ _) x hx]
      simp
    have h1 : saveTestResult w s row =
        ({ s.log (.saveTestResult row) with
            db := { s.db with test_results := s.db.test_results ++ [row] } }, none) := by
      unfold saveTestResult
      simp only [hw, Sys.log, hany]
      rfl
    unfold saveRows
    rw [h1]
    dsimp only
    have ih := saveRows_appends w hw rest
      { s.log (.saveTestResult row) with
        db := { s.db with test_results := s.db.test_results ++ [row] } } hp.2 (by
        intro r hr x hx
        simp only [List.mem_append, List.mem_singleton] at hx
        rcases hx with hx | rfl
        · exact hs r (List.mem_cons_of_mem _ hr) x hx
        · have := hp.1 r hr
          simp only [sameKey, decide_eq_false_iff_not, not_and] at this ⊢
          intro e1 e2 e3 e4
          exact this e1.symm e2.symm e3.symm e4.symm)
    refine ⟨ih.1, ?_⟩
    rw [ih.2]
    simp

/-- C3 (attempt indexing).  As many rows are handed to `saveTestResult` as there are input
results, and when the database does not fail and holds no row of the build yet, the table
`test_results` grows by exactly these rows.  For every test name `t` with `N` results in the
input, the rows of `t` are `N`, and the `k`-th of them belongs to the `k`-th result of `t` in
encounter order: it carries that result's output and signature, the status the reconcile
loop left it with, `Attempt = k - (N - 1)` and `Attempts = N`. -/
theorem attempt_indexing (job buildID : Str) (fin : Int) (rs : List TestResult) :
    (testResultRows job buildID fin rs).length = rs.length ∧
    (∀ (w : World) (s : Sys), (∀ n, w.dbFault n = none) →
      (∀ x ∈ s.db.test_results, ¬ (x.Job = job ∧ x.BuildID = buildID)) →
      (saveRows w (testResultRows job buildID fin rs) s).2 = none ∧
      (saveRows w (testResultRows job buildID fin rs) s).1.db.test_results =
        s.db.test_results ++ testResultRows job buildID fin rs) ∧
    ∀ (t : Str) (k : Nat) (r : TestResult),
      (rs.filter fun x => decide (x.Test = t))[k]? = some r →
      ((testResultRows job buildID fin rs).filter fun row => decide (row.Test = t)).length =
          (rs.filter fun x => decide (x.Test = t)).length ∧
      ∃ row : DBTestResult,
        ((testResultRows job buildID fin rs).filter fun row => decide (row.Test = t))[k]? =
          some row ∧
        row.Attempt = (k : Int) - (((rs.filter fun x => decide (x.Test = t)).length : Int) - 1) ∧
        row.Attempts = ((rs.filter fun x => decide (x.Test = t)).length : Int) ∧
        row.Job = job ∧ row.BuildID = buildID ∧ row.Test = t ∧ row.FinishedTimestamp = fin ∧
        row.Output = r.Output ∧ row.Signature = generateSignature r.Output ∧
        (row.Status = r.Status ∨
          (r.Status = TestStatusFailure ∧ row.Status = TestStatusFlake)) := by
  have inv := reconcileInv_final rs
  refine ⟨?_, ?_, ?_⟩
  · unfold testResultRows
    rw [mapRows_length, inv.size]
  · intro w s hw hs
    apply saveRows_appends w hw
    · exact mapRows_pairwise _ _ _ _ _ inv.keys
    · intro r hr x hx
      have h1 := testResultRows_job job buildID fin rs r hr
      have h2 := hs x hx
      simp only [sameKey, decide_eq_false_iff_not, not_and]
      intro e1 e2
      exact absurd ⟨e1.symm.trans h1.1, e2.symm.trans h1.2⟩ h2
  · intro t k r hk
    have hlen : (positionsOf rs rs.length t).length =
        (rs.filter fun x => decide (x.Test = t)).length := by
      have hm := positionsOf_map rs t rs.length (Nat.le_refl _)
      rw [List.take_length] at hm
      rw [← hm, List.length_map]
    obtain ⟨p, hp, hr⟩ := positionsOf_getElem? rs t k r hk
    have hheap := inv.heap p r hr
    rw [testResultRows_filter]
    refine ⟨by rw [groupRows_length, hlen], ?_⟩
    refine ⟨mkRow job buildID fin t (positionsOf rs rs.length t).length k
      { r with Status := expStatus rs rs.length p r }, ?_, ?_, ?_, rfl, rfl, rfl, rfl, rfl, rfl,
      ?_⟩
    · simp [groupRows, List.getElem?_map, hp, hheap]
    · simp only [mkRow, hlen]
      omega
    · simp only [mkRow, hlen]
    · simp only [mkRow, expStatus]
      split
      · rename_i h
        exact Or.inr ⟨h.1, rfl⟩
      · exact Or.inl rfl

/-- Witness for C3: the second of the three attempts of test `a`, with a result of test `b`
in between. -/
theorem attempt_indexing_witness :
    ∃ row : DBTestResult,
      ((testResultRows ['j'] ['1'] 7
          [⟨['a'], TestStatusFailure, ['x']⟩, ⟨['b'], TestStatusSuccess, []⟩,
            ⟨['a'], TestStatusFailure, ['y']⟩, ⟨['a'], TestStatusSuccess, ['z']⟩]).filter
        fun row => decide (row.Test = ['a']))[1]? = some row ∧
      row.Attempt = -1 ∧ row.Attempts = 3 ∧ row.Output = ['y'] := by
  obtain ⟨row, h1, h2, h3, _, _, _, _, h4, _⟩ :=
    ((attempt_indexing ['j'] ['1'] 7
      [⟨['a'], TestStatusFailure, ['x']⟩, ⟨['b'], TestStatusSuccess, []⟩,
        ⟨['a'], TestStatusFailure, ['y']⟩, ⟨['a'], TestStatusSuccess, ['z']⟩]).2.2
      ['a'] 1 ⟨['a'], TestStatusFailure, ['y']⟩ (by decide)).2
  refine ⟨row, h1, ?_, ?_, h4⟩
  · rw [h2]; decide
  · rw [h3]; decide


/-! ## Properties of the line filter -/

theorem foldEq_self (c : Char) : foldEq c c = true := by
  simp [foldEq]

theorem litI_run_self (k : Str → Option Str) (rest : Str) : ∀ s : Str,
    (Re.litI s).run k (s ++ rest) = k rest
  | [] => rfl
  | c :: s => by
    have ih := litI_run_self k rest s
    simp only [Re.litI, List.foldr_cons, Re.run, Re.chrI, List.cons_append, foldEq_self,
      if_true] at ih ⊢
    exact ih

theorem starRun_isSome (p : Char → Bool) (k : Str → Option Str) (rest : Str)
    (hk : (k rest).isSome = true) : ∀ x : Str, (∀ c ∈ x, p c = true) →
    (starRun p k (x ++ rest)).isSome = true
  | [], _ => by
    cases rest with
    | nil => simpa [starRun] using hk
    | cons c cs =>
      simp only [List.nil_append, starRun]
      split
      · split
        · rfl
        · exact hk
      · exact hk
  | c :: x, h => by
    have ih := starRun_isSome p k rest hk x (fun d hd => h d (List.mem_cons_of_mem _ hd))
    have hc : p c = true := h c (List.mem_cons_self _ _)
    simp only [List.cons_append, starRun, hc, if_true]
    split
    · rfl
    · rename_i hnone
      have ih' : (starRun p k (x.append rest)).isSome = true := ih
      rw [hnone] at ih'
      cases ih'

theorem matchString_of_run (re : Re) (s : Str) (h : (re.run some s).isSome = true) :
    matchString re s = true := by
  cases s with
  | nil => simpa [matchString] using h
  | cons c cs => simp [matchString, h]

theorem matchString_append_left (re : Re) (s : Str) (h : matchString re s = true) :
    ∀ a : Str, matchString re (a ++ s) = true
  | [] => h
  | c :: a => by
    simp [matchString, matchString_append_left re s h a]

/-- The exclusion pattern matches every text that contains `INFO: `, then characters other
than a newline, then ` event for`. -/
theorem matchString_excludeLineRe (a x b : Str) (hx : ∀ c ∈ x, isAny c = true) :
    matchString excludeLineRe (a ++ ("INFO: ".toList ++ (x ++ (" event for".toList ++ b)))) =
      true := by
  apply matchString_append_left
  apply matchString_of_run
  show ((Re.litI "INFO: ".toList).run
    ((Re.cat (.star isAny) (Re.litI " event for".toList)).run some)
    ("INFO: ".toList ++ (x ++ (" event for".toList ++ b)))).isSome = true
  rw [litI_run_self]
  show (starRun isAny ((Re.litI " event for".toList).run some)
    (x ++ (" event for".toList ++ b))).isSome = true
  apply starRun_isSome _ _ _ _ x hx
  rw [litI_run_self]
  rfl

theorem generateSignature_single (line : Str) (h : '\n' ∉ line)
    (hk : keepLine (Denoise line) = false) : generateSignature line = [] := by
  simp [generateSignature, errorLines, splitLines_of_no_newline line h, hk, signatureOfKeys]
  rfl


/-- C4, as the spec states it, fails: the signature of the line
`connection to 10.0.0.5 timed out after 30s` is not
`connection to 0.0.0.0 timed out after 0s`. -/
theorem generateSignature_connection_not_spec :
    generateSignature "connection to 10.0.0.5 timed out after 30s".toList ≠
      "connection to 0.0.0.0 timed out after 0s".toList := by
  decide

/-- C4 (amended).  The signature of the line `connection to 10.0.0.5 timed out after 30s` is
`connection to 0.RANDOM timed out after 0s`: every run of digits becomes `0`, then the
separator-led run `.0.0.0` becomes `.RANDOM`, and the line is kept because it matches the
error pattern. -/
theorem generateSignature_connection :
    generateSignature "connection to 10.0.0.5 timed out after 30s".toList =
      "connection to 0.RANDOM timed out after 0s".toList := by
  decide

/-- C5, as the spec states it, fails: a single line that contains `INFO: foo event for bar`
can have a non-empty signature, since `Denoise` may rewrite the word `INFO` before the
exclusion pattern is tried. -/
theorem generateSignature_exclusion_not_spec :
    ¬ ∀ line : Str, '\n' ∉ line → "INFO: foo event for bar".toList <:+: line →
      generateSignature line = [] := by
  intro h
  have h1 := h "fail-INFO: foo event for bar".toList (by decide)
    ⟨"fail-".toList, [], by decide⟩
  have h2 : generateSignature "fail-INFO: foo event for bar".toList =
      "fail-RANDOM: foo event for bar".toList := by decide
  rw [h2] at h1
  cases h1

/-- C5 (amended).  Exclusion takes precedence on the denoised line: every single-line output
text whose denoised form contains `INFO: foo event for bar` has the empty signature, whatever
error keywords it contains. -/
theorem generateSignature_exclusion (line : Str) (hnl : '\n' ∉ line)
    (h : "INFO: foo event for bar".toList <:+: Denoise line) :
    generateSignature line = [] := by
  apply generateSignature_single line hnl
  obtain ⟨a, b, hab⟩ := h
  have hm : matchString excludeLineRe (Denoise line) = true := by
    rw [← hab]
    have := matchString_excludeLineRe a "foo".toList (" bar".toList ++ b) (by decide)
    simpa using this
  simp [keepLine, hm]

/-- Witness for C5 (amended): a line with the error keyword `fail` in front of the excluded
text. -/
theorem generateSignature_exclusion_witness :
    '\n' ∉ "fail INFO: foo event for bar 12".toList ∧
    "INFO: foo event for bar".toList <:+: Denoise "fail INFO: foo event for bar 12".toList ∧
    generateSignature "fail INFO: foo event for bar 12".toList = [] :=
  ⟨by decide, ⟨"fail ".toList, " 0".toList, by decide⟩,
    generateSignature_exclusion "fail INFO: foo event for bar 12".toList (by decide)
      ⟨"fail ".toList, " 0".toList, by decide⟩⟩


/-! ## Properties of `ReplaceAllString` -/

theorem matchLen_eq_none {re : Re} {t : Str} (h : re.run some t = none) :
    matchLen re t = none := by
  simp [matchLen, h]

theorem replaceAllAux_skip (re : Re) (repl : Str → Str) (b : Str) : ∀ a : Str,
    replaceAllAux re repl a.length (a ++ b) = replaceAllAux re repl 0 b
  | [] => by
    cases b <;> rfl
  | _ :: a => by
    simp only [List.length_cons, List.cons_append, replaceAllAux]
    exact replaceAllAux_skip re repl b a

/-- Where the pattern matches at no position, the text is left as it is. -/
theorem replaceAll_of_no_match (re : Re) (repl : Str → Str) : ∀ l : Str,
    (∀ t, t <:+ l → re.run some t = none) → replaceAll re repl l = l
  | [], _ => rfl
  | c :: cs, h => by
    have h0 := matchLen_eq_none (h (c :: cs) (List.suffix_refl _))
    have ih := replaceAll_of_no_match re repl cs
      (fun t ht => h t (ht.trans (List.suffix_cons c cs)))
    unfold replaceAll at ih ⊢
    simp only [replaceAllAux, h0, ih]

/-- A prefix in which no match starts is copied. -/
theorem replaceAll_prefix (re : Re) (repl : Str → Str) (rest : Str) : ∀ p : Str,
    (∀ q, q ≠ [] → q <:+ p → re.run some (q ++ rest) = none) →
    replaceAll re repl (p ++ rest) = p ++ replaceAll re repl rest
  | [], _ => rfl
  | c :: cs, h => by
    have h0 := matchLen_eq_none (h (c :: cs) (by simp) (List.suffix_refl _))
    have ih := replaceAll_prefix re repl rest cs
      (fun q hq hs => h q hq (hs.trans (List.suffix_cons c cs)))
    unfold replaceAll at ih ⊢
    simp only [List.cons_append] at h0 ⊢
    simp only [replaceAllAux, h0, ih]

/-- A match at the first position is replaced and the scan resumes behind it. -/
theorem replaceAll_match (re : Re) (repl : Str → Str) (c : Char) (u rest : Str)
    (h : re.run some (c :: u ++ rest) = some rest) :
    replaceAll re repl (c :: u ++ rest) = repl (c :: u) ++ replaceAll re repl rest := by
  have hm : matchLen re (c :: (u ++ rest)) = some (u.length + 1) := by
    have h' : re.run some (c :: (u ++ rest)) = some rest := h
    simp only [matchLen, h', Option.map_some', List.length_cons, List.length_append]
    congr 1
    omega
  show replaceAllAux re repl 0 (c :: (u ++ rest)) = _
  rw [replaceAllAux, hm]
  simp only [replaceAllAux_skip, replaceAll]
  congr 1
  simp


/-! ## Properties of the matcher -/

theorem rep_run_self (p : Char → Bool) (k : Str → Option Str) (rest : Str) : ∀ g : Str,
    (∀ c ∈ g, p c = true) → (Re.rep p g.length).run k (g ++ rest) = k rest
  | [], _ => rfl
  | c :: g, h => by
    have hc : p c = true := h c (List.mem_cons_self _ _)
    have ih := rep_run_self p k rest g (fun d hd => h d (List.mem_cons_of_mem _ hd))
    simp only [List.length_cons, Re.rep, Re.run, List.cons_append, hc, if_true]
    exact ih

theorem rep_run_some (p : Char → Bool) : ∀ (n : Nat) (k : Str → Option Str) (s r : Str),
    (Re.rep p n).run k s = some r →
    n ≤ s.length ∧ (∀ c ∈ s.take n, p c = true) ∧ k (s.drop n) = some r
  | 0, k, s, r, h => by
    simp only [Re.rep, Re.run] at h
    simp [h]
  | n + 1, k, [], r, h => by
    simp [Re.rep, Re.run] at h
  | n + 1, k, c :: cs, r, h => by
    simp only [Re.rep, Re.run] at h
    split at h
    · rename_i hc
      obtain ⟨h1, h2, h3⟩ := rep_run_some p n k cs r h
      refine ⟨by simp only [List.length_cons]; omega, ?_, by simpa using h3⟩
      intro d hd
      simp only [List.take_succ_cons, List.mem_cons] at hd
      rcases hd with rfl | hd
      · exact hc
      · exact h2 d hd
    · cases h

theorem cls_cat_run_some (p : Char → Bool) (re : Re) (k : Str → Option Str) (t r : Str)
    (h : (Re.cat (.cls p) re).run k t = some r) : ∃ c cs, t = c :: cs ∧ p c = true := by
  cases t with
  | nil => simp [Re.run] at h
  | cons c cs =>
    simp only [Re.run] at h
    split at h
    · rename_i hc
      exact ⟨c, cs, rfl, hc⟩
    · cases h

theorem starRun_some (p : Char → Bool) : ∀ s : Str, starRun p some s = some (s.dropWhile p)
  | [] => rfl
  | c :: cs => by
    simp only [starRun, starRun_some p cs, List.dropWhile_cons]
    split <;> rfl

/-- A match of the hash pattern starts with 64 alphanumeric characters. -/
theorem hashRe_run_some (t r : Str) (h : hashRe.run some t = some r) :
    64 ≤ t.length ∧ ∀ c ∈ t.take 64, isAlnum c = true := by
  have h' : (Re.rep isAlnum 64).run ((Re.star isAlnum).run some) t = some r := h
  obtain ⟨h1, h2, _⟩ := rep_run_some isAlnum 64 _ t r h'
  exact ⟨h1, h2⟩

/-- A match of the UUID pattern has `-` as its ninth character. -/
theorem uuidRe_run_some (t r : Str) (h : uuidRe.run some t = some r) : t[8]? = some '-' := by
  unfold uuidRe at h
  rw [Re.run] at h
  obtain ⟨h1, _, h3⟩ := rep_run_some isLowerHex 8 _ t r h
  obtain ⟨c, cs, hd, hc⟩ := cls_cat_run_some _ _ _ _ _ h3
  have hc' : c = '-' := by simpa using hc
  subst hc'
  have : t = t.take 8 ++ t.drop 8 := (List.take_append_drop 8 t).symm
  rw [this, hd, List.getElem?_append_right (by simp [h1])]
  simp [List.length_take, Nat.min_eq_left h1]

/-- The UUID pattern matches a token of the UUID shape, and exactly it. -/
theorem uuidRe_run_token (u rest : Str) (hu : IsUUIDToken u) :
    uuidRe.run some (u ++ rest) = some rest := by
  obtain ⟨g₁, g₂, g₃, g₄, g₅, h₁, h₂, h₃, h₄, h₅, hx, rfl⟩ := hu
  have x₁ : ∀ c ∈ g₁, isLowerHex c = true := fun c hc => hx c (by simp [hc])
  have x₂ : ∀ c ∈ g₂, isLowerHex c = true := fun c hc => hx c (by simp [hc])
  have x₃ : ∀ c ∈ g₃, isLowerHex c = true := fun c hc => hx c (by simp [hc])
  have x₄ : ∀ c ∈ g₄, isLowerHex c = true := fun c hc => hx c (by simp [hc])
  have x₅ : ∀ c ∈ g₅, isLowerHex c = true := fun c hc => hx c (by simp [hc])
  have e : uuidRe =
      .cat (Re.rep isLowerHex g₁.length) (.cat (Re.chr '-')
      (.cat (Re.rep isLowerHex g₂.length) (.cat (Re.chr '-')
      (.cat (Re.rep isLowerHex g₃.length) (.cat (Re.chr '-')
      (.cat (Re.rep isLowerHex g₄.length) (.cat (Re.chr '-')
      (Re.rep isLowerHex g₅.length)))))))) := by
    rw [h₁, h₂, h₃, h₄, h₅]
    rfl
  rw [e]
  simp only [Re.run, Re.chr, List.append_assoc, List.cons_append, rep_run_self _ _ _ _ x₁,
    rep_run_self _ _ _ _ x₂, rep_run_self _ _ _ _ x₃, rep_run_self _ _ _ _ x₄,
    rep_run_self _ _ _ _ x₅, beq_self_eq_true, if_true]


theorem hashRe_none_of_short (t : Str) (h : t.length < 64) : hashRe.run some t = none := by
  cases hr : hashRe.run some t with
  | none => rfl
  | some r =>
    have := (hashRe_run_some t r hr).1
    omega

theorem hashRe_none_of_sep (X : Str) (d : Char) (Y : Str) (hX : X.length < 64)
    (hd : isAlnum d = false) : hashRe.run some (X ++ d :: Y) = none := by
  cases hr : hashRe.run some (X ++ d :: Y) with
  | none => rfl
  | some r =>
    have h2 := (hashRe_run_some _ r hr).2 d (by
      rw [List.take_append_eq_append_take]
      apply List.mem_append_right
      obtain ⟨m, hm⟩ : ∃ m, 64 - X.length = m + 1 := ⟨63 - X.length, by omega⟩
      rw [hm]
      simp)
    rw [hd] at h2
    cases h2

/-- No hash match starts in `X ++ d :: Y` when `X` is shorter than 64, `d` is not
alphanumeric and no hash match starts in `Y`. -/
theorem noHash_sep (d : Char) (Y : Str) (hd : isAlnum d = false)
    (hY : ∀ t, t <:+ Y → hashRe.run some t = none) : ∀ X : Str, X.length < 64 →
    ∀ t, t <:+ X ++ d :: Y → hashRe.run some t = none
  | [], _, t, ht => by
    rw [List.nil_append, List.suffix_cons_iff] at ht
    rcases ht with rfl | ht
    · exact hashRe_none_of_sep [] d Y (by simp) hd
    · exact hY t ht
  | x :: X, hX, t, ht => by
    rw [List.cons_append, List.suffix_cons_iff] at ht
    rcases ht with rfl | ht
    · exact hashRe_none_of_sep (x :: X) d Y hX hd
    · exact noHash_sep d Y hd hY X (by simp only [List.length_cons] at hX; omega) t ht

theorem noHash_short (Y : Str) (h : Y.length < 64) :
    ∀ t, t <:+ Y → hashRe.run some t = none := by
  intro t ht
  apply hashRe_none_of_short
  have := ht.length_le
  omega

/-- A pattern that starts with a character class does not match where the text starts with a
character outside the class. -/
theorem cls_cat_run_none (p : Char → Bool) (re : Re) (l : Str)
    (h : ∀ c ∈ l, p c = false) : ∀ t, t <:+ l → (Re.cat (.cls p) re).run some t = none := by
  intro t ht
  cases hr : (Re.cat (.cls p) re).run some t with
  | none => rfl
  | some r =>
    obtain ⟨c, cs, rfl, hc⟩ := cls_cat_run_some p re some t r hr
    have := h c (ht.subset (List.mem_cons_self _ _))
    rw [this] at hc
    cases hc


theorem replaceAll_cons_of_none (re : Re) (repl : Str → Str) (c : Char) (cs : Str)
    (h : re.run some (c :: cs) = none) :
    replaceAll re repl (c :: cs) = c :: replaceAll re repl cs :=
  replaceAll_prefix re repl cs [c] (by
    intro q hq hs
    rw [List.suffix_cons_iff] at hs
    rcases hs with rfl | hs
    · exact h
    · exact absurd (List.eq_nil_of_suffix_nil hs) hq)

/-- Collapsing blanks leaves a text without a tab and without two adjacent spaces as it
is. -/
theorem replaceAll_spaceRe_id : ∀ l : Str, (∀ c ∈ l, c ≠ '\t') → hasAdjacentSpaces l = false →
    replaceAll spaceRe (fun _ => " ".toList) l = l
  | [], _, _ => rfl
  | c :: cs, ht, ha => by
    have hcs : ∀ d ∈ cs, d ≠ '\t' := fun d hd => ht d (List.mem_cons_of_mem _ hd)
    simp only [hasAdjacentSpaces, Bool.or_eq_false_iff] at ha
    have ih := replaceAll_spaceRe_id cs hcs ha.2
    have hrun : spaceRe.run some (c :: cs) =
        if isBlank c then some (cs.dropWhile isBlank) else none := by
      show (if isBlank c then starRun isBlank some cs else none) = _
      rw [starRun_some]
    by_cases hb : isBlank c = true
    · have hc : c = ' ' := by
        have := ht c (List.mem_cons_self _ _)
        simpa [isBlank, this] using hb
      subst hc
      have hdrop : cs.dropWhile isBlank = cs := by
        cases cs with
        | nil => rfl
        | cons d ds =>
          have hd1 : d ≠ '\t' := hcs d (List.mem_cons_self _ _)
          have hd2 : d ≠ ' ' := by simpa using ha.1
          have hbd : isBlank d = false := by simp [isBlank, hd1, hd2]
          rw [List.dropWhile_cons, hbd]
          rfl
      rw [hb, if_pos rfl, hdrop] at hrun
      have := replaceAll_match spaceRe (fun _ => " ".toList) ' ' [] cs hrun
      simp only [List.append_nil, List.nil_append, List.cons_append] at this
      rw [ih] at this
      exact this
    · rw [if_neg hb] at hrun
      rw [replaceAll_cons_of_none _ _ _ _ hrun, ih]


theorem hasAdjacentSpaces_append (c : Char) (b : Str) (hc : c ≠ ' ')
    (hb : hasAdjacentSpaces (c :: b) = false) : ∀ a : Str, hasAdjacentSpaces a = false →
    hasAdjacentSpaces (a ++ c :: b) = false
  | [], _ => hb
  | x :: a, ha => by
    simp only [hasAdjacentSpaces, Bool.or_eq_false_iff] at ha
    have ih := hasAdjacentSpaces_append c b hc hb a ha.2
    simp only [List.cons_append, hasAdjacentSpaces, Bool.or_eq_false_iff]
    refine ⟨?_, ih⟩
    cases a with
    | nil => simp [hc]
    | cons y a => simpa using ha.1

/-- The UUID pattern matches at no position of a text without `-`. -/
theorem uuidRe_none_of_no_sep (l : Str) (h : ∀ c ∈ l, isSep c = false) :
    ∀ t, t <:+ l → uuidRe.run some t = none := by
  intro t ht
  cases hr : uuidRe.run some t with
  | none => rfl
  | some r =>
    have h8 := uuidRe_run_some t r hr
    have := h '-' (ht.subset (List.getElem?_mem h8))
    exact absurd this (by decide)

/-- The UUID pattern does not match at a position in front of a UUID token, within a context
without `-`. -/
theorem uuidRe_none_before_token (q g₁ rest : Str) (hq : q ≠ []) (hg : g₁.length = 8)
    (hqs : ∀ c ∈ q, isSep c = false) (hx : ∀ c ∈ g₁, isLowerHex c = true) :
    uuidRe.run some (q ++ (g₁ ++ rest)) = none := by
  cases hr : uuidRe.run some (q ++ (g₁ ++ rest)) with
  | none => rfl
  | some r =>
    exfalso
    have h8 := uuidRe_run_some _ r hr
    have hlen : 0 < q.length := List.length_pos.mpr hq
    by_cases hlt : 8 < q.length
    · rw [List.getElem?_append_left hlt] at h8
      have := hqs '-' (List.getElem?_mem h8)
      exact absurd this (by decide)
    · rw [List.getElem?_append_right (by omega),
        List.getElem?_append_left (by omega)] at h8
      have := hx '-' (List.getElem?_mem h8)
      exact absurd this (by decide)


/-- C9 (UUID tokens).  For a token `u` of the shape 8-4-4-4-12 lowercase hexadecimal digits
joined by `-`, and contexts `p` and `s` shorter than 50 characters that hold no decimal
digit, no `.`, `_` or `-`, no tab and no two adjacent spaces, `Denoise (p ++ u ++ s)` is
`p ++ "UUID" ++ s`. -/
theorem Denoise_uuid_token (p u s : Str) (hu : IsUUIDToken u) (hp : p.length < 50)
    (hs : s.length < 50) (hpn : IsNeutral p) (hsn : IsNeutral s) :
    Denoise (p ++ u ++ s) = p ++ "UUID".toList ++ s := by
  have htok := hu
  obtain ⟨g₁, g₂, g₃, g₄, g₅, h₁, h₂, h₃, h₄, h₅, hx, rfl⟩ := hu
  have x₁ : ∀ c ∈ g₁, isLowerHex c = true := fun c hc => hx c (by simp [hc])
  have hpsep : ∀ c ∈ p, isSep c = false := fun c hc => (hpn.1 c hc).2.1
  have hssep : ∀ c ∈ s, isSep c = false := fun c hc => (hsn.1 c hc).2.1
  -- the hash pattern matches nowhere
  have e1 : replaceAll hashRe (fun _ => "HASH".toList)
      (p ++ (g₁ ++ '-' :: (g₂ ++ '-' :: (g₃ ++ '-' :: (g₄ ++ '-' :: g₅)))) ++ s) =
      p ++ (g₁ ++ '-' :: (g₂ ++ '-' :: (g₃ ++ '-' :: (g₄ ++ '-' :: g₅)))) ++ s := by
    apply replaceAll_of_no_match
    have e : p ++ (g₁ ++ '-' :: (g₂ ++ '-' :: (g₃ ++ '-' :: (g₄ ++ '-' :: g₅)))) ++ s =
        (p ++ g₁) ++ '-' :: (g₂ ++ '-' :: (g₃ ++ '-' :: (g₄ ++ '-' :: (g₅ ++ s)))) := by
      simp
    rw [e]
    exact noHash_sep '-' _ (by decide)
      (noHash_sep '-' _ (by decide)
        (noHash_sep '-' _ (by decide)
          (noHash_sep '-' _ (by decide)
            (noHash_short (g₅ ++ s) (by rw [List.length_append]; omega))
            g₄ (by omega))
          g₃ (by omega))
        g₂ (by omega))
      (p ++ g₁) (by rw [List.length_append]; omega)
  -- the UUID pattern matches the token and nothing else
  have e2 : replaceAll uuidRe (fun _ => "UUID".toList)
      (p ++ (g₁ ++ '-' :: (g₂ ++ '-' :: (g₃ ++ '-' :: (g₄ ++ '-' :: g₅)))) ++ s) =
      p ++ "UUID".toList ++ s := by
    rw [List.append_assoc p "UUID".toList s, List.append_assoc p _ s, replaceAll_prefix]
    · congr 1
      have hrun := uuidRe_run_token _ s htok
      obtain ⟨c, g, rfl⟩ : ∃ c g, g₁ = c :: g := by
        cases g₁ with
        | nil => simp at h₁
        | cons c g => exact ⟨c, g, rfl⟩
      have := replaceAll_match uuidRe (fun _ => "UUID".toList) c
        (g ++ '-' :: (g₂ ++ '-' :: (g₃ ++ '-' :: (g₄ ++ '-' :: g₅)))) s hrun
      rw [replaceAll_of_no_match uuidRe _ s (uuidRe_none_of_no_sep s hssep)] at this
      exact this
    · intro q hq hqs
      have := uuidRe_none_before_token q g₁
        ('-' :: (g₂ ++ '-' :: (g₃ ++ '-' :: (g₄ ++ '-' :: g₅))) ++ s) hq h₁
        (fun c hc => hpsep c (hqs.subset hc)) x₁
      simpa using this
  -- what is left holds no digit and no separator
  have hW : ∀ c ∈ p ++ "UUID".toList ++ s,
      isDigit c = false ∧ isSep c = false ∧ c ≠ '\t' := by
    intro c hc
    simp only [List.mem_append] at hc
    rcases hc with (hc | hc) | hc
    · exact hpn.1 c hc
    · have : c = 'U' ∨ c = 'I' ∨ c = 'D' := by simpa using hc
      rcases this with rfl | rfl | rfl <;> decide
    · exact hsn.1 c hc
  have e3 : replaceAll pointerRe (fun _ => "0xdeadbeef".toList) (p ++ "UUID".toList ++ s) =
      p ++ "UUID".toList ++ s := by
    apply replaceAll_of_no_match
    apply cls_cat_run_none
    intro c hc
    have hd := (hW c hc).1
    cases h0 : c == '0'
    · rfl
    · rw [beq_iff_eq] at h0
      subst h0
      exact absurd hd (by decide)
  have e4 : replaceAll numberRe (fun _ => "0".toList) (p ++ "UUID".toList ++ s) =
      p ++ "UUID".toList ++ s := by
    apply replaceAll_of_no_match
    exact cls_cat_run_none _ _ _ (fun c hc => (hW c hc).1)
  have e5 : replaceAll randomSuffixRe (fun m => m.take 1 ++ "RANDOM".toList)
      (p ++ "UUID".toList ++ s) = p ++ "UUID".toList ++ s := by
    apply replaceAll_of_no_match
    exact cls_cat_run_none _ _ _ (fun c hc => (hW c hc).2.1)
  have e6 : replaceAll spaceRe (fun _ => " ".toList) (p ++ "UUID".toList ++ s) =
      p ++ "UUID".toList ++ s := by
    apply replaceAll_spaceRe_id _ (fun c hc => (hW c hc).2.2)
    rw [List.append_assoc]
    apply hasAdjacentSpaces_append 'U' _ (by decide) _ p hpn.2
    simpa [hasAdjacentSpaces] using hsn.2
  simp only [Denoise, e1, e2, e3, e4, e5, e6]

/-- Witness for C9, the first case of `TestDenoise`:
`UID:"df658a21-3a4b-4e02-9415-85fef7b8ea2c"` becomes `UID:"UUID"`. -/
theorem Denoise_uuid_token_witness :
    Denoise ("UID:\"".toList ++ "df658a21-3a4b-4e02-9415-85fef7b8ea2c".toList ++ "\"".toList) =
      "UID:\"".toList ++ "UUID".toList ++ "\"".toList :=
  Denoise_uuid_token "UID:\"".toList "df658a21-3a4b-4e02-9415-85fef7b8ea2c".toList
    "\"".toList
    ⟨"df658a21".toList, "3a4b".toList, "4e02".toList, "9415".toList, "85fef7b8ea2c".toList,
      by decide, by decide, by decide, by decide, by decide, by decide, by decide⟩
    (by decide) (by decide) ⟨by decide, by decide⟩ ⟨by decide, by decide⟩


/-! ## Frame properties of the resolvers: the database is not written -/

theorem Reads.refl (s : Sys) : Reads s s := ⟨rfl, List.prefix_refl _⟩

theorem Reads.readsThen {s₁ s₂ s₃ : Sys} (h₁ : Reads s₁ s₂) (h₂ : Reads s₂ s₃) : Reads s₁ s₃ :=
  ⟨h₂.db.trans h₁.db, h₁.trace.trans h₂.trace⟩

theorem Reads.log (s : Sys) (ev : Event) : Reads s (s.log ev) :=
  ⟨rfl, List.prefix_append _ _⟩

theorem gcsOpen_reads (w : World) (s : Sys) (bucket object : Str) :
    Reads s (gcsOpen w s bucket object).1 := by
  unfold gcsOpen Sys.log
  dsimp only
  repeat' split
  all_goals exact ⟨rfl, by simp [List.append_assoc]⟩

theorem GetStartedJson_reads (w : World) (s : Sys) (build : Build) :
    Reads s (GetStartedJson w s build).1 := by
  unfold GetStartedJson
  have h := gcsOpen_reads w s build.GCSBucket (build.GCSPrefix ++ "started.json".toList)
  repeat' split
  all_goals simp_all

theorem GetFinishedJson_reads (w : World) (s : Sys) (build : Build) :
    Reads s (GetFinishedJson w s build).1 := by
  unfold GetFinishedJson
  have h := gcsOpen_reads w s build.GCSBucket (build.GCSPrefix ++ "finished.json".toList)
  repeat' split
  all_goals simp_all

theorem GetBuildStatus_reads (w : World) (s : Sys) (buildMeta : BuildMeta) :
    Reads s (GetBuildStatus w s buildMeta).1 := by
  unfold GetBuildStatus
  split
  · exact Reads.refl s
  · have h1 := GetStartedJson_reads w s buildMeta.Build
    split
    · rename_i h
      rw [h] at h1
      exact h1
    · rename_i s₁ started h
      rw [h] at h1
      have h2 := GetFinishedJson_reads w s₁ buildMeta.Build
      split
      · rename_i h'
        rw [h'] at h2
        exact h1.readsThen h2
      · rename_i h'
        rw [h'] at h2
        exact h1.readsThen h2

theorem testResultsLoop_reads (w : World) (bucket : Str) : ∀ (files : List Str) (s : Sys)
    (results : List TestResult), Reads s (testResultsLoop w bucket files s results).1
  | [], s, results => Reads.refl s
  | objectName :: rest, s, results => by
    unfold testResultsLoop
    have h := gcsOpen_reads w s bucket objectName
    split
    · split
      · rename_i h'
        rw [h'] at h
        exact h
      · rename_i s₁ f h'
        rw [h'] at h
        split
        · exact h
        · exact h.readsThen (testResultsLoop_reads w bucket rest s₁ _)
    · exact testResultsLoop_reads w bucket rest s results

theorem buildLogsLoop_reads (w : World) (bucket pfx : Str) : ∀ (files : List Str) (s : Sys)
    (results : List TestResult), Reads s (buildLogsLoop w bucket pfx files s results).1
  | [], s, results => Reads.refl s
  | objectName :: rest, s, results => by
    unfold buildLogsLoop
    have h := gcsOpen_reads w s bucket objectName
    split
    · split
      · rename_i h'
        rw [h'] at h
        exact h
      · rename_i s₁ f h'
        rw [h'] at h
        exact h.readsThen (buildLogsLoop_reads w bucket pfx rest s₁ _)
    · exact buildLogsLoop_reads w bucket pfx rest s results


/-! ## The status resolver and the skip of unfinished builds -/

/-- C8 (status resolver).  When the key `GCSPrefix + "finished.json"` is not in `Files`,
`GetBuildStatus` returns no status and the error `ErrNotFound`, and the state is the one it
was called in: neither `started.json` nor `finished.json` is opened. -/
theorem GetBuildStatus_not_found (w : World) (s : Sys) (buildMeta : BuildMeta)
    (h : buildMeta.Build.GCSPrefix ++ "finished.json".toList ∉ buildMeta.Files) :
    GetBuildStatus w s buildMeta = (s, .error .ErrNotFound) := by
  unfold GetBuildStatus
  rw [if_pos h]

/-- Witness for C8: a build with `started.json` only. -/
theorem GetBuildStatus_not_found_witness :
    GetBuildStatus World.empty Sys.empty
      { Build := ⟨"job".toList, "7".toList, "bkt".toList, "logs/job/7/".toList⟩,
        Files := ["logs/job/7/started.json".toList] } =
      (Sys.empty, .error .ErrNotFound) :=
  GetBuildStatus_not_found World.empty Sys.empty _ (by decide)

theorem indexBuildWithMeta_skip (w : World) (s : Sys) (build : Build) (buildMeta : BuildMeta)
    (cached : Bool)
    (h : buildMeta.Build.GCSPrefix ++ "finished.json".toList ∉ buildMeta.Files) :
    indexBuildWithMeta w s build buildMeta cached = (s, .next) := by
  unfold indexBuildWithMeta
  rw [GetBuildStatus_not_found w s buildMeta h]
  rfl


theorem indexBuild_onlyLooked (w : World) (s : Sys) (build : Build)
    (h : cachedStatus s.db build ≠ none ∨
      ∃ files, buildFileSet w s.db build = some files ∧ finishedName build ∉ files) :
    OnlyLooked w s (indexBuild w s build) := by
  unfold indexBuild loadBuildStatus
  cases hf1 : w.dbFault s.trace.length with
  | some code =>
    exact ⟨rfl, rfl, ⟨_, rfl, by simp [Event.isWrite, Event.isFetch]⟩,
      fun hn => by rw [hn] at hf1; cases hf1⟩
  | none =>
    cases hst : s.db.build_statuses.find? fun row =>
        decide (row.1 = build.Job ∧ row.2.1 = build.BuildID) with
    | some row =>
      simp only [Sys.log, hst]
      exact ⟨rfl, rfl, ⟨_, rfl, by simp [Event.isWrite, Event.isFetch]⟩, fun _ => rfl⟩
    | none =>
      have hcs : cachedStatus s.db build = none := by unfold cachedStatus; rw [hst]; rfl
      obtain ⟨files, hfs, hfin⟩ := h.resolve_left (fun hne => hne hcs)
      simp only [Sys.log, hst, ne_eq, not_true_eq_false, if_false]
      unfold loadBuildMeta
      cases hf2 : w.dbFault (s.trace ++ [Event.loadBuildStatus build.Job build.BuildID]).length
        with
      | some code =>
        simp only [Sys.log, hf2]
        exact ⟨rfl, rfl, ⟨_, by simp only [List.append_assoc]; rfl,
          by simp [Event.isWrite, Event.isFetch]⟩, fun hn => by rw [hn] at hf2; cases hf2⟩
      | none =>
        cases hart : s.db.build_artifacts.find? fun row =>
            decide (row.1 = build.Job ∧ row.2.1 = build.BuildID) with
        | some row =>
          have hcf : cachedFiles s.db build = some row.2.2 := by
            unfold cachedFiles; rw [hart]; rfl
          have hfiles : files = row.2.2 := by
            simp only [buildFileSet, hcf] at hfs
            exact (Option.some.inj hfs).symm
          subst hfiles
          simp only [Sys.log, hf2, hart]
          rw [indexBuildWithMeta_skip _ _ _ _ _ hfin]
          exact ⟨rfl, rfl, ⟨_, by simp only [List.append_assoc]; rfl,
            by simp [Event.isWrite, Event.isFetch]⟩, fun _ => rfl⟩
        | none =>
          have hcf : cachedFiles s.db build = none := by unfold cachedFiles; rw [hart]; rfl
          simp only [Sys.log, hf2, hart, if_true]
          unfold GetBuildMeta
          cases hl : w.listFiles build.GCSBucket build.GCSPrefix with
          | error code => simp [buildFileSet, hcf, hl] at hfs
          | ok fs =>
            have hfiles : files = fs.dedup := by
              simp only [buildFileSet, hcf, hl] at hfs
              exact (Option.some.inj hfs).symm
            subst hfiles
            simp only [Sys.log]
            rw [indexBuildWithMeta_skip _ _ _ _ _ hfin]
            exact ⟨rfl, rfl, ⟨_, by simp only [List.append_assoc]; rfl,
              by simp [Event.isWrite, Event.isFetch]⟩, fun _ => rfl⟩


/-- C6 (build skip).  When the file set of a build, as the indexer sees it, does not contain
the finish manifest, the per-build step leaves the database and the cache directory as they
are, the events it adds are neither writes nor fetches, the build's cached status is what it
was (absent if it was absent), and unless the database fails the step goes on to the next
build. -/
theorem indexBuild_skips_unfinished (w : World) (s : Sys) (build : Build) (files : List Str)
    (hfs : buildFileSet w s.db build = some files) (hfin : finishedName build ∉ files) :
    (indexBuild w s build).1.db = s.db ∧
    (indexBuild w s build).1.cache = s.cache ∧
    (∃ added, (indexBuild w s build).1.trace = s.trace ++ added ∧
      ∀ ev ∈ added, ev.isWrite = false ∧ ev.isFetch = false) ∧
    cachedStatus (indexBuild w s build).1.db build = cachedStatus s.db build ∧
    ((∀ n, w.dbFault n = none) → (indexBuild w s build).2 = .next) := by
  have h := indexBuild_onlyLooked w s build (Or.inr ⟨files, hfs, hfin⟩)
  exact ⟨h.db, h.cache, h.trace, by rw [h.db], h.next⟩

/-- Witness for C6: a build of which the remote store lists no file at all. -/
theorem indexBuild_skips_unfinished_witness :
    (indexBuild World.empty Sys.empty
      ⟨"job".toList, "7".toList, "bkt".toList, "logs/job/7/".toList⟩).1.db = Sys.empty.db ∧
    (indexBuild World.empty Sys.empty
      ⟨"job".toList, "7".toList, "bkt".toList, "logs/job/7/".toList⟩).2 = .next :=
  have h := indexBuild_skips_unfinished World.empty Sys.empty
    ⟨"job".toList, "7".toList, "bkt".toList, "logs/job/7/".toList⟩ [] rfl (by decide)
  ⟨h.1, h.2.2.2.2 (fun _ => rfl)⟩

/-! ## Effects of the writes -/

theorem gcsOpen_ne_ErrNotFound (w : World) (s : Sys) (bucket object : Str) :
    (gcsOpen w s bucket object).2 ≠ .error .ErrNotFound := by
  unfold gcsOpen Sys.log
  dsimp only
  repeat' split
  all_goals simp

theorem GetBuildStatus_ErrNotFound (w : World) (s : Sys) (buildMeta : BuildMeta)
    (h : (GetBuildStatus w s buildMeta).2 = .error .ErrNotFound) :
    buildMeta.Build.GCSPrefix ++ "finished.json".toList ∉ buildMeta.Files := by
  intro hmem
  unfold GetBuildStatus GetStartedJson GetFinishedJson at h
  rw [if_neg (not_not.mpr hmem)] at h
  have g1 := gcsOpen_ne_ErrNotFound w s buildMeta.Build.GCSBucket
    (buildMeta.Build.GCSPrefix ++ "started.json".toList)
  rcases h1 : gcsOpen w s buildMeta.Build.GCSBucket
    (buildMeta.Build.GCSPrefix ++ "started.json".toList) with ⟨s₁, e₁ | f₁⟩
  · rw [h1] at h g1
    dsimp only at h
    have he : e₁ = .ErrNotFound := by injection h
    exact g1 (by rw [he])
  · rw [h1] at h
    dsimp only at h
    cases d1 : w.decodeStarted f₁ with
    | error code => rw [d1] at h; cases h
    | ok j =>
      rw [d1] at h
      dsimp only at h
      have g2 := gcsOpen_ne_ErrNotFound w s₁ buildMeta.Build.GCSBucket
        (buildMeta.Build.GCSPrefix ++ "finished.json".toList)
      rcases h2 : gcsOpen w s₁ buildMeta.Build.GCSBucket
        (buildMeta.Build.GCSPrefix ++ "finished.json".toList) with ⟨s₂, e₂ | f₂⟩
      · rw [h2] at h g2
        dsimp only at h
        have he : e₂ = .ErrNotFound := by injection h
        exact g2 (by rw [he])
      · rw [h2] at h
        dsimp only at h
        cases d2 : w.decodeFinished f₂ with
        | error code => rw [d2] at h; cases h
        | ok j₂ => rw [d2] at h; cases h


theorem Reads.keeps {s s' : Sys} (h : Reads s s') : Keeps s s' :=
  ⟨by rw [h.db], by rw [h.db], h.trace⟩

theorem Keeps.keepsThen {s₁ s₂ s₃ : Sys} (h₁ : Keeps s₁ s₂) (h₂ : Keeps s₂ s₃) : Keeps s₁ s₃ :=
  ⟨h₂.statuses.trans h₁.statuses, h₂.artifacts.trans h₁.artifacts, h₁.trace.trans h₂.trace⟩

theorem saveBuildMeta_effect (w : World) (s : Sys) (buildMeta : BuildMeta) :
    ((saveBuildMeta w s buildMeta).2 = none ∧
      (saveBuildMeta w s buildMeta).1.db.build_statuses = s.db.build_statuses ∧
      (saveBuildMeta w s buildMeta).1.db.build_artifacts = s.db.build_artifacts ++
        [(buildMeta.Build.Job, buildMeta.Build.BuildID, buildMeta.Files)] ∧
      s.trace <+: (saveBuildMeta w s buildMeta).1.trace) ∨
    ((saveBuildMeta w s buildMeta).2 ≠ none ∧ Reads s (saveBuildMeta w s buildMeta).1) := by
  unfold saveBuildMeta
  cases w.dbFault s.trace.length with
  | some code => exact Or.inr ⟨by simp, Reads.log s _⟩
  | none => exact Or.inl ⟨rfl, rfl, rfl, List.prefix_append _ _⟩

theorem saveBuildStatus_effect (w : World) (s : Sys) (build : Build) (status : BuildStatus) :
    ((saveBuildStatus w s build status).2 = none ∧
      (saveBuildStatus w s build status).1.db.build_statuses = s.db.build_statuses ++
        [(build.Job, build.BuildID, status)] ∧
      (saveBuildStatus w s build status).1.db.build_artifacts = s.db.build_artifacts ∧
      (saveBuildStatus w s build status).1.trace =
        s.trace ++ [.saveBuildStatus build.Job build.BuildID]) ∨
    ((saveBuildStatus w s build status).2 ≠ none ∧
      Reads s (saveBuildStatus w s build status).1) := by
  unfold saveBuildStatus
  cases w.dbFault s.trace.length with
  | some code => exact Or.inr ⟨by simp, Reads.log s _⟩
  | none => exact Or.inl ⟨rfl, rfl, rfl, rfl⟩

theorem saveTestResult_keeps (w : World) (s : Sys) (result : DBTestResult) :
    Keeps s (saveTestResult w s result).1 := by
  unfold saveTestResult
  cases w.dbFault s.trace.length with
  | some code => exact ⟨rfl, rfl, List.prefix_append _ _⟩
  | none =>
    dsimp only
    split
    · exact ⟨rfl, rfl, List.prefix_append _ _⟩
    · exact ⟨rfl, rfl, List.prefix_append _ _⟩

theorem saveRows_keeps (w : World) : ∀ (rows : List DBTestResult) (s : Sys),
    Keeps s (saveRows w rows s).1
  | [], s => ⟨rfl, rfl, List.prefix_refl _⟩
  | row :: rest, s => by
    unfold saveRows
    have h := saveTestResult_keeps w s row
    rcases h1 : saveTestResult w s row with ⟨s₁, _ | e⟩
    · rw [h1] at h
      exact h.keepsThen (saveRows_keeps w rest s₁)
    · rw [h1] at h
      exact h


theorem indexBuildWithMeta_effect (w : World) (s : Sys) (build : Build)
    (buildMeta : BuildMeta) (cached : Bool) :
    StepEffect s build
      (if cached then [] else [(buildMeta.Build.Job, buildMeta.Build.BuildID, buildMeta.Files)])
      (buildMeta.Build.GCSPrefix ++ "finished.json".toList ∉ buildMeta.Files)
      (indexBuildWithMeta w s build buildMeta cached) := by
  unfold indexBuildWithMeta StepEffect
  have r1 := GetBuildStatus_reads w s buildMeta
  have n1 := GetBuildStatus_ErrNotFound w s buildMeta
  rcases h1 : GetBuildStatus w s buildMeta with ⟨s₁, e₁ | status⟩
  · -- no status
    rw [h1] at r1 n1
    dsimp only
    split
    · rename_i he
      subst he
      exact Or.inl ⟨by rw [r1.db], fun _ => ⟨r1.db, n1 rfl⟩⟩
    · exact Or.inl ⟨by rw [r1.db], fun h => by cases h⟩
  · rw [h1] at r1
    replace r1 : Reads s s₁ := r1
    dsimp only
    -- the metadata row
    have hmeta : ∃ s₂ e₂, (if cached = true then (s₁, none) else saveBuildMeta w s₁ buildMeta) =
        (s₂, e₂) ∧ s₂.db.build_statuses = s.db.build_statuses ∧ s.trace <+: s₂.trace ∧
        (e₂ = none → s₂.db.build_artifacts = s.db.build_artifacts ++
          (if cached then [] else
            [(buildMeta.Build.Job, buildMeta.Build.BuildID, buildMeta.Files)])) := by
      cases cached with
      | true =>
        refine ⟨s₁, none, rfl, by rw [r1.db], r1.trace, fun _ => ?_⟩
        simp [r1.db]
      | false =>
        refine ⟨(saveBuildMeta w s₁ buildMeta).1, (saveBuildMeta w s₁ buildMeta).2, rfl,
          ?_, ?_, ?_⟩
        · rcases saveBuildMeta_effect w s₁ buildMeta with h | h
          · rw [h.2.1, r1.db]
          · rw [h.2.db, r1.db]
        · rcases saveBuildMeta_effect w s₁ buildMeta with h | h
          · exact r1.trace.trans h.2.2.2
          · exact r1.trace.trans h.2.trace
        · intro hn
          rcases saveBuildMeta_effect w s₁ buildMeta with h | h
          · rw [h.2.2.1, r1.db]
            simp
          · exact absurd hn h.1
    obtain ⟨s₂, e₂, h2, hst2, htr2, hart2⟩ := hmeta
    rw [h2]
    cases e₂ with
    | some err => exact Or.inl ⟨hst2, fun h => by cases h⟩
    | none =>
      dsimp only
      have r3 := testResultsLoop_reads w buildMeta.Build.GCSBucket buildMeta.Files s₂ []
      unfold GetTestResults
      rcases h3 : testResultsLoop w buildMeta.Build.GCSBucket buildMeta.Files s₂ []
        with ⟨s₃, resultsList, _ | err⟩
      · rw [h3] at r3
        dsimp only
        have r4 := buildLogsLoop_reads w buildMeta.Build.GCSBucket buildMeta.Build.GCSPrefix
          buildMeta.Files s₃ []
        unfold GetBuildLogs
        rcases h4 : buildLogsLoop w buildMeta.Build.GCSBucket buildMeta.Build.GCSPrefix
          buildMeta.Files s₃ [] with ⟨s₄, buildLogs, _ | err⟩
        · rw [h4] at r4
          dsimp only
          have r5 := saveRows_keeps w (testResultRows build.Job build.BuildID
            status.FinishedTimestamp (resultsList ++ buildLogs)) s₄
          rcases h5 : saveRows w (testResultRows build.Job build.BuildID
            status.FinishedTimestamp (resultsList ++ buildLogs)) s₄ with ⟨s₅, _ | err⟩
          · rw [h5] at r5
            dsimp only
            have k5 : Keeps s₂ s₅ := (r3.keeps.keepsThen r4.keeps).keepsThen r5
            have r6 := saveBuildStatus_effect w s₅ build status
            rcases h6 : saveBuildStatus w s₅ build status with ⟨s₆, _ | err⟩
            · rw [h6] at r6
              dsimp only
              rcases r6 with r6 | r6
              · right
                obtain ⟨pre, hpre⟩ := htr2.trans k5.trace
                refine ⟨rfl, status, pre, ?_, ?_, ?_⟩
                · rw [r6.2.1, k5.statuses, hst2]
                · rw [r6.2.2.1, k5.artifacts, hart2 rfl]
                · rw [r6.2.2.2, ← hpre]
              · exact absurd rfl r6.1
            · rw [h6] at r6
              dsimp only
              rcases r6 with r6 | r6
              · cases r6.1
              · exact Or.inl ⟨by rw [r6.2.db, k5.statuses, hst2], fun h => by cases h⟩
          · rw [h5] at r5
            exact Or.inl ⟨by rw [r5.statuses, r4.db, r3.db, hst2], fun h => by cases h⟩
        · rw [h4] at r4
          exact Or.inl ⟨by rw [r4.db, r3.db, hst2], fun h => by cases h⟩
      · rw [h3] at r3
        exact Or.inl ⟨by rw [r3.db, hst2], fun h => by cases h⟩


theorem StepEffect.of_reads {s s₂ : Sys} {build : Build} {extra : List (Str × Str × List Str)}
    {P : Prop} {r : Sys × Outcome} (h : Reads s s₂) (he : StepEffect s₂ build extra P r) :
    StepEffect s build extra P r := by
  unfold StepEffect at he ⊢
  rcases he with ⟨h1, h2⟩ | ⟨h1, stt, pre, h2, h3, h4⟩
  · exact Or.inl ⟨by rw [h1, h.db], fun hn => ⟨by rw [(h2 hn).1, h.db], (h2 hn).2⟩⟩
  · obtain ⟨x, hx⟩ := h.trace
    refine Or.inr ⟨h1, stt, x ++ pre, by rw [h2, h.db], by rw [h3, h.db], ?_⟩
    rw [h4, ← hx]
    simp

theorem StepEffect.fatal (s s' : Sys) (build : Build) (extra : List (Str × Str × List Str))
    (P : Prop) (err : Err) (h : Reads s s') : StepEffect s build extra P (s', .fatal err) :=
  Or.inl ⟨by rw [h.db], fun hn => by cases hn⟩

theorem StepEffect.mono {s : Sys} {build : Build} {extra extra' : List (Str × Str × List Str)}
    {P P' : Prop} {r : Sys × Outcome} (he : StepEffect s build extra P r)
    (hx : extra = extra') (hp : P → P') : StepEffect s build extra' P' r := by
  subst hx
  unfold StepEffect at he ⊢
  rcases he with ⟨h1, h2⟩ | h
  · exact Or.inl ⟨h1, fun hn => ⟨(h2 hn).1, hp (h2 hn).2⟩⟩
  · exact Or.inr h

theorem Reads.log2 (s : Sys) (e₁ e₂ : Event) :
    Reads s { db := s.db, cache := s.cache, trace := s.trace ++ [e₁] ++ [e₂] } :=
  ⟨rfl, by rw [List.append_assoc]; exact List.prefix_append _ _⟩

theorem Reads.log3 (s : Sys) (e₁ e₂ e₃ : Event) :
    Reads s { db := s.db, cache := s.cache, trace := s.trace ++ [e₁] ++ [e₂] ++ [e₃] } :=
  ⟨rfl, by rw [List.append_assoc, List.append_assoc]; exact List.prefix_append _ _⟩

/-- The effect of the per-build step on the database. -/
theorem indexBuild_effect (w : World) (s : Sys) (build : Build) :
    ∃ extra : List (Str × Str × List Str),
      (∀ row ∈ extra, row.1 = build.Job ∧ row.2.1 = build.BuildID) ∧
      StepEffect s build extra (Settled w s.db build) (indexBuild w s build) := by
  unfold indexBuild loadBuildStatus
  cases hf1 : w.dbFault s.trace.length with
  | some code =>
    exact ⟨[], by simp, StepEffect.fatal _ _ _ _ _ _ (Reads.log s _)⟩
  | none =>
    cases hst : s.db.build_statuses.find? fun row =>
        decide (row.1 = build.Job ∧ row.2.1 = build.BuildID) with
    | some row =>
      simp only [Sys.log, hst]
      refine ⟨[], by simp, Or.inl ⟨rfl, fun _ => ⟨rfl, Or.inl ?_⟩⟩⟩
      unfold cachedStatus
      rw [hst]
      simp
    | none =>
      simp only [Sys.log, hst, ne_eq, not_true_eq_false, if_false]
      have hcs : cachedStatus s.db build = none := by unfold cachedStatus; rw [hst]; rfl
      unfold loadBuildMeta
      cases hf2 : w.dbFault (s.trace ++ [Event.loadBuildStatus build.Job build.BuildID]).length
        with
      | some code =>
        simp only [Sys.log, hf2]
        exact ⟨[], by simp, StepEffect.fatal _ _ _ _ _ _ (Reads.log2 s _ _)⟩
      | none =>
        cases hart : s.db.build_artifacts.find? fun row =>
            decide (row.1 = build.Job ∧ row.2.1 = build.BuildID) with
        | some row =>
          have hcf : cachedFiles s.db build = some row.2.2 := by
            unfold cachedFiles; rw [hart]; rfl
          simp only [Sys.log, hf2, hart]
          refine ⟨[], by simp, StepEffect.of_reads (Reads.log2 s _ _)
            (StepEffect.mono (indexBuildWithMeta_effect w _ build _ true) rfl ?_)⟩
          intro hfin
          exact Or.inr ⟨row.2.2, by unfold buildFileSet; rw [hcf], hfin⟩
        | none =>
          have hcf : cachedFiles s.db build = none := by unfold cachedFiles; rw [hart]; rfl
          simp only [Sys.log, hf2, hart, if_true]
          unfold GetBuildMeta
          cases hl : w.listFiles build.GCSBucket build.GCSPrefix with
          | error code =>
            simp only [Sys.log]
            exact ⟨[], by simp, StepEffect.fatal _ _ _ _ _ _ (Reads.log3 s _ _ _)⟩
          | ok fs =>
            simp only [Sys.log]
            refine ⟨[(build.Job, build.BuildID, fs.dedup)], by simp,
              StepEffect.of_reads (Reads.log3 s _ _ _)
                (StepEffect.mono (indexBuildWithMeta_effect w _ build _ false) rfl ?_)⟩
            intro hfin
            exact Or.inr ⟨fs.dedup, by unfold buildFileSet; rw [hcf, hl], hfin⟩


theorem cachedStatus_append (db db' : DB) (build : Build) (rows : List (Str × Str × BuildStatus))
    (h : db'.build_statuses = db.build_statuses ++ rows) (hc : cachedStatus db build ≠ none) :
    cachedStatus db' build ≠ none := by
  unfold cachedStatus at hc ⊢
  rw [h, List.find?_append]
  cases hf : db.build_statuses.find? fun row =>
      decide (row.1 = build.Job ∧ row.2.1 = build.BuildID) with
  | none => rw [hf] at hc; exact absurd rfl hc
  | some row => simp

theorem cachedStatus_append_self (db db' : DB) (build : Build) (st : BuildStatus)
    (h : db'.build_statuses = db.build_statuses ++ [(build.Job, build.BuildID, st)]) :
    cachedStatus db' build ≠ none := by
  unfold cachedStatus
  rw [h, List.find?_append]
  cases hf : db.build_statuses.find? fun row =>
      decide (row.1 = build.Job ∧ row.2.1 = build.BuildID) with
  | none => simp [List.find?]
  | some row => simp

theorem cachedFiles_append (db db' : DB) (build : Build) (extra : List (Str × Str × List Str))
    (h : db'.build_artifacts = db.build_artifacts ++ extra)
    (hx : ∀ row ∈ extra, ¬ (row.1 = build.Job ∧ row.2.1 = build.BuildID)) :
    cachedFiles db' build = cachedFiles db build := by
  unfold cachedFiles
  rw [h, List.find?_append]
  have : extra.find? (fun row => decide (row.1 = build.Job ∧ row.2.1 = build.BuildID)) =
      none := by
    rw [List.find?_eq_none]
    intro row hrow
    simpa using hx row hrow
  rw [this]
  simp

/-- A build that is settled stays settled when another per-build step goes on. -/
theorem Settled.step (w : World) (s : Sys) (b₂ : Build) (extra : List (Str × Str × List Str))
    (hx : ∀ row ∈ extra, row.1 = b₂.Job ∧ row.2.1 = b₂.BuildID) (P : Prop)
    (r : Sys × Outcome) (he : StepEffect s b₂ extra P r) (hn : r.2 = .next) (b : Build)
    (hs : Settled w s.db b) : Settled w r.1.db b := by
  unfold StepEffect at he
  rcases he with ⟨_, h2⟩ | ⟨_, st, pre, h2, h3, _⟩
  · rw [(h2 hn).1]
    exact hs
  · rcases hs with hcs | ⟨files, hfs, hfin⟩
    · exact Or.inl (cachedStatus_append _ _ _ _ h2 hcs)
    · by_cases hkey : b₂.Job = b.Job ∧ b₂.BuildID = b.BuildID
      · left
        have h2' : r.1.db.build_statuses = s.db.build_statuses ++ [(b.Job, b.BuildID, st)] := by
          rw [h2, hkey.1, hkey.2]
        exact cachedStatus_append_self _ _ _ _ h2'
      · right
        refine ⟨files, ?_, hfin⟩
        have hcf := cachedFiles_append s.db r.1.db b extra h3 (fun row hrow hk => by
          have := hx row hrow
          exact hkey ⟨this.1.symm.trans hk.1, this.2.symm.trans hk.2⟩)
        unfold buildFileSet at hfs ⊢
        rw [hcf]
        exact hfs

/-- After a per-build loop that went through, every build of the loop is settled, and so is
every build that was settled before. -/
theorem indexBuilds_settled (w : World) : ∀ (builds : List Build) (s : Sys),
    (indexBuilds w builds s).2 = .next →
    (∀ b, Settled w s.db b → Settled w (indexBuilds w builds s).1.db b) ∧
    ∀ b ∈ builds, Settled w (indexBuilds w builds s).1.db b
  | [], s, _ => ⟨fun _ h => h, fun _ h => by cases h⟩
  | build :: rest, s, hn => by
    unfold indexBuilds at hn ⊢
    obtain ⟨extra, hx, he⟩ := indexBuild_effect w s build
    rcases h1 : indexBuild w s build with ⟨s₁, _ | err⟩
    · rw [h1] at hn he
      dsimp only at hn ⊢
      obtain ⟨ih1, ih2⟩ := indexBuilds_settled w rest s₁ hn
      have hstep : ∀ b, Settled w s.db b → Settled w s₁.db b :=
        fun b hb => Settled.step w s build extra hx _ _ he rfl b hb
      have hself : Settled w s₁.db build := by
        unfold StepEffect at he
        rcases he with ⟨_, h2⟩ | ⟨_, st, pre, h2, _, _⟩
        · have := h2 rfl
          rw [this.1]
          exact this.2
        · exact Or.inl (cachedStatus_append_self _ _ _ _ h2)
      refine ⟨fun b hb => ih1 b (hstep b hb), ?_⟩
      intro b hb
      rcases List.mem_cons.mp hb with rfl | hb
      · exact ih1 _ hself
      · exact ih2 b hb
    · rw [h1] at hn
      cases hn

/-- A per-build loop over settled builds leaves the database and the cache directory as they
are. -/
theorem indexBuilds_frame (w : World) : ∀ (builds : List Build) (s : Sys),
    (∀ b ∈ builds, Settled w s.db b) →
    (indexBuilds w builds s).1.db = s.db ∧ (indexBuilds w builds s).1.cache = s.cache
  | [], s, _ => ⟨rfl, rfl⟩
  | build :: rest, s, h => by
    unfold indexBuilds
    have hl := indexBuild_onlyLooked w s build (h build (List.mem_cons_self _ _))
    rcases h1 : indexBuild w s build with ⟨s₁, _ | err⟩
    · rw [h1] at hl
      dsimp only
      have ih := indexBuilds_frame w rest s₁ (fun b hb => by
        rw [hl.db]
        exact h b (List.mem_cons_of_mem _ hb))
      exact ⟨ih.1.trans hl.db, ih.2.trans hl.cache⟩
    · rw [h1] at hl
      exact ⟨hl.db, hl.cache⟩


theorem FindBuilds_fst (w : World) (s : Sys) (name gcsBucketPrefix : Str) :
    (FindBuilds w s name gcsBucketPrefix).1.db = s.db ∧
    (FindBuilds w s name gcsBucketPrefix).1.cache = s.cache := by
  unfold FindBuilds
  dsimp only
  repeat' split
  all_goals exact ⟨rfl, rfl⟩

theorem FindBuilds_snd (w w' : World) (s s' : Sys) (name gcsBucketPrefix : Str)
    (h : w'.listDir = w.listDir) :
    (FindBuilds w' s' name gcsBucketPrefix).2 = (FindBuilds w s name gcsBucketPrefix).2 := by
  unfold FindBuilds
  dsimp only
  rw [h]
  repeat' split
  all_goals rfl

theorem indexGroup_settled (w : World) (s : Sys) (testGroup : TestGroup)
    (hn : (indexGroup w s testGroup).2 = .next) :
    (∀ b, Settled w s.db b → Settled w (indexGroup w s testGroup).1.db b) ∧
    ∀ builds, (FindBuilds w Sys.empty testGroup.Name testGroup.GCSPrefix).2 = .ok builds →
      ∀ b ∈ lastBuilds builds, Settled w (indexGroup w s testGroup).1.db b := by
  unfold indexGroup at hn ⊢
  have hf := FindBuilds_fst w s testGroup.Name testGroup.GCSPrefix
  have hs := FindBuilds_snd w w s Sys.empty testGroup.Name testGroup.GCSPrefix rfl
  rcases h1 : FindBuilds w s testGroup.Name testGroup.GCSPrefix with ⟨s₁, err | builds⟩
  · rw [h1] at hn
    cases hn
  · rw [h1] at hn hf hs
    dsimp only at hn hf hs ⊢
    have := indexBuilds_settled w _ s₁ hn
    rw [hf.1] at this
    refine ⟨this.1, ?_⟩
    intro builds' hb'
    rw [hs] at hb'
    cases hb'
    exact this.2

theorem indexGroup_frame (w : World) (s : Sys) (testGroup : TestGroup)
    (h : ∀ builds, (FindBuilds w Sys.empty testGroup.Name testGroup.GCSPrefix).2 = .ok builds →
      ∀ b ∈ lastBuilds builds, Settled w s.db b) :
    (indexGroup w s testGroup).1.db = s.db ∧ (indexGroup w s testGroup).1.cache = s.cache := by
  unfold indexGroup
  have hf := FindBuilds_fst w s testGroup.Name testGroup.GCSPrefix
  have hs := FindBuilds_snd w w s Sys.empty testGroup.Name testGroup.GCSPrefix rfl
  rcases h1 : FindBuilds w s testGroup.Name testGroup.GCSPrefix with ⟨s₁, err | builds⟩
  · rw [h1] at hf
    exact hf
  · rw [h1] at hf hs
    dsimp only at hf hs ⊢
    have := indexBuilds_frame w (lastBuilds builds) s₁ (by
      rw [hf.1]
      exact h builds hs)
    exact ⟨this.1.trans hf.1, this.2.trans hf.2⟩

theorem indexRun_settled (w : World) : ∀ (groups : List TestGroup) (s : Sys),
    (indexRun w groups s).2 = .next →
    (∀ b, Settled w s.db b → Settled w (indexRun w groups s).1.db b) ∧
    ∀ testGroup ∈ groups, ∀ builds,
      (FindBuilds w Sys.empty testGroup.Name testGroup.GCSPrefix).2 = .ok builds →
      ∀ b ∈ lastBuilds builds, Settled w (indexRun w groups s).1.db b
  | [], s, _ => ⟨fun _ h => h, fun _ h => by cases h⟩
  | testGroup :: rest, s, hn => by
    unfold indexRun at hn ⊢
    rcases h1 : indexGroup w s testGroup with ⟨s₁, _ | err⟩
    · rw [h1] at hn
      dsimp only at hn ⊢
      have hg := indexGroup_settled w s testGroup (by rw [h1])
      rw [h1] at hg
      obtain ⟨ih1, ih2⟩ := indexRun_settled w rest s₁ hn
      refine ⟨fun b hb => ih1 b (hg.1 b hb), ?_⟩
      intro tg htg builds hb b hmem
      rcases List.mem_cons.mp htg with rfl | htg
      · exact ih1 b (hg.2 builds hb b hmem)
      · exact ih2 tg htg builds hb b hmem
    · rw [h1] at hn
      cases hn

theorem indexRun_frame (w : World) : ∀ (groups : List TestGroup) (s : Sys),
    (∀ testGroup ∈ groups, ∀ builds,
      (FindBuilds w Sys.empty testGroup.Name testGroup.GCSPrefix).2 = .ok builds →
      ∀ b ∈ lastBuilds builds, Settled w s.db b) →
    (indexRun w groups s).1.db = s.db ∧ (indexRun w groups s).1.cache = s.cache
  | [], s, _ => ⟨rfl, rfl⟩
  | testGroup :: rest, s, h => by
    unfold indexRun
    have hg := indexGroup_frame w s testGroup (h testGroup (List.mem_cons_self _ _))
    rcases h1 : indexGroup w s testGroup with ⟨s₁, _ | err⟩
    · rw [h1] at hg
      dsimp only at hg ⊢
      have ih := indexRun_frame w rest s₁ (fun tg htg builds hb b hmem => by
        rw [hg.1]
        exact h tg (List.mem_cons_of_mem _ htg) builds hb b hmem)
      exact ⟨ih.1.trans hg.1, ih.2.trans hg.2⟩
    · rw [h1] at hg
      exact hg

theorem Settled.congr (w w' : World) (db : DB) (b : Build) (h : w'.listFiles = w.listFiles)
    (hs : Settled w db b) : Settled w' db b := by
  unfold Settled buildFileSet at hs ⊢
  rw [h]
  exact hs


theorem sameKey_self (row : DBTestResult) : sameKey row row = true := by
  simp [sameKey]

/-- An insert that went through: one event, no failure of the database, and the row is in
the table, by its key. -/
theorem saveTestResult_ok (w : World) (s s' : Sys) (row : DBTestResult)
    (h : saveTestResult w s row = (s', none)) :
    s'.trace = s.trace ++ [.saveTestResult row] ∧ w.dbFault s.trace.length = none ∧
    s'.db.test_results.any (sameKey row) = true ∧
    (∃ added, s'.db.test_results = s.db.test_results ++ added) := by
  unfold saveTestResult at h
  cases hf : w.dbFault s.trace.length with
  | some code =>
    rw [hf] at h
    cases h
  | none =>
    rw [hf] at h
    dsimp only at h
    split at h
    · rename_i hany
      injection h with h1 _
      subst h1
      exact ⟨rfl, rfl, hany, [], by simp [Sys.log]⟩
    · injection h with h1 _
      subst h1
      refine ⟨rfl, rfl, ?_, [row], rfl⟩
      simp [Sys.log, sameKey_self]

/-- When the loops that save the rows of a build end without error, every row was handed to
`saveTestResult`, in order; no insert failed; and every row is in the table, by its key. -/
theorem saveRows_ok (w : World) : ∀ (rows : List DBTestResult) (s s' : Sys),
    saveRows w rows s = (s', none) →
    s'.trace = s.trace ++ rows.map Event.saveTestResult ∧
    (∀ k, k < rows.length → w.dbFault (s.trace.length + k) = none) ∧
    (∀ row ∈ rows, s'.db.test_results.any (sameKey row) = true) ∧
    (∃ added, s'.db.test_results = s.db.test_results ++ added)
  | [], s, s', h => by
    have e : s = s' := by
      have h' : (s, (none : Option Err)) = (s', none) := h
      injection h'
    subst e
    exact ⟨by simp, fun k hk => (by simp at hk), fun row hrow => (by cases hrow), [], by simp⟩
  | row :: rest, s, s', h => by
    unfold saveRows at h
    rcases h1 : saveTestResult w s row with ⟨s₁, _ | err⟩
    · rw [h1] at h
      dsimp only at h
      obtain ⟨t1, f1, a1, x1, hx1⟩ := saveTestResult_ok w s s₁ row h1
      obtain ⟨t2, f2, a2, x2, hx2⟩ := saveRows_ok w rest s₁ s' h
      refine ⟨?_, ?_, ?_, x1 ++ x2, ?_⟩
      · rw [t2, t1]
        simp
      · intro k hk
        cases k with
        | zero => exact f1
        | succ k =>
          have := f2 k (by simp only [List.length_cons] at hk; omega)
          rw [t1] at this
          simp only [List.length_append, List.length_singleton] at this
          rw [← this]
          congr 1
          omega
      · intro r hr
        rw [List.mem_cons] at hr
        rcases hr with rfl | hr
        · rw [hx2, List.any_append, a1]
          rfl
        · exact a2 r hr
      · rw [hx2, hx1, List.append_assoc]
    · rw [h1] at h
      cases h

/-- A step that changes the table of statuses ran through every stage without error: the
status was resolved, the metadata saved if it was not cached, all reports and logs fetched,
all rows saved, and only then the status. -/
theorem indexBuildWithMeta_rows (w : World) (s : Sys) (build : Build) (buildMeta : BuildMeta)
    (cached : Bool)
    (h : (indexBuildWithMeta w s build buildMeta cached).1.db.build_statuses ≠
      s.db.build_statuses) :
    ∃ (st : BuildStatus) (s₀' s₁ s₂ s₃ s₄ : Sys) (resultsList buildLogs : List TestResult),
      GetBuildStatus w s buildMeta = (s₀', .ok st) ∧
      (s₁ = s₀' ∨ saveBuildMeta w s₀' buildMeta = (s₁, none)) ∧
      GetTestResults w s₁ buildMeta = (s₂, resultsList, none) ∧
      GetBuildLogs w s₂ buildMeta = (s₃, buildLogs, none) ∧
      saveRows w (testResultRows build.Job build.BuildID st.FinishedTimestamp
        (resultsList ++ buildLogs)) s₃ = (s₄, none) ∧
      saveBuildStatus w s₄ build st = ((indexBuildWithMeta w s build buildMeta cached).1, none) := by
  unfold indexBuildWithMeta at h ⊢
  have r1 := GetBuildStatus_reads w s buildMeta
  rcases h1 : GetBuildStatus w s buildMeta with ⟨s₁, e₁ | status⟩
  · rw [h1] at r1 h
    dsimp only at h
    exfalso
    split at h <;> exact h (by rw [r1.db])
  · rw [h1] at r1 h
    replace r1 : Reads s s₁ := r1
    dsimp only at h ⊢
    have hmeta : ∃ s₂ e₂, (if cached = true then (s₁, none) else saveBuildMeta w s₁ buildMeta) =
        (s₂, e₂) ∧ s₂.db.build_statuses = s.db.build_statuses ∧
        (e₂ = none → s₂ = s₁ ∨ saveBuildMeta w s₁ buildMeta = (s₂, none)) := by
      cases cached with
      | true => exact ⟨s₁, none, rfl, by rw [r1.db], fun _ => Or.inl rfl⟩
      | false =>
        refine ⟨(saveBuildMeta w s₁ buildMeta).1, (saveBuildMeta w s₁ buildMeta).2, rfl,
          ?_, ?_⟩
        · rcases saveBuildMeta_effect w s₁ buildMeta with hm | hm
          · rw [hm.2.1, r1.db]
          · rw [hm.2.db, r1.db]
        · intro hn
          right
          rw [← hn]
    obtain ⟨s₂, e₂, h2, hst2, hs2⟩ := hmeta
    rw [h2] at h ⊢
    cases e₂ with
    | some err => exact absurd hst2 h
    | none =>
      dsimp only at h ⊢
      have r3 := testResultsLoop_reads w buildMeta.Build.GCSBucket buildMeta.Files s₂ []
      have e3 : GetTestResults w s₂ buildMeta =
          testResultsLoop w buildMeta.Build.GCSBucket buildMeta.Files s₂ [] := rfl
      rcases h3 : GetTestResults w s₂ buildMeta with ⟨s₃, resultsList, _ | err⟩
      · rw [e3.symm.trans h3] at r3
        rw [h3] at h
        dsimp only at h ⊢
        have r4 := buildLogsLoop_reads w buildMeta.Build.GCSBucket buildMeta.Build.GCSPrefix
          buildMeta.Files s₃ []
        have e4 : GetBuildLogs w s₃ buildMeta = buildLogsLoop w buildMeta.Build.GCSBucket
          buildMeta.Build.GCSPrefix buildMeta.Files s₃ [] := rfl
        rcases h4 : GetBuildLogs w s₃ buildMeta with ⟨s₄, buildLogs, _ | err⟩
        · rw [e4.symm.trans h4] at r4
          rw [h4] at h
          dsimp only at h ⊢
          have r5 := saveRows_keeps w (testResultRows build.Job build.BuildID
            status.FinishedTimestamp (resultsList ++ buildLogs)) s₄
          rcases h5 : saveRows w (testResultRows build.Job build.BuildID
            status.FinishedTimestamp (resultsList ++ buildLogs)) s₄ with ⟨s₅, _ | err⟩
          · rw [h5] at r5 h
            dsimp only at h ⊢
            have k5 : Keeps s₂ s₅ := (r3.keeps.keepsThen r4.keeps).keepsThen r5
            have r6 := saveBuildStatus_effect w s₅ build status
            rcases h6 : saveBuildStatus w s₅ build status with ⟨s₆, _ | err⟩
            · rw [h6] at h
              dsimp only at h ⊢
              exact ⟨status, s₁, s₂, s₃, s₄, s₅, resultsList, buildLogs, rfl, hs2 rfl,
                h3, h4, h5, h6⟩
            · rw [h6] at r6 h
              dsimp only at h
              rcases r6 with r6 | r6
              · cases r6.1
              · exact absurd (by rw [r6.2.db, k5.statuses, hst2]) h
          · rw [h5] at r5 h
            exact absurd (by rw [r5.statuses, r4.db, r3.db, hst2]) h
        · rw [e4.symm.trans h4] at r4
          rw [h4] at h
          exact absurd (by rw [r4.db, r3.db, hst2]) h
      · rw [e3.symm.trans h3] at r3
        rw [h3] at h
        exact absurd (by rw [r3.db, hst2]) h

theorem saveBuildStatus_ok (w : World) (s s' : Sys) (build : Build) (st : BuildStatus)
    (h : saveBuildStatus w s build st = (s', none)) :
    s'.trace = s.trace ++ [.saveBuildStatus build.Job build.BuildID] ∧
    s'.db.test_results = s.db.test_results ∧
    s'.db.build_statuses = s.db.build_statuses ++ [(build.Job, build.BuildID, st)] := by
  unfold saveBuildStatus at h
  cases hf : w.dbFault s.trace.length with
  | some code =>
    rw [hf] at h
    cases h
  | none =>
    rw [hf] at h
    injection h with h1 _
    subst h1
    exact ⟨rfl, rfl, rfl⟩

/-- What the trace and the tables show of a step that ran through every stage. -/
theorem rows_then_status (w : World) (s₀ s₀' s₁ s₂ s₃ s₄ s' : Sys) (build : Build)
    (buildMeta : BuildMeta) (st : BuildStatus) (resultsList buildLogs : List TestResult)
    (h1 : GetBuildStatus w s₀ buildMeta = (s₀', .ok st))
    (h2 : s₁ = s₀' ∨ saveBuildMeta w s₀' buildMeta = (s₁, none))
    (h3 : GetTestResults w s₁ buildMeta = (s₂, resultsList, none))
    (h4 : GetBuildLogs w s₂ buildMeta = (s₃, buildLogs, none))
    (h5 : saveRows w (testResultRows build.Job build.BuildID st.FinishedTimestamp
      (resultsList ++ buildLogs)) s₃ = (s₄, none))
    (h6 : saveBuildStatus w s₄ build st = (s', none)) :
    ∃ pre, s₃.trace = s₀.trace ++ pre ∧
      s'.trace = s₀.trace ++ pre ++
        (testResultRows build.Job build.BuildID st.FinishedTimestamp
          (resultsList ++ buildLogs)).map Event.saveTestResult ++
        [.saveBuildStatus build.Job build.BuildID] ∧
      (∀ k, k < (testResultRows build.Job build.BuildID st.FinishedTimestamp
          (resultsList ++ buildLogs)).length →
        w.dbFault (s₀.trace.length + pre.length + k) = none) ∧
      (∀ row ∈ testResultRows build.Job build.BuildID st.FinishedTimestamp
          (resultsList ++ buildLogs), s'.db.test_results.any (sameKey row) = true) ∧
      s'.db.build_statuses = s₀.db.build_statuses ++ [(build.Job, build.BuildID, st)] := by
  have r1 : Reads s₀ s₀' := by
    have := GetBuildStatus_reads w s₀ buildMeta
    rw [h1] at this
    exact this
  have k2 : s₁.db.build_statuses = s₀'.db.build_statuses ∧ s₀'.trace <+: s₁.trace := by
    rcases h2 with rfl | h2
    · exact ⟨rfl, List.prefix_refl _⟩
    · rcases saveBuildMeta_effect w s₀' buildMeta with hm | hm
      · rw [h2] at hm
        exact ⟨hm.2.1, hm.2.2.2⟩
      · rw [h2] at hm
        exact absurd rfl hm.1
  have r3 : Reads s₁ s₂ := by
    have := testResultsLoop_reads w buildMeta.Build.GCSBucket buildMeta.Files s₁ []
    have e : GetTestResults w s₁ buildMeta =
        testResultsLoop w buildMeta.Build.GCSBucket buildMeta.Files s₁ [] := rfl
    rw [e.symm.trans h3] at this
    exact this
  have r4 : Reads s₂ s₃ := by
    have := buildLogsLoop_reads w buildMeta.Build.GCSBucket buildMeta.Build.GCSPrefix
      buildMeta.Files s₂ []
    have e : GetBuildLogs w s₂ buildMeta = buildLogsLoop w buildMeta.Build.GCSBucket
        buildMeta.Build.GCSPrefix buildMeta.Files s₂ [] := rfl
    rw [e.symm.trans h4] at this
    exact this
  have k5 : Keeps s₃ s₄ := by
    have := saveRows_keeps w (testResultRows build.Job build.BuildID st.FinishedTimestamp
      (resultsList ++ buildLogs)) s₃
    rw [h5] at this
    exact this
  obtain ⟨t5, f5, a5, _⟩ := saveRows_ok w _ s₃ s₄ h5
  obtain ⟨t6, x6, b6⟩ := saveBuildStatus_ok w s₄ s' build st h6
  obtain ⟨pre, hpre⟩ := ((r1.trace.trans k2.2).trans r3.trace).trans r4.trace
  refine ⟨pre, hpre.symm, ?_, ?_, ?_, ?_⟩
  · rw [t6, t5, ← hpre]
  · intro k hk
    have := f5 k hk
    rw [← hpre] at this
    simpa [List.length_append] using this
  · intro row hrow
    rw [x6]
    exact a5 row hrow
  · rw [b6, k5.statuses, r4.db, r3.db, k2.1, r1.db]

/-- A per-build step leaves the table of statuses alone, or it is the rest of the loop body
run on the metadata of the build, after lookups only. -/
theorem indexBuild_cases (w : World) (s : Sys) (build : Build) :
    (indexBuild w s build).1.db.build_statuses = s.db.build_statuses ∨
    ∃ (s₀ : Sys) (buildMeta : BuildMeta) (cached : Bool) (pre₀ : List Event),
      indexBuild w s build = indexBuildWithMeta w s₀ build buildMeta cached ∧
      buildMeta.Build = build ∧ buildFileSet w s.db build = some buildMeta.Files ∧
      s₀.db = s.db ∧ s₀.cache = s.cache ∧ s₀.trace = s.trace ++ pre₀ ∧
      ∀ ev ∈ pre₀, ev.isWrite = false ∧ ev.isFetch = false := by
  unfold indexBuild loadBuildStatus
  cases hf1 : w.dbFault s.trace.length with
  | some code => exact Or.inl rfl
  | none =>
    cases hst : s.db.build_statuses.find? fun row =>
        decide (row.1 = build.Job ∧ row.2.1 = build.BuildID) with
    | some row =>
      simp only [Sys.log, hst]
      exact Or.inl trivial
    | none =>
      simp only [Sys.log, hst, ne_eq, not_true_eq_false, if_false]
      unfold loadBuildMeta
      cases hf2 : w.dbFault (s.trace ++ [Event.loadBuildStatus build.Job build.BuildID]).length
        with
      | some code =>
        simp only [Sys.log, hf2]
        exact Or.inl rfl
      | none =>
        cases hart : s.db.build_artifacts.find? fun row =>
            decide (row.1 = build.Job ∧ row.2.1 = build.BuildID) with
        | some row =>
          have hcf : cachedFiles s.db build = some row.2.2 := by
            unfold cachedFiles; rw [hart]; rfl
          simp only [Sys.log, hf2, hart]
          refine Or.inr ⟨_, _, true, [.loadBuildStatus build.Job build.BuildID,
            .loadBuildMeta build.Job build.BuildID], rfl, rfl, ?_, rfl, rfl, ?_, ?_⟩
          · unfold buildFileSet
            rw [hcf]
          · simp
          · intro ev hev
            simp only [List.mem_cons, List.mem_singleton, List.not_mem_nil, or_false] at hev
            rcases hev with rfl | rfl <;> exact ⟨rfl, rfl⟩
        | none =>
          have hcf : cachedFiles s.db build = none := by unfold cachedFiles; rw [hart]; rfl
          simp only [Sys.log, hf2, hart, if_true]
          unfold GetBuildMeta
          cases hl : w.listFiles build.GCSBucket build.GCSPrefix with
          | error code =>
            simp only [Sys.log]
            exact Or.inl trivial
          | ok fs =>
            simp only [Sys.log]
            refine Or.inr ⟨_, _, false, [.loadBuildStatus build.Job build.BuildID,
              .loadBuildMeta build.Job build.BuildID,
              .listFiles build.GCSBucket build.GCSPrefix], rfl, rfl, ?_, rfl, rfl, ?_, ?_⟩
            · unfold buildFileSet
              rw [hcf, hl]
            · simp
            · intro ev hev
              simp only [List.mem_cons, List.mem_singleton, List.not_mem_nil, or_false] at hev
              rcases hev with rfl | rfl | rfl <;> exact ⟨rfl, rfl⟩

/-- A per-build step that changes the table of statuses saved all rows of the build first. -/
theorem indexBuild_rows (w : World) (s : Sys) (build : Build)
    (h : (indexBuild w s build).1.db.build_statuses ≠ s.db.build_statuses) :
    ∃ (st : BuildStatus) (pre : List Event) (rows : List DBTestResult),
      (indexBuild w s build).1.db.build_statuses =
        s.db.build_statuses ++ [(build.Job, build.BuildID, st)] ∧
      FetchedRows w s build st pre rows ∧
      (indexBuild w s build).1.trace = s.trace ++ pre ++ rows.map Event.saveTestResult ++
        [.saveBuildStatus build.Job build.BuildID] ∧
      (∀ k, k < rows.length → w.dbFault (s.trace.length + pre.length + k) = none) ∧
      (∀ row ∈ rows, (indexBuild w s build).1.db.test_results.any (sameKey row) = true) := by
  rcases indexBuild_cases w s build with h0 | ⟨s₀, buildMeta, cached, pre₀, he, hb, hfs, hdb,
    hcache, htr, hpre₀⟩
  · exact absurd h0 h
  · rw [he] at h ⊢
    rw [← hdb] at h
    obtain ⟨st, s₀', s₁, s₂, s₃, s₄, resultsList, buildLogs, h1, h2, h3, h4, h5, h6⟩ :=
      indexBuildWithMeta_rows w s₀ build buildMeta cached h
    obtain ⟨pre, p1, p2, p3, p4, p5⟩ := rows_then_status w s₀ s₀' s₁ s₂ s₃ s₄ _ build
      buildMeta st resultsList buildLogs h1 h2 h3 h4 h5 h6
    refine ⟨st, pre₀ ++ pre, _, ?_, ⟨buildMeta, s₀, s₀', s₁, s₂, s₃, pre₀, resultsList,
      buildLogs, hb, hfs, hdb, hcache, htr, hpre₀, h1, h2, h3, h4, ?_, rfl⟩, ?_, ?_, p4⟩
    · rw [p5, hdb]
    · rw [p1, htr, List.append_assoc]
    · rw [p2, htr]
      simp only [List.append_assoc]
    · intro k hk
      have := p3 k hk
      rw [htr] at this
      simpa [List.length_append, Nat.add_assoc] using this

/-- C7 (idempotence of indexing).  A build whose status is cached is skipped right after the
status lookup: the step adds that one event and nothing else, and goes on unless the lookup
fails.  A step that changes the table of statuses went on and appended exactly the status row
of its build, after all of that build's rows: `rows` are the rows made from all reports and
logs of the build's file set, fetched in this step (`FetchedRows`); every one of them was
handed to `saveTestResult`, in order, right before the insert of the status, which is the
last event; none of these inserts failed; and every row is in the table, by its key.  Hence,
after a run that went through, a second run over a remote store with the same listings
leaves the database and the cache directory as they are. -/
theorem indexRun_idempotent :
    (∀ (w : World) (s : Sys) (build : Build), cachedStatus s.db build ≠ none →
      (indexBuild w s build).1 = s.log (.loadBuildStatus build.Job build.BuildID) ∧
      (w.dbFault s.trace.length = none → (indexBuild w s build).2 = .next)) ∧
    (∀ (w : World) (s : Sys) (build : Build),
      (indexBuild w s build).1.db.build_statuses ≠ s.db.build_statuses →
      (indexBuild w s build).2 = .next ∧
      ∃ (st : BuildStatus) (pre : List Event) (rows : List DBTestResult),
        (indexBuild w s build).1.db.build_statuses =
          s.db.build_statuses ++ [(build.Job, build.BuildID, st)] ∧
        FetchedRows w s build st pre rows ∧
        (indexBuild w s build).1.trace =
          s.trace ++ pre ++ rows.map Event.saveTestResult ++
            [.saveBuildStatus build.Job build.BuildID] ∧
        (∀ k, k < rows.length → w.dbFault (s.trace.length + pre.length + k) = none) ∧
        (∀ row ∈ rows,
          (indexBuild w s build).1.db.test_results.any (sameKey row) = true)) ∧
    (∀ (w w' : World) (groups : List TestGroup) (s : Sys),
      (indexRun w groups s).2 = .next →
      w'.listDir = w.listDir → w'.listFiles = w.listFiles →
      (indexRun w' groups (indexRun w groups s).1).1.db = (indexRun w groups s).1.db ∧
      (indexRun w' groups (indexRun w groups s).1).1.cache = (indexRun w groups s).1.cache) := by
  refine ⟨?_, ?_, ?_⟩
  · intro w s build hc
    unfold indexBuild loadBuildStatus
    cases hf1 : w.dbFault s.trace.length with
    | some code => exact ⟨rfl, fun h => by cases h⟩
    | none =>
      cases hst : s.db.build_statuses.find? fun row =>
          decide (row.1 = build.Job ∧ row.2.1 = build.BuildID) with
      | some row =>
        simp only [Sys.log, hst]
        exact ⟨trivial, fun _ => trivial⟩
      | none =>
        exfalso
        apply hc
        unfold cachedStatus
        rw [hst]
        rfl
  · intro w s build hne
    obtain ⟨extra, _, he⟩ := indexBuild_effect w s build
    unfold StepEffect at he
    rcases he with ⟨h1, _⟩ | ⟨h1, _⟩
    · exact absurd h1 hne
    · exact ⟨h1, indexBuild_rows w s build hne⟩
  · intro w w' groups s hn hd hl
    obtain ⟨_, h2⟩ := indexRun_settled w groups s hn
    apply indexRun_frame w' groups
    intro tg htg builds hb b hmem
    rw [FindBuilds_snd w w' Sys.empty Sys.empty tg.Name tg.GCSPrefix hd] at hb
    exact Settled.congr w w' _ b hl (h2 tg htg builds hb b hmem)

/-- Witness for C7: the first run over the sample world stores the status of the finished
build and goes through; the second run adds nothing; and the step for build `1` is one that
changes the table of statuses. -/
theorem indexRun_idempotent_witness :
    (indexRun World.sample [⟨"job".toList, "bkt/logs/job".toList⟩] Sys.empty).2 = .next ∧
    (indexRun World.sample [⟨"job".toList, "bkt/logs/job".toList⟩]
        Sys.empty).1.db.build_statuses =
      [("job".toList, "1".toList, ⟨10, 20, "SUCCESS".toList⟩)] ∧
    (indexRun World.sample [⟨"job".toList, "bkt/logs/job".toList⟩]
      (indexRun World.sample [⟨"job".toList, "bkt/logs/job".toList⟩] Sys.empty).1).1.db =
      (indexRun World.sample [⟨"job".toList, "bkt/logs/job".toList⟩] Sys.empty).1.db ∧
    (indexBuild World.sample Sys.empty
      ⟨"job".toList, "1".toList, "bkt".toList, "logs/job/1/".toList⟩).1.db.build_statuses ≠
      Sys.empty.db.build_statuses ∧
    (indexBuild World.sample Sys.empty
      ⟨"job".toList, "1".toList, "bkt".toList, "logs/job/1/".toList⟩).2 = .next :=
  ⟨by decide, by decide,
    (indexRun_idempotent.2.2 World.sample World.sample
      [⟨"job".toList, "bkt/logs/job".toList⟩] Sys.empty (by decide) rfl rfl).1,
    by decide,
    (indexRun_idempotent.2.1 World.sample Sys.empty
      ⟨"job".toList, "1".toList, "bkt".toList, "logs/job/1/".toList⟩ (by decide)).1⟩


/-- When the second insert of a row fails, the run ends in that error: one row of build `1`
is in the table, and no status is stored for the build. -/
theorem indexRun_failed_row_no_status :
    (indexRun World.rowFault [⟨"job".toList, "bkt/logs/job".toList⟩] Sys.empty).2 =
      .fatal (.db 1) ∧
    (indexRun World.rowFault [⟨"job".toList, "bkt/logs/job".toList⟩]
      Sys.empty).1.db.build_statuses = [] ∧
    (indexRun World.rowFault [⟨"job".toList, "bkt/logs/job".toList⟩]
      Sys.empty).1.db.test_results.length = 1 ∧
    (indexRun World.sample [⟨"job".toList, "bkt/logs/job".toList⟩]
      Sys.empty).1.db.test_results.length = 3 := by
  refine ⟨?_, ?_, ?_, ?_⟩ <;> decide

/-! ## A remote "does not exist" is not `ErrNotFound` -/

theorem gcsOpen_notExist (w : World) (s : Sys) (bucket object : Str)
    (hc : fileGet s.cache (cachePath bucket object) = none)
    (hr : w.object bucket object = .notExist)
    (h1 : w.ioFault s.trace.length ≠ .openErr) (h2 : w.ioFault s.trace.length ≠ .mkdir) :
    gcsOpen w s bucket object =
      ((s.log (.gcsOpen bucket object)).log (.download bucket object),
        .error (.wrap (unableToOpen bucket object) .ErrObjectNotExist)) := by
  unfold gcsOpen
  simp only [Sys.log, if_neg h1, if_neg h2, hc, hr]

theorem indexBuildWithMeta_fatal (w : World) (s : Sys) (build : Build) (buildMeta : BuildMeta)
    (cached : Bool) (err : Err) (he : (GetBuildStatus w s buildMeta).2 = .error err)
    (hne : err ≠ .ErrNotFound) :
    indexBuildWithMeta w s build buildMeta cached =
      ((GetBuildStatus w s buildMeta).1, .fatal err) := by
  unfold indexBuildWithMeta
  rcases h : GetBuildStatus w s buildMeta with ⟨s₁, e | st⟩
  · rw [h] at he
    dsimp only at he ⊢
    have : e = err := by injection he
    subst this
    rw [if_neg hne]
  · rw [h] at he
    cases he

/-- C10, as the spec states it, fails: in the world `World.missing` the object
`logs/job/1/started.json` is not in the cache and the remote store reports that it does not
exist, yet `gcsOpen` does not fail with `ErrNotFound`, and the indexer does not skip the
build `1`, whose file set lists `finished.json`: it ends in a fatal error. -/
theorem gcsOpen_notExist_not_spec :
    fileGet Sys.empty.cache (cachePath "bkt".toList "logs/job/1/started.json".toList) = none ∧
    World.missing.object "bkt".toList "logs/job/1/started.json".toList = .notExist ∧
    (gcsOpen World.missing Sys.empty "bkt".toList "logs/job/1/started.json".toList).2 ≠
      .error .ErrNotFound ∧
    (indexBuild World.missing Sys.empty
      ⟨"job".toList, "1".toList, "bkt".toList, "logs/job/1/".toList⟩).2 =
      .fatal (.wrap (unableToOpen "bkt".toList "logs/job/1/started.json".toList)
        .ErrObjectNotExist) := by
  refine ⟨rfl, rfl, gcsOpen_ne_ErrNotFound _ _ _ _, ?_⟩
  decide

/-- C10 (amended).  When an object is absent from the local cache, the remote store reports
that it does not exist and no local step fails before the remote read, `gcsOpen` fails with
the error that wraps the remote store's "object doesn't exist" under
`unable to open gs://bucket/object`.  `gcsOpen` never fails with `ErrNotFound`, and
`GetBuildStatus` fails with `ErrNotFound` exactly when `finished.json` is not in the build's
file set.  When `GetBuildStatus` fails with another error, as it does when reading
`started.json` or `finished.json` fails, the indexer does not skip the build: the step ends
in a fatal error with that error, and the database is as it was. -/
theorem gcsOpen_notExist_wrapped :
    (∀ (w : World) (s : Sys) (bucket object : Str),
      fileGet s.cache (cachePath bucket object) = none →
      w.object bucket object = .notExist →
      w.ioFault s.trace.length ≠ .openErr → w.ioFault s.trace.length ≠ .mkdir →
      gcsOpen w s bucket object =
        ((s.log (.gcsOpen bucket object)).log (.download bucket object),
          .error (.wrap (unableToOpen bucket object) .ErrObjectNotExist))) ∧
    (∀ (w : World) (s : Sys) (bucket object : Str),
      (gcsOpen w s bucket object).2 ≠ .error .ErrNotFound) ∧
    (∀ (w : World) (s : Sys) (buildMeta : BuildMeta),
      (GetBuildStatus w s buildMeta).2 = .error .ErrNotFound ↔
        buildMeta.Build.GCSPrefix ++ "finished.json".toList ∉ buildMeta.Files) ∧
    (∀ (w : World) (s : Sys) (build : Build) (buildMeta : BuildMeta) (cached : Bool)
      (err : Err), (GetBuildStatus w s buildMeta).2 = .error err → err ≠ .ErrNotFound →
      (indexBuildWithMeta w s build buildMeta cached).2 = .fatal err ∧
      (indexBuildWithMeta w s build buildMeta cached).1.db = s.db) := by
  refine ⟨gcsOpen_notExist, gcsOpen_ne_ErrNotFound, ?_, ?_⟩
  · intro w s buildMeta
    constructor
    · exact GetBuildStatus_ErrNotFound w s buildMeta
    · intro h
      rw [GetBuildStatus_not_found w s buildMeta h]
  · intro w s build buildMeta cached err he hne
    rw [indexBuildWithMeta_fatal w s build buildMeta cached err he hne]
    exact ⟨rfl, (GetBuildStatus_reads w s buildMeta).db⟩

/-- Witness for C10 (amended): `started.json` of build `1` in the world `World.missing`. -/
theorem gcsOpen_notExist_wrapped_witness :
    gcsOpen World.missing Sys.empty "bkt".toList "logs/job/1/started.json".toList =
      ((Sys.empty.log (.gcsOpen "bkt".toList "logs/job/1/started.json".toList)).log
          (.download "bkt".toList "logs/job/1/started.json".toList),
        .error (.wrap (unableToOpen "bkt".toList "logs/job/1/started.json".toList)
          .ErrObjectNotExist)) :=
  gcsOpen_notExist_wrapped.1 World.missing Sys.empty "bkt".toList
    "logs/job/1/started.json".toList rfl rfl (by decide) (by decide)


/-! ## The cases of `TestDenoise` -/

set_option maxRecDepth 100000 in
/-- The embedding of `Denoise` passes the three cases of `TestDenoise`. -/
theorem Denoise_test_cases :
    Denoise "UID:\"df658a21-3a4b-4e02-9415-85fef7b8ea2c\"".toList = "UID:\"UUID\"".toList ∧
    Denoise ("Feb 15 00:36:57.939: INFO: Running 'oc --kubeconfig=/tmp/tmp.bjZYPSqRRL " ++
        "observe serviceaccounts --once'").toList =
      ("Feb 0 0:0:0.RANDOM: INFO: Running 'oc -RANDOM=/tmp/tmp.RANDOM " ++
        "observe serviceaccounts -RANDOM'").toList ∧
    Denoise ("Feb 15 10:31:54.483 W ns/e2e-test-s2i-build-root-f2rcw buildconfig/nodejspass " ++
        "reason/BuildConfigTriggerFailed error triggering Build for BuildConfig " ++
        "e2e-test-s2i-build-root-f2rcw/nodejspass: Internal error occurred: build config " ++
        "e2e-test-s2i-build-root-f2rcw/nodejspass has already instantiated a build for " ++
        "imageid quay.io/openshift/community-e2e-images@sha256:" ++
        "8c2e8b2c36d1775e3d32f598fff3191bd50ef967c6ce7e600a01d609d7e4648e").toList =
      ("Feb 0 0:0:0.RANDOM W ns/e0e-RANDOM buildconfig/nodejspass " ++
        "reason/BuildConfigTriggerFailed error triggering Build for BuildConfig " ++
        "e0e-RANDOM/nodejspass: Internal error occurred: build config " ++
        "e0e-RANDOM/nodejspass has already instantiated a build for " ++
        "imageid quay.RANDOM/openshift/community-RANDOM@sha0:HASH").toList := by
  refine ⟨?_, ?_, ?_⟩ <;> decide


/-! ## The report parser: `analyzeSuite` -/

/-- C11 (report status derivation).  `analyzeSuite` emits one result per test case, in case
order.  The result of a case carries the case's name; its status is `Failure` if the case
has a failure element, otherwise `Error` if it has an error element, otherwise `Skipped` if
it has a skip element, otherwise `Success`; and when the case has captured output that is
valid UTF-8, the result's output is that output, unchanged. -/
theorem analyzeSuite_status (w : World) (suite : JUnitSuite) :
    (analyzeSuite w suite).length = suite.Results.length ∧
    ∀ (i : Nat) (c : JUnitResult), suite.Results[i]? = some c →
      ∃ r : TestResult, (analyzeSuite w suite)[i]? = some r ∧ r.Test = c.Name ∧
        (c.Failure ≠ none → r.Status = TestStatusFailure) ∧
        (c.Failure = none → c.Error ≠ none → r.Status = TestStatusError) ∧
        (c.Failure = none → c.Error = none → c.Skipped ≠ none →
          r.Status = TestStatusSkipped) ∧
        (c.Failure = none → c.Error = none → c.Skipped = none →
          r.Status = TestStatusSuccess) ∧
        (∀ out, c.Output = some out → w.validString out = true → r.Output = out) := by
  refine ⟨by simp [analyzeSuite], ?_⟩
  intro i c hc
  have h : (analyzeSuite w suite)[i]? = some
      { Test := c.Name,
        Status :=
          if c.Failure.isSome then TestStatusFailure
          else if c.Error.isSome then TestStatusError
          else if c.Skipped.isSome then TestStatusSkipped
          else TestStatusSuccess,
        Output :=
          match c.Output with
          | some out =>
            if w.validString out then out else "invalid utf8: ".toList ++ w.toValidUTF8 out
          | none => w.message c (2 ^ 20) } := by
    simp only [analyzeSuite, List.getElem?_map, hc, Option.map_some']
  refine ⟨_, h, rfl, ?_, ?_, ?_, ?_, ?_⟩
  · intro h
    cases hf : c.Failure with
    | none => exact absurd hf h
    | some x => simp
  · intro h1 h2
    cases he : c.Error with
    | none => exact absurd he h2
    | some x => simp [h1]
  · intro h1 h2 h3
    cases hs : c.Skipped with
    | none => exact absurd hs h3
    | some x => simp [h1, h2]
  · intro h1 h2 h3
    simp [h1, h2, h3]
  · intro out ho hv
    simp [ho, hv]

/-- Witness for C11: a suite with a failed case with captured output, an errored case and a
passed case; the second result. -/
theorem analyzeSuite_status_witness :
    ∃ r : TestResult,
      (analyzeSuite World.empty
        ⟨[⟨"a".toList, some "boom".toList, some [], none, none⟩,
          ⟨"b".toList, some "oops".toList, none, some [], some []⟩,
          ⟨"c".toList, none, none, none, none⟩]⟩)[1]? = some r ∧
      r.Test = "b".toList ∧ r.Status = TestStatusError ∧ r.Output = "oops".toList := by
  obtain ⟨r, h1, h2, _, h4, _, _, h7⟩ := (analyzeSuite_status World.empty
    ⟨[⟨"a".toList, some "boom".toList, some [], none, none⟩,
      ⟨"b".toList, some "oops".toList, none, some [], some []⟩,
      ⟨"c".toList, none, none, none, none⟩]⟩).2 1
    ⟨"b".toList, some "oops".toList, none, some [], some []⟩ rfl
  exact ⟨r, h1, h2, h4 rfl (by simp), h7 _ rfl rfl⟩


/-! ## The stages of `Denoise` one by one -/

theorem plus_run (p : Char → Bool) (c : Char) (cs : Str) :
    (Re.plus p).run some (c :: cs) = if p c then some (cs.dropWhile p) else none := by
  show (if p c then starRun p some cs else none) = _
  rw [starRun_some]

theorem randomSuffixRe_run (c : Char) (cs : Str) :
    randomSuffixRe.run some (c :: cs) =
      if isSep c then
        match cs with
        | [] => none
        | d :: ds => if isSuffixChar d then some (ds.dropWhile isSuffixChar) else none
      else none := by
  cases cs with
  | nil => show (if isSep c then none else none) = _; rfl
  | cons d ds =>
    show (if isSep c then (if isSuffixChar d then starRun isSuffixChar some ds else none)
      else none) = _
    rw [starRun_some]

/-- The equation of a stage whose pattern is `[class]+`. -/
theorem replaceAll_plus (p : Char → Bool) (repl : Str → Str) (c : Char) (cs : Str) :
    replaceAll (Re.plus p) repl (c :: cs) =
      if p c then repl (c :: cs.takeWhile p) ++ replaceAll (Re.plus p) repl (cs.dropWhile p)
      else c :: replaceAll (Re.plus p) repl cs := by
  have hrun := plus_run p c cs
  by_cases hc : p c = true
  · rw [if_pos hc] at hrun ⊢
    have := replaceAll_match (Re.plus p) repl c (cs.takeWhile p) (cs.dropWhile p)
      (by rw [List.cons_append, List.takeWhile_append_dropWhile]; exact hrun)
    rwa [List.cons_append, List.takeWhile_append_dropWhile] at this
  · rw [if_neg hc] at hrun ⊢
    exact replaceAll_cons_of_none _ _ _ _ hrun

/-- The equation of the random-suffix stage where the pattern matches. -/
theorem replaceAll_randomSuffix_match (repl : Str → Str) (c d : Char) (ds : Str)
    (hc : isSep c = true) (hd : isSuffixChar d = true) :
    replaceAll randomSuffixRe repl (c :: d :: ds) =
      repl (c :: d :: ds.takeWhile isSuffixChar) ++
        replaceAll randomSuffixRe repl (ds.dropWhile isSuffixChar) := by
  have hrun := randomSuffixRe_run c (d :: ds)
  simp only [hc, hd, if_true] at hrun
  have := replaceAll_match randomSuffixRe repl c (d :: ds.takeWhile isSuffixChar)
    (ds.dropWhile isSuffixChar)
    (by simp only [List.cons_append, List.takeWhile_append_dropWhile]; exact hrun)
  simpa only [List.cons_append, List.takeWhile_append_dropWhile] using this

/-- The equation of the random-suffix stage where the pattern does not match. -/
theorem replaceAll_randomSuffix_none (repl : Str → Str) (c : Char) (cs : Str)
    (h : isSep c = false ∨ startsOutside cs = true) :
    replaceAll randomSuffixRe repl (c :: cs) = c :: replaceAll randomSuffixRe repl cs := by
  apply replaceAll_cons_of_none
  rw [randomSuffixRe_run]
  rcases h with h | h
  · simp [h]
  · cases cs with
    | nil => simp
    | cons d ds =>
      have hd : isSuffixChar d = false := by simpa [startsOutside] using h
      simp [hd]


/-! ## Digit normalization -/

theorem digitsNormalized_append (out : Str) : ∀ R : Str, (∀ d ∈ R, isDigit d = false) →
    digitsNormalized (R ++ out) = digitsNormalized out
  | [], _ => rfl
  | c :: R, h => by
    have hc : isDigit c = false := h c (List.mem_cons_self _ _)
    have ih := digitsNormalized_append out R (fun d hd => h d (List.mem_cons_of_mem _ hd))
    simp [digitsNormalized, hc, ih]

theorem digitsNormalized_suffix : ∀ l t : Str, t <:+ l → digitsNormalized l = true →
    digitsNormalized t = true
  | [], t, ht, _ => by
    rw [List.eq_nil_of_suffix_nil ht]
    rfl
  | c :: cs, t, ht, h => by
    rw [List.suffix_cons_iff] at ht
    rcases ht with rfl | ht
    · exact h
    · simp only [digitsNormalized, Bool.and_eq_true] at h
      exact digitsNormalized_suffix cs t ht h.2

theorem startsNoDigit_dropWhile : ∀ cs : Str, startsNoDigit (cs.dropWhile isDigit) = true
  | [] => rfl
  | c :: cs => by
    rw [List.dropWhile_cons]
    cases hc : isDigit c
    · simp [startsNoDigit, hc]
    · simpa using startsNoDigit_dropWhile cs

theorem length_dropWhile_le (p : Char → Bool) (cs : Str) :
    (cs.dropWhile p).length ≤ cs.length :=
  (List.dropWhile_suffix p).length_le

theorem startsNoDigit_number : ∀ l : Str, startsNoDigit l = true →
    startsNoDigit (replaceAll numberRe (fun _ => "0".toList) l) = true
  | [], _ => rfl
  | c :: cs, h => by
    have hc : isDigit c = false := by simpa [startsNoDigit] using h
    show startsNoDigit (replaceAll (Re.plus isDigit) _ (c :: cs)) = true
    rw [replaceAll_plus]
    simp [hc, startsNoDigit]

/-- After the number stage digits are normalized. -/
theorem digitsNormalized_number : ∀ (n : Nat) (l : Str), l.length ≤ n →
    digitsNormalized (replaceAll numberRe (fun _ => "0".toList) l) = true
  | _, [], _ => rfl
  | 0, _ :: _, h => by simp at h
  | n + 1, c :: cs, h => by
    have hlen : cs.length ≤ n := by simp only [List.length_cons] at h; omega
    show digitsNormalized (replaceAll (Re.plus isDigit) _ (c :: cs)) = true
    rw [replaceAll_plus]
    by_cases hc : isDigit c = true
    · have ih := digitsNormalized_number n (cs.dropWhile isDigit)
        (le_trans (length_dropWhile_le _ _) hlen)
      have hs := startsNoDigit_number _ (startsNoDigit_dropWhile cs)
      rw [if_pos hc]
      show digitsNormalized ('0' :: replaceAll numberRe _ _) = true
      simp only [digitsNormalized, Bool.and_eq_true, Bool.or_eq_true]
      exact ⟨Or.inr ⟨rfl, hs⟩, ih⟩
    · have ih := digitsNormalized_number n cs hlen
      rw [if_neg hc]
      simp only [digitsNormalized, Bool.and_eq_true, Bool.or_eq_true]
      exact ⟨Or.inl (by simpa using hc), ih⟩


/-- The random-suffix stage rewrites the text in one of two ways. -/
theorem randomSuffix_cases (c : Char) (cs : Str) :
    (∃ d ds, cs = d :: ds ∧ isSep c = true ∧ isSuffixChar d = true ∧
      replaceAll randomSuffixRe (fun m => m.take 1 ++ "RANDOM".toList) (c :: cs) =
        c :: ("RANDOM".toList ++ replaceAll randomSuffixRe
          (fun m => m.take 1 ++ "RANDOM".toList) (ds.dropWhile isSuffixChar))) ∨
    ((isSep c = false ∨ startsOutside cs = true) ∧
      replaceAll randomSuffixRe (fun m => m.take 1 ++ "RANDOM".toList) (c :: cs) =
        c :: replaceAll randomSuffixRe (fun m => m.take 1 ++ "RANDOM".toList) cs) := by
  by_cases hc : isSep c = true
  · cases cs with
    | nil => exact Or.inr ⟨Or.inr rfl, replaceAll_randomSuffix_none _ c [] (Or.inr rfl)⟩
    | cons d ds =>
      by_cases hd : isSuffixChar d = true
      · left
        refine ⟨d, ds, rfl, hc, hd, ?_⟩
        rw [replaceAll_randomSuffix_match _ c d ds hc hd]
        rfl
      · have ho : startsOutside (d :: ds) = true := by simpa [startsOutside] using hd
        exact Or.inr ⟨Or.inr ho, replaceAll_randomSuffix_none _ c _ (Or.inr ho)⟩
  · have hc' : isSep c = false := by simpa using hc
    exact Or.inr ⟨Or.inl hc', replaceAll_randomSuffix_none _ c cs (Or.inl hc')⟩

theorem isDigit_of_isSep {c : Char} (h : isSep c = true) : isDigit c = false := by
  simp only [isSep, Bool.or_eq_true, beq_iff_eq] at h
  rcases h with (rfl | rfl) | rfl <;> decide

theorem startsNoDigit_randomSuffix (l : Str) :
    startsNoDigit (replaceAll randomSuffixRe (fun m => m.take 1 ++ "RANDOM".toList) l) =
      startsNoDigit l := by
  cases l with
  | nil => rfl
  | cons c cs =>
    rcases randomSuffix_cases c cs with ⟨d, ds, _, _, _, h⟩ | ⟨_, h⟩ <;> rw [h] <;> rfl

/-- The random-suffix stage keeps digits normalized. -/
theorem digitsNormalized_randomSuffix : ∀ (n : Nat) (l : Str), l.length ≤ n →
    digitsNormalized l = true →
    digitsNormalized (replaceAll randomSuffixRe (fun m => m.take 1 ++ "RANDOM".toList) l) =
      true
  | _, [], _, _ => rfl
  | 0, _ :: _, h, _ => by simp at h
  | n + 1, c :: cs, h, hd => by
    have hlen : cs.length ≤ n := by simp only [List.length_cons] at h; omega
    rcases randomSuffix_cases c cs with ⟨d, ds, rfl, hc, _, heq⟩ | ⟨_, heq⟩
    · rw [heq]
      have hds : (ds.dropWhile isSuffixChar).length ≤ n := by
        have := length_dropWhile_le isSuffixChar ds
        simp only [List.length_cons] at hlen
        omega
      have hsuf : ds.dropWhile isSuffixChar <:+ c :: d :: ds :=
        (List.dropWhile_suffix _).trans
          ((List.suffix_cons d ds).trans (List.suffix_cons c (d :: ds)))
      have ih := digitsNormalized_randomSuffix n _ hds (digitsNormalized_suffix _ _ hsuf hd)
      have := digitsNormalized_append
        (replaceAll randomSuffixRe (fun m => m.take 1 ++ "RANDOM".toList)
          (ds.dropWhile isSuffixChar)) (c :: "RANDOM".toList) (by
          intro x hx
          rcases List.mem_cons.mp hx with rfl | hx
          · exact isDigit_of_isSep hc
          · have : x = 'R' ∨ x = 'A' ∨ x = 'N' ∨ x = 'D' ∨ x = 'O' ∨ x = 'M' := by
              simpa using hx
            rcases this with rfl | rfl | rfl | rfl | rfl | rfl <;> decide)
      rw [List.cons_append] at this
      rw [this]
      exact ih
    · rw [heq]
      simp only [digitsNormalized, Bool.and_eq_true] at hd ⊢
      refine ⟨?_, digitsNormalized_randomSuffix n cs hlen hd.2⟩
      rw [startsNoDigit_randomSuffix]
      exact hd.1

theorem startsNoDigit_space : ∀ l : Str, startsNoDigit l = true →
    startsNoDigit (replaceAll spaceRe (fun _ => " ".toList) l) = true
  | [], _ => rfl
  | c :: cs, h => by
    show startsNoDigit (replaceAll (Re.plus isBlank) _ (c :: cs)) = true
    rw [replaceAll_plus]
    split
    · rfl
    · exact h

/-- The blank stage keeps digits normalized. -/
theorem digitsNormalized_space : ∀ (n : Nat) (l : Str), l.length ≤ n →
    digitsNormalized l = true →
    digitsNormalized (replaceAll spaceRe (fun _ => " ".toList) l) = true
  | _, [], _, _ => rfl
  | 0, _ :: _, h, _ => by simp at h
  | n + 1, c :: cs, h, hd => by
    have hlen : cs.length ≤ n := by simp only [List.length_cons] at h; omega
    show digitsNormalized (replaceAll (Re.plus isBlank) _ (c :: cs)) = true
    rw [replaceAll_plus]
    split
    · have hsuf : cs.dropWhile isBlank <:+ c :: cs :=
        (List.dropWhile_suffix _).trans (List.suffix_cons c cs)
      have ih := digitsNormalized_space n _ (le_trans (length_dropWhile_le _ _) hlen)
        (digitsNormalized_suffix _ _ hsuf hd)
      show digitsNormalized (' ' :: replaceAll spaceRe _ _) = true
      simp only [digitsNormalized, Bool.and_eq_true, Bool.or_eq_true]
      exact ⟨Or.inl (by decide), ih⟩
    · simp only [digitsNormalized, Bool.and_eq_true, Bool.or_eq_true, Bool.not_eq_true',
        beq_iff_eq] at hd ⊢
      refine ⟨?_, digitsNormalized_space n cs hlen hd.2⟩
      rcases hd.1 with h1 | h1
      · exact Or.inl h1
      · exact Or.inr ⟨h1.1, startsNoDigit_space cs h1.2⟩

/-- Digits are normalized in every denoised line. -/
theorem digitsNormalized_Denoise (line : Str) : digitsNormalized (Denoise line) = true := by
  unfold Denoise
  exact digitsNormalized_space _ _ (Nat.le_refl _)
    (digitsNormalized_randomSuffix _ _ (Nat.le_refl _)
      (digitsNormalized_number _ _ (Nat.le_refl _)))


theorem digitsNormalized_mem : ∀ l : Str, digitsNormalized l = true →
    ∀ c ∈ l, isDigit c = true → c = '0'
  | [], _, c, hc, _ => by cases hc
  | x :: xs, h, c, hc, hd => by
    simp only [digitsNormalized, Bool.and_eq_true, Bool.or_eq_true, Bool.not_eq_true',
      beq_iff_eq] at h
    rcases List.mem_cons.mp hc with rfl | hc
    · rcases h.1 with h1 | h1
      · rw [h1] at hd
        cases hd
      · exact h1.1
    · exact digitsNormalized_mem xs h.2 c hc hd

theorem digitsNormalized_pair (l : Str) (h : digitsNormalized l = true) (a b : Char)
    (hab : [a, b] <:+: l) : ¬ (isDigit a = true ∧ isDigit b = true) := by
  obtain ⟨s, t, hst⟩ := hab
  have hsuf : a :: b :: t <:+ l := ⟨s, by rw [← hst]; simp⟩
  have := digitsNormalized_suffix l _ hsuf h
  simp only [digitsNormalized, startsNoDigit, Bool.and_eq_true, Bool.or_eq_true,
    Bool.not_eq_true', beq_iff_eq] at this
  rintro ⟨ha, hb⟩
  rcases this.1 with h1 | h1
  · rw [h1] at ha
    cases ha
  · rw [h1.2] at hb
    cases hb

/-- C13 (digit normalization).  In `Denoise line`, for every line, every decimal digit is
`0` and no two decimal digits are adjacent: every run of decimal digits has become a single
`0`, as in the case `Feb 15 00:36:57.939: INFO: ...` of `TestDenoise`, which becomes
`Feb 0 0:0:0.RANDOM: INFO: ...`. -/
theorem Denoise_digits_normalized :
    (∀ line : Str,
      (∀ c ∈ Denoise line, isDigit c = true → c = '0') ∧
      (∀ a b : Char, [a, b] <:+: Denoise line → ¬ (isDigit a = true ∧ isDigit b = true))) ∧
    Denoise ("Feb 15 00:36:57.939: INFO: Running 'oc --kubeconfig=/tmp/tmp.bjZYPSqRRL " ++
        "observe serviceaccounts --once'").toList =
      ("Feb 0 0:0:0.RANDOM: INFO: Running 'oc -RANDOM=/tmp/tmp.RANDOM " ++
        "observe serviceaccounts -RANDOM'").toList :=
  ⟨fun line => ⟨digitsNormalized_mem _ (digitsNormalized_Denoise line),
      digitsNormalized_pair _ (digitsNormalized_Denoise line)⟩,
    Denoise_test_cases.2.1⟩

/-- Witness for C13: in the denoised form `port 0 of 0.RANDOM` of `port 8080 of 10.0.0.5`
the digit `0` stands before a blank. -/
theorem Denoise_digits_normalized_witness :
    Denoise "port 8080 of 10.0.0.5".toList = "port 0 of 0.RANDOM".toList ∧
    ['0', ' '] <:+: Denoise "port 8080 of 10.0.0.5".toList ∧
    ¬ (isDigit '0' = true ∧ isDigit ' ' = true) :=
  ⟨by decide, ⟨"port ".toList, "of 0.RANDOM".toList, by decide⟩,
    (Denoise_digits_normalized.1 "port 8080 of 10.0.0.5".toList).2 '0' ' '
      ⟨"port ".toList, "of 0.RANDOM".toList, by decide⟩⟩


/-! ## A second pass of `Denoise` -/

/-- Where every match is replaced by itself, the text is left as it is. -/
theorem replaceAll_fixed (re : Re) (repl : Str → Str) : ∀ (n : Nat) (l : Str), l.length ≤ n →
    (∀ t r, t <:+ l → re.run some t = some r → ∃ m, t = m ++ r ∧ (m = [] ∨ repl m = m)) →
    replaceAll re repl l = l
  | _, [], _, _ => rfl
  | 0, _ :: _, h, _ => by simp at h
  | n + 1, c :: cs, h, hfix => by
    have hlen : cs.length ≤ n := by simp only [List.length_cons] at h; omega
    have hcs : ∀ t r, t <:+ cs → re.run some t = some r →
        ∃ m, t = m ++ r ∧ (m = [] ∨ repl m = m) :=
      fun t r ht => hfix t r (ht.trans (List.suffix_cons c cs))
    cases hrun : re.run some (c :: cs) with
    | none =>
      rw [replaceAll_cons_of_none _ _ _ _ hrun, replaceAll_fixed re repl n cs hlen hcs]
    | some r =>
      obtain ⟨m, hm, hrepl⟩ := hfix (c :: cs) r (List.suffix_refl _) hrun
      cases m with
      | nil =>
        have hr : r = c :: cs := by simpa using hm.symm
        have hz : matchLen re (c :: cs) = some 0 := by
          simp [matchLen, hrun, hr]
        show replaceAllAux re repl 0 (c :: cs) = _
        rw [replaceAllAux, hz]
        show c :: replaceAll re repl cs = _
        rw [replaceAll_fixed re repl n cs hlen hcs]
      | cons c' u =>
        rw [List.cons_append] at hm
        injection hm with h1 h2
        subst h1
        subst h2
        have hrepl' : repl (c :: u) = c :: u := by
          rcases hrepl with h0 | h0
          · cases h0
          · exact h0
        have hr : r.length ≤ n := by
          simp only [List.length_append] at hlen
          omega
        have hrs : r <:+ c :: (u ++ r) :=
          (List.suffix_append u r).trans (List.suffix_cons c _)
        have ih := replaceAll_fixed re repl n r hr
          (fun t r' ht => hfix t r' (ht.trans hrs))
        have := replaceAll_match re repl c u r (by rw [List.cons_append]; exact hrun)
        rw [List.cons_append] at this
        rw [this, hrepl', ih]
        rfl

theorem suffixesNormalized_cons (c : Char) (rest : Str) :
    suffixesNormalized (c :: rest) =
      ((!isSep c || afterSepOk rest) && suffixesNormalized rest) := rfl

theorem suffixesNormalized_append (out : Str) : ∀ R : Str, (∀ d ∈ R, isSep d = false) →
    suffixesNormalized (R ++ out) = suffixesNormalized out
  | [], _ => rfl
  | c :: R, h => by
    have hc : isSep c = false := h c (List.mem_cons_self _ _)
    have ih := suffixesNormalized_append out R (fun d hd => h d (List.mem_cons_of_mem _ hd))
    simp [suffixesNormalized, hc, ih]

theorem suffixesNormalized_suffix : ∀ l t : Str, t <:+ l → suffixesNormalized l = true →
    suffixesNormalized t = true
  | [], t, ht, _ => by
    rw [List.eq_nil_of_suffix_nil ht]
    rfl
  | c :: cs, t, ht, h => by
    rw [List.suffix_cons_iff] at ht
    rcases ht with rfl | ht
    · exact h
    · simp only [suffixesNormalized, Bool.and_eq_true] at h
      exact suffixesNormalized_suffix cs t ht h.2

theorem startsOutside_dropWhile : ∀ cs : Str,
    startsOutside (cs.dropWhile isSuffixChar) = true
  | [] => rfl
  | c :: cs => by
    rw [List.dropWhile_cons]
    cases hc : isSuffixChar c
    · simp [startsOutside, hc]
    · simpa using startsOutside_dropWhile cs

theorem startsOutside_randomSuffix (l : Str) :
    startsOutside (replaceAll randomSuffixRe (fun m => m.take 1 ++ "RANDOM".toList) l) =
      startsOutside l := by
  cases l with
  | nil => rfl
  | cons c cs =>
    rcases randomSuffix_cases c cs with ⟨d, ds, _, _, _, h⟩ | ⟨_, h⟩ <;> rw [h] <;> rfl

theorem afterSepOk_of_startsOutside {rest : Str} (h : startsOutside rest = true) :
    afterSepOk rest = true := by
  simp [afterSepOk, h]

theorem afterSepOk_random (X : Str) (h : startsOutside X = true) :
    afterSepOk ("RANDOM".toList ++ X) = true := by
  have h1 : "RANDOM".toList.isPrefixOf ("RANDOM".toList ++ X) = true := by
    rw [List.isPrefixOf_iff_prefix]
    exact List.prefix_append _ _
  have h2 : ("RANDOM".toList ++ X).drop 6 = X := rfl
  simp [afterSepOk, h1, h2, h]

/-- After the random-suffix stage suffixes are normalized. -/
theorem suffixesNormalized_randomSuffix : ∀ (n : Nat) (l : Str), l.length ≤ n →
    suffixesNormalized
      (replaceAll randomSuffixRe (fun m => m.take 1 ++ "RANDOM".toList) l) = true
  | _, [], _ => rfl
  | 0, _ :: _, h => by simp at h
  | n + 1, c :: cs, h => by
    have hlen : cs.length ≤ n := by simp only [List.length_cons] at h; omega
    rcases randomSuffix_cases c cs with ⟨d, ds, rfl, _, _, heq⟩ | ⟨hno, heq⟩
    · rw [heq]
      have hds : (ds.dropWhile isSuffixChar).length ≤ n := by
        have := length_dropWhile_le isSuffixChar ds
        simp only [List.length_cons] at hlen
        omega
      have ih := suffixesNormalized_randomSuffix n _ hds
      have ho : startsOutside (replaceAll randomSuffixRe
          (fun m => m.take 1 ++ "RANDOM".toList) (ds.dropWhile isSuffixChar)) = true := by
        rw [startsOutside_randomSuffix]
        exact startsOutside_dropWhile ds
      have hR := suffixesNormalized_append
        (replaceAll randomSuffixRe (fun m => m.take 1 ++ "RANDOM".toList)
          (ds.dropWhile isSuffixChar)) "RANDOM".toList (by decide)
      rw [suffixesNormalized_cons, hR, ih, afterSepOk_random _ ho]
      simp
    · rw [heq]
      have ih := suffixesNormalized_randomSuffix n cs hlen
      simp only [suffixesNormalized, Bool.and_eq_true, Bool.or_eq_true, Bool.not_eq_true']
      refine ⟨?_, ih⟩
      rcases hno with h1 | h1
      · exact Or.inl h1
      · right
        apply afterSepOk_of_startsOutside
        rw [startsOutside_randomSuffix]
        exact h1


/-- The blank stage rewrites the text in one of two ways. -/
theorem space_cases (c : Char) (cs : Str) :
    (isBlank c = true ∧
      replaceAll spaceRe (fun _ => " ".toList) (c :: cs) =
        ' ' :: replaceAll spaceRe (fun _ => " ".toList) (cs.dropWhile isBlank)) ∨
    (isBlank c = false ∧
      replaceAll spaceRe (fun _ => " ".toList) (c :: cs) =
        c :: replaceAll spaceRe (fun _ => " ".toList) cs) := by
  have h : replaceAll spaceRe (fun _ => " ".toList) (c :: cs) = _ :=
    replaceAll_plus isBlank (fun _ => " ".toList) c cs
  cases hc : isBlank c
  · right
    rw [h, hc]
    exact ⟨rfl, rfl⟩
  · left
    rw [h, hc]
    exact ⟨rfl, rfl⟩

theorem startsOutside_space : ∀ l : Str, startsOutside l = true →
    startsOutside (replaceAll spaceRe (fun _ => " ".toList) l) = true
  | [], _ => rfl
  | c :: cs, h => by
    rcases space_cases c cs with ⟨_, heq⟩ | ⟨_, heq⟩
    · rw [heq]
      rfl
    · rw [heq]
      exact h

theorem space_random (X : Str) :
    replaceAll spaceRe (fun _ => " ".toList) ("RANDOM".toList ++ X) =
      "RANDOM".toList ++ replaceAll spaceRe (fun _ => " ".toList) X := by
  have step : ∀ (c : Char) (cs : Str), isBlank c = false →
      replaceAll spaceRe (fun _ => " ".toList) (c :: cs) =
        c :: replaceAll spaceRe (fun _ => " ".toList) cs := by
    intro c cs hc
    rcases space_cases c cs with ⟨hb, _⟩ | ⟨_, heq⟩
    · rw [hc] at hb
      cases hb
    · exact heq
  show replaceAll spaceRe _ ('R' :: 'A' :: 'N' :: 'D' :: 'O' :: 'M' :: X) = _
  rw [step 'R' _ (by decide), step 'A' _ (by decide), step 'N' _ (by decide),
    step 'D' _ (by decide), step 'O' _ (by decide), step 'M' _ (by decide)]
  rfl

theorem afterSepOk_space (rest : Str) (h : afterSepOk rest = true) :
    afterSepOk (replaceAll spaceRe (fun _ => " ".toList) rest) = true := by
  simp only [afterSepOk, Bool.or_eq_true, Bool.and_eq_true] at h
  rcases h with h | ⟨h1, h2⟩
  · exact afterSepOk_of_startsOutside (startsOutside_space rest h)
  · rw [List.isPrefixOf_iff_prefix] at h1
    obtain ⟨X, rfl⟩ := h1
    have hX : ("RANDOM".toList ++ X).drop 6 = X := rfl
    rw [hX] at h2
    rw [space_random]
    exact afterSepOk_random _ (startsOutside_space X h2)

/-- The blank stage keeps suffixes normalized. -/
theorem suffixesNormalized_space : ∀ (n : Nat) (l : Str), l.length ≤ n →
    suffixesNormalized l = true →
    suffixesNormalized (replaceAll spaceRe (fun _ => " ".toList) l) = true
  | _, [], _, _ => rfl
  | 0, _ :: _, h, _ => by simp at h
  | n + 1, c :: cs, h, hu => by
    have hlen : cs.length ≤ n := by simp only [List.length_cons] at h; omega
    rcases space_cases c cs with ⟨_, heq⟩ | ⟨_, heq⟩
    · rw [heq]
      have hsuf : cs.dropWhile isBlank <:+ c :: cs :=
        (List.dropWhile_suffix _).trans (List.suffix_cons c cs)
      have ih := suffixesNormalized_space n _ (le_trans (length_dropWhile_le _ _) hlen)
        (suffixesNormalized_suffix _ _ hsuf hu)
      rw [suffixesNormalized_cons, ih]
      rfl
    · rw [heq]
      rw [suffixesNormalized_cons, Bool.and_eq_true, Bool.or_eq_true] at hu
      rw [suffixesNormalized_cons, suffixesNormalized_space n cs hlen hu.2, Bool.and_true,
        Bool.or_eq_true]
      rcases hu.1 with h1 | h1
      · exact Or.inl h1
      · exact Or.inr (afterSepOk_space cs h1)

theorem head_dropWhile_isBlank : ∀ cs : Str, ∀ d, (cs.dropWhile isBlank).head? = some d →
    isBlank d = false
  | [], d, h => by cases h
  | c :: cs, d, h => by
    rw [List.dropWhile_cons] at h
    cases hc : isBlank c
    · rw [hc] at h
      simp only [Bool.false_eq_true, if_false, List.head?_cons, Option.some.injEq] at h
      rw [← h]
      exact hc
    · rw [hc] at h
      exact head_dropWhile_isBlank cs d h

theorem head_space (l : Str) (h : ∀ d, l.head? = some d → isBlank d = false) :
    ∀ d, (replaceAll spaceRe (fun _ => " ".toList) l).head? = some d → d ≠ ' ' := by
  cases l with
  | nil => intro d hd; cases hd
  | cons c cs =>
    have hc := h c rfl
    rcases space_cases c cs with ⟨hb, _⟩ | ⟨_, heq⟩
    · rw [hc] at hb
      cases hb
    · rw [heq]
      intro d hd
      simp only [List.head?_cons, Option.some.injEq] at hd
      subst hd
      rintro rfl
      exact absurd hc (by decide)

theorem hasAdjacentSpaces_cons (a : Char) (rest : Str) :
    hasAdjacentSpaces (a :: rest) =
      ((a == ' ' &&
        match rest with
        | [] => false
        | b :: _ => b == ' ') || hasAdjacentSpaces rest) := rfl

/-- After the blank stage there is no tab and there are no two adjacent spaces. -/
theorem blanksNormalized_space : ∀ (n : Nat) (l : Str), l.length ≤ n →
    (∀ c ∈ replaceAll spaceRe (fun _ => " ".toList) l, c ≠ '\t') ∧
    hasAdjacentSpaces (replaceAll spaceRe (fun _ => " ".toList) l) = false
  | _, [], _ => ⟨fun c hc => (by cases hc), rfl⟩
  | 0, _ :: _, h => by simp at h
  | n + 1, c :: cs, h => by
    have hlen : cs.length ≤ n := by simp only [List.length_cons] at h; omega
    rcases space_cases c cs with ⟨_, heq⟩ | ⟨hb, heq⟩
    · rw [heq]
      have ih := blanksNormalized_space n (cs.dropWhile isBlank)
        (le_trans (length_dropWhile_le _ _) hlen)
      have hh := head_space _ (head_dropWhile_isBlank cs)
      refine ⟨?_, ?_⟩
      · intro x hx
        rcases List.mem_cons.mp hx with rfl | hx
        · decide
        · exact ih.1 x hx
      · rw [hasAdjacentSpaces_cons, ih.2, Bool.or_false]
        cases hout : replaceAll spaceRe (fun _ => " ".toList) (cs.dropWhile isBlank) with
        | nil => rfl
        | cons b rest =>
          have := hh b (by rw [hout]; rfl)
          simp [this]
    · rw [heq]
      have ih := blanksNormalized_space n cs hlen
      have hc1 : c ≠ ' ' := by rintro rfl; exact absurd hb (by decide)
      have hc2 : c ≠ '\t' := by rintro rfl; exact absurd hb (by decide)
      refine ⟨?_, ?_⟩
      · intro x hx
        rcases List.mem_cons.mp hx with rfl | hx
        · exact hc2
        · exact ih.1 x hx
      · rw [hasAdjacentSpaces_cons, ih.2, Bool.or_false]
        simp [hc1]


theorem suffixesNormalized_Denoise (line : Str) :
    suffixesNormalized (Denoise line) = true := by
  unfold Denoise
  exact suffixesNormalized_space _ _ (Nat.le_refl _)
    (suffixesNormalized_randomSuffix _ _ (Nat.le_refl _))

theorem blanksNormalized_Denoise (line : Str) :
    (∀ c ∈ Denoise line, c ≠ '\t') ∧ hasAdjacentSpaces (Denoise line) = false := by
  unfold Denoise
  exact blanksNormalized_space _ _ (Nat.le_refl _)

theorem length_takeWhile_ge (p : Char → Bool) : ∀ (k : Nat) (t : Str), k ≤ t.length →
    (∀ c ∈ t.take k, p c = true) → k ≤ (t.takeWhile p).length
  | 0, _, _, _ => Nat.zero_le _
  | k + 1, [], h, _ => by simp at h
  | k + 1, c :: cs, h, hall => by
    have hc : p c = true := hall c (by simp)
    have ih := length_takeWhile_ge p k cs (by simp only [List.length_cons] at h; omega)
      (fun d hd => hall d (by simp [hd]))
    simp only [List.takeWhile_cons, hc, if_true, List.length_cons]
    omega

/-- A match of the pointer pattern is `0x` and the lowercase hexadecimal digits behind it. -/
theorem pointerRe_run_some (t r : Str) (h : pointerRe.run some t = some r) :
    ∃ rest, t = '0' :: 'x' :: rest ∧ rest.takeWhile isLowerHex ≠ [] ∧
      r = rest.dropWhile isLowerHex := by
  cases t with
  | nil => cases h
  | cons c cs =>
    have h1 : (if c == '0' then (Re.cat (Re.chr 'x') (Re.plus isLowerHex)).run some cs
        else none) = some r := h
    split at h1
    · rename_i hc
      rw [beq_iff_eq] at hc
      subst hc
      cases cs with
      | nil => cases h1
      | cons x rest =>
        have h2 : (if x == 'x' then (Re.plus isLowerHex).run some rest else none) = some r := h1
        split at h2
        · rename_i hx
          rw [beq_iff_eq] at hx
          subst hx
          cases rest with
          | nil => cases h2
          | cons d ds =>
            rw [plus_run] at h2
            split at h2
            · rename_i hd
              refine ⟨d :: ds, rfl, ?_, ?_⟩
              · simp [List.takeWhile_cons, hd]
              · rw [List.dropWhile_cons, hd]
                exact (Option.some.inj h2).symm
            · cases h2
        · cases h2
    · cases h1

/-- A match of the UUID pattern has `-` and a lowercase hexadecimal digit as its ninth and
tenth characters. -/
theorem uuidRe_run_dash (t r : Str) (h : uuidRe.run some t = some r) :
    ∃ d post, t.drop 8 = '-' :: d :: post ∧ isLowerHex d = true := by
  unfold uuidRe at h
  rw [Re.run] at h
  obtain ⟨_, _, h3⟩ := rep_run_some isLowerHex 8 _ t r h
  cases hd : t.drop 8 with
  | nil => rw [hd] at h3; cases h3
  | cons c cs =>
    rw [hd] at h3
    have h4 : (if c == '-' then (Re.cat (Re.rep isLowerHex 4)
        (.cat (Re.chr '-') (.cat (Re.rep isLowerHex 4) (.cat (Re.chr '-')
        (.cat (Re.rep isLowerHex 4) (.cat (Re.chr '-') (Re.rep isLowerHex 12))))))).run some cs
        else none) = some r := h3
    split at h4
    · rename_i hc
      rw [beq_iff_eq] at hc
      subst hc
      rw [Re.run] at h4
      obtain ⟨h5, h6, _⟩ := rep_run_some isLowerHex 4 _ cs r h4
      cases cs with
      | nil => simp at h5
      | cons d post => exact ⟨d, post, rfl, h6 d (by simp)⟩
    · cases h4


theorem dropWhile_of_startsNoDigit (r : Str) (h : startsNoDigit r = true) :
    r.dropWhile isDigit = r := by
  cases r with
  | nil => rfl
  | cons d ds =>
    have hd : isDigit d = false := by simpa [startsNoDigit] using h
    rw [List.dropWhile_cons, hd]
    rfl

theorem dropWhile_of_startsOutside (r : Str) (h : startsOutside r = true) :
    r.dropWhile isSuffixChar = r := by
  cases r with
  | nil => rfl
  | cons d ds =>
    have hd : isSuffixChar d = false := by simpa [startsOutside] using h
    rw [List.dropWhile_cons, hd]
    rfl

/-- On a text whose digits are normalised the number stage changes nothing. -/
theorem replaceAll_number_fixed (y : Str) (hy : digitsNormalized y = true) :
    replaceAll numberRe (fun _ => "0".toList) y = y := by
  refine replaceAll_fixed numberRe _ _ y (Nat.le_refl _) ?_
  intro t r ht hrun
  have hn := digitsNormalized_suffix y t ht hy
  cases t with
  | nil => cases hrun
  | cons c cs =>
    have hrun' : (Re.plus isDigit).run some (c :: cs) = some r := hrun
    rw [plus_run] at hrun'
    split at hrun'
    · rename_i hc
      have hn' : ((!isDigit c || (c == '0' && startsNoDigit cs)) && digitsNormalized cs)
          = true := hn
      rw [hc] at hn'
      simp only [Bool.not_true, Bool.false_or, Bool.and_eq_true, beq_iff_eq] at hn'
      obtain ⟨⟨h0, hs⟩, _⟩ := hn'
      rw [dropWhile_of_startsNoDigit cs hs] at hrun'
      have hr : cs = r := Option.some.inj hrun'
      subst hr
      subst h0
      exact ⟨['0'], rfl, Or.inr rfl⟩
    · cases hrun'

/-- On a text whose random suffixes are normalised the random-suffix stage changes nothing. -/
theorem replaceAll_randomSuffix_fixed (y : Str) (hy : suffixesNormalized y = true) :
    replaceAll randomSuffixRe (fun m => m.take 1 ++ "RANDOM".toList) y = y := by
  refine replaceAll_fixed randomSuffixRe _ _ y (Nat.le_refl _) ?_
  intro t r ht hrun
  have hn := suffixesNormalized_suffix y t ht hy
  cases t with
  | nil => cases hrun
  | cons c cs =>
    rw [randomSuffixRe_run] at hrun
    split at hrun
    · rename_i hc
      cases cs with
      | nil => cases hrun
      | cons d ds =>
        have hrun' : (if isSuffixChar d then some (ds.dropWhile isSuffixChar) else none)
            = some r := hrun
        split at hrun'
        · rename_i hd
          rw [suffixesNormalized_cons, hc] at hn
          simp only [Bool.not_true, Bool.false_or, Bool.and_eq_true] at hn
          have hok : afterSepOk (d :: ds) = true := hn.1
          have hso : startsOutside (d :: ds) = false := by simp [startsOutside, hd]
          unfold afterSepOk at hok
          rw [hso] at hok
          simp only [Bool.false_or, Bool.and_eq_true] at hok
          obtain ⟨hpre, hout⟩ := hok
          have hpre' : "RANDOM".toList <+: d :: ds := List.isPrefixOf_iff_prefix.mp hpre
          have hsplit : "RANDOM".toList ++ (d :: ds).drop 6 = d :: ds :=
            List.prefix_iff_eq_append.mp hpre'
          generalize hrest : (d :: ds).drop 6 = rest at hsplit hout
          have hd' : d = 'R' ∧ ds = "ANDOM".toList ++ rest := by
            have e : 'R' :: ("ANDOM".toList ++ rest) = d :: ds := hsplit
            injection e with e1 e2
            exact ⟨e1.symm, e2.symm⟩
          obtain ⟨rfl, rfl⟩ := hd'
          have hdw : ("ANDOM".toList ++ rest).dropWhile isSuffixChar = rest := by
            have e : ("ANDOM".toList ++ rest).dropWhile isSuffixChar
                = rest.dropWhile isSuffixChar := by
              simp only [String.toList, List.cons_append, List.nil_append, List.dropWhile_cons]
              rfl
            rw [e, dropWhile_of_startsOutside rest hout]
          rw [hdw] at hrun'
          have hr : rest = r := Option.some.inj hrun'
          subst hr
          exact ⟨c :: "RANDOM".toList, rfl, Or.inr rfl⟩
        · cases hrun'
    · cases hrun

/-- On a text whose random suffixes are normalised the UUID pattern matches nowhere. -/
theorem uuidRe_run_none (y : Str) (hy : suffixesNormalized y = true) (t : Str) (ht : t <:+ y) :
    uuidRe.run some t = none := by
  cases hrun : uuidRe.run some t with
  | none => rfl
  | some r =>
    exfalso
    obtain ⟨d, post, hdrop, hd⟩ := uuidRe_run_dash t r hrun
    have hsuf : ('-' :: d :: post) <:+ y := by
      rw [← hdrop]
      exact (List.drop_suffix 8 t).trans ht
    have hn := suffixesNormalized_suffix y _ hsuf hy
    rw [suffixesNormalized_cons] at hn
    have hsep : isSep '-' = true := by decide
    rw [hsep] at hn
    simp only [Bool.not_true, Bool.false_or, Bool.and_eq_true] at hn
    have hok : afterSepOk (d :: post) = true := hn.1
    unfold afterSepOk at hok
    have hsuffix : isSuffixChar d = true := by
      revert hd
      unfold isLowerHex isSuffixChar isAlnum isSep isDigit isLower isUpper
      intro hd
      simp only [Bool.or_eq_true, Bool.and_eq_true, decide_eq_true_eq] at hd ⊢
      rcases hd with hd | hd
      · exact Or.inl (Or.inr hd)
      · exact Or.inl (Or.inl (Or.inr ⟨hd.1, le_trans hd.2 (by decide)⟩))
    have hso : startsOutside (d :: post) = false := by simp [startsOutside, hsuffix]
    rw [hso] at hok
    simp only [Bool.false_or, Bool.and_eq_true] at hok
    have hpre : "RANDOM".toList <+: d :: post := List.isPrefixOf_iff_prefix.mp hok.1
    obtain ⟨q, hq⟩ := hpre
    have e : 'R' :: ("ANDOM".toList ++ q) = d :: post := hq
    injection e with e1 _
    subst e1
    exact absurd hd (by decide)


theorem alnumRunFree_suffix : ∀ l t : Str, t <:+ l → alnumRunFree l = true →
    (t.takeWhile isAlnum).length < 64
  | [], t, ht, _ => by
    rw [List.eq_nil_of_suffix_nil ht]
    decide
  | c :: cs, t, ht, h => by
    have h' : (shortRunAt (c :: cs) && alnumRunFree cs) = true := h
    rw [Bool.and_eq_true] at h'
    rw [List.suffix_cons_iff] at ht
    rcases ht with rfl | ht
    · exact of_decide_eq_true h'.1
    · exact alnumRunFree_suffix cs t ht h'.2

theorem pointersNormalized_suffix : ∀ l t : Str, t <:+ l → pointersNormalized l = true →
    pointerOk t = true
  | [], t, ht, _ => by
    rw [List.eq_nil_of_suffix_nil ht]
    rfl
  | c :: cs, t, ht, h => by
    have h' : (pointerOk (c :: cs) && pointersNormalized cs) = true := h
    rw [Bool.and_eq_true] at h'
    rw [List.suffix_cons_iff] at ht
    rcases ht with rfl | ht
    · exact h'.1
    · exact pointersNormalized_suffix cs t ht h'.2

/-- On a text without a run of 64 letters and digits the hash stage changes nothing. -/
theorem replaceAll_hash_fixed (y : Str) (hy : alnumRunFree y = true) :
    replaceAll hashRe (fun _ => "HASH".toList) y = y := by
  refine replaceAll_of_no_match hashRe _ y ?_
  intro t ht
  cases hrun : hashRe.run some t with
  | none => rfl
  | some r =>
    exfalso
    obtain ⟨h1, h2⟩ := hashRe_run_some t r hrun
    have h3 := length_takeWhile_ge isAlnum 64 t h1 h2
    have h4 := alnumRunFree_suffix y t ht hy
    omega

/-- On a text whose pointers are normalised the pointer stage changes nothing. -/
theorem replaceAll_pointer_fixed (y : Str) (hy : pointersNormalized y = true) :
    replaceAll pointerRe (fun _ => "0xdeadbeef".toList) y = y := by
  refine replaceAll_fixed pointerRe _ _ y (Nat.le_refl _) ?_
  intro t r ht hrun
  obtain ⟨rest, rfl, hne, hr⟩ := pointerRe_run_some t r hrun
  have hok := pointersNormalized_suffix y _ ht hy
  have hok' : (rest.takeWhile isLowerHex == [] ||
      rest.takeWhile isLowerHex == "deadbeef".toList) = true := hok
  rw [Bool.or_eq_true, beq_iff_eq, beq_iff_eq] at hok'
  rcases hok' with h0 | h0
  · exact absurd h0 hne
  · refine ⟨"0xdeadbeef".toList, ?_, Or.inr rfl⟩
    have e : rest = rest.takeWhile isLowerHex ++ rest.dropWhile isLowerHex :=
      (List.takeWhile_append_dropWhile _ _).symm
    rw [h0, ← hr] at e
    rw [e]
    rfl

/-- C14, as the spec states it, fails: `Denoise` is not idempotent.  The line `1xa` denoises
to `0xa`, which a second pass reads as a pointer and turns into `0xdeadbeef`; and 55 letters
followed by `0xa` denoise to a run of 65 letters and digits, which a second pass turns into
`HASH`. -/
theorem Denoise_not_idempotent :
    Denoise "1xa".toList = "0xa".toList ∧
    Denoise (Denoise "1xa".toList) = "0xdeadbeef".toList ∧
    Denoise (Denoise "1xa".toList) ≠ Denoise "1xa".toList ∧
    Denoise ("aaaaaaaaaaaaaaaaaaaaaaaaaaaaaaaaaaaaaaaaaaaaaaaaaaaaaaa".toList ++ "0xa".toList) =
      "aaaaaaaaaaaaaaaaaaaaaaaaaaaaaaaaaaaaaaaaaaaaaaaaaaaaaaa".toList ++ "0xdeadbeef".toList ∧
    Denoise (Denoise
      ("aaaaaaaaaaaaaaaaaaaaaaaaaaaaaaaaaaaaaaaaaaaaaaaaaaaaaaa".toList ++ "0xa".toList)) =
      "HASH".toList ∧
    ¬ (∀ line : Str, Denoise (Denoise line) = Denoise line) := by
  refine ⟨?_, ?_, ?_, ?_, ?_, ?_⟩
  · decide
  · decide
  · decide
  · decide
  · decide
  · intro h
    exact absurd (h "1xa".toList) (by decide)

/-- C14 (amended).  For every line whose denoised form has no run of 64 or more letters and
digits, and in which every `0x` is followed by no lowercase hexadecimal digit or by exactly
`deadbeef`, a second pass changes nothing: `Denoise (Denoise line) = Denoise line`.  The
UUID, number, random-suffix and space stages never change the result of a first pass. -/
theorem Denoise_idempotent (line : Str)
    (hh : alnumRunFree (Denoise line) = true)
    (hp : pointersNormalized (Denoise line) = true) :
    Denoise (Denoise line) = Denoise line := by
  have hd := digitsNormalized_Denoise line
  have hs := suffixesNormalized_Denoise line
  have hb := blanksNormalized_Denoise line
  generalize Denoise line = y at hh hp hd hs hb
  have h1 := replaceAll_hash_fixed y hh
  have h2 : replaceAll uuidRe (fun _ => "UUID".toList) y = y :=
    replaceAll_of_no_match uuidRe _ y (uuidRe_run_none y hs)
  have h3 := replaceAll_pointer_fixed y hp
  have h4 := replaceAll_number_fixed y hd
  have h5 := replaceAll_randomSuffix_fixed y hs
  have h6 := replaceAll_spaceRe_id y hb.1 hb.2
  show replaceAll spaceRe (fun _ => " ".toList)
    (replaceAll randomSuffixRe (fun m => m.take 1 ++ "RANDOM".toList)
    (replaceAll numberRe (fun _ => "0".toList)
    (replaceAll pointerRe (fun _ => "0xdeadbeef".toList)
    (replaceAll uuidRe (fun _ => "UUID".toList)
    (replaceAll hashRe (fun _ => "HASH".toList) y))))) = y
  rw [h1, h2, h3, h4, h5, h6]

/-- The line `pod-abc12 at 0x7f3a  took 15s` denoises to `pod-RANDOM at 0xdeadbeef took 0s`,
which meets both conditions and is a fixed point. -/
theorem Denoise_idempotent_witness :
    Denoise "pod-abc12 at 0x7f3a  took 15s".toList =
      "pod-RANDOM at 0xdeadbeef took 0s".toList ∧
    alnumRunFree (Denoise "pod-abc12 at 0x7f3a  took 15s".toList) = true ∧
    pointersNormalized (Denoise "pod-abc12 at 0x7f3a  took 15s".toList) = true ∧
    Denoise (Denoise "pod-abc12 at 0x7f3a  took 15s".toList) =
      Denoise "pod-abc12 at 0x7f3a  took 15s".toList :=
  ⟨by decide, by decide, by decide,
    Denoise_idempotent "pod-abc12 at 0x7f3a  took 15s".toList (by decide) (by decide)⟩


/-! ## The cache directory during `gcsOpen` (C12) -/

theorem fileGet_fileRemove : ∀ (c : List (Str × Str)) (p q : Str),
    fileGet (fileRemove c p) q = if q = p then none else fileGet c q
  | [], p, q => by
    show none = _
    split <;> rfl
  | (k, d) :: rest, p, q => by
    have ih := fileGet_fileRemove rest p q
    unfold fileRemove at ih ⊢
    by_cases hk : k = p
    · subst hk
      rw [List.filter_cons_of_neg (by simp), ih]
      by_cases hq : q = k
      · rw [if_pos hq, if_pos hq]
      · rw [if_neg hq, if_neg hq]
        show fileGet rest q = if k = q then some d else fileGet rest q
        rw [if_neg (fun h => hq h.symm)]
    · rw [List.filter_cons_of_pos (by simpa using hk)]
      show (if k = q then some d else fileGet (List.filter _ rest) q) = _
      rw [ih]
      by_cases hq : k = q
      · subst hq
        rw [if_pos rfl, if_neg hk]
        show some d = if k = k then some d else fileGet rest k
        rw [if_pos rfl]
      · rw [if_neg hq]
        show _ = if q = p then none else (if k = q then some d else fileGet rest q)
        rw [if_neg hq]

theorem fileGet_fileSet (c : List (Str × Str)) (p d q : Str) :
    fileGet (fileSet c p d) q = if q = p then some d else fileGet c q := by
  show (if p = q then some d else fileGet (fileRemove c p) q) = _
  rw [fileGet_fileRemove]
  by_cases h : q = p
  · subst h
    rw [if_pos rfl, if_pos rfl]
  · rw [if_neg (fun e => h e.symm), if_neg h, if_neg h]

theorem cachePath_ne_part (bucket object : Str) :
    cachePath bucket object ≠ cachePath bucket object ++ ".part".toList := by
  intro h
  have := congrArg List.length h
  simp at this

theorem entrySound_part (w : World) (bucket object : Str) (e : Slots) (x : Entry)
    (h : EntrySound w bucket object e) : EntrySound w bucket object { e with part := x } := h

theorem entrySound_copyMoments (w : World) (bucket object data : Str) (e : Slots) (n : Nat)
    (h : EntrySound w bucket object e) :
    ∀ m ∈ copyMoments e data n, EntrySound w bucket object m := by
  intro m hm
  unfold copyMoments at hm
  rw [List.mem_map] at hm
  obtain ⟨k, _, rfl⟩ := hm
  exact h

/-- The entry at the cache path is absent or complete at every moment of one `gcsOpen`
call, and a call that returns a file returns a regular file with the complete bytes. -/
theorem gcsOpenEntries_sound (w : World) (fault : Fault) (bucket object : Str) (e : Slots)
    (h : EntrySound w bucket object e) :
    (∀ m ∈ (gcsOpenEntries w fault bucket object e).1, EntrySound w bucket object m) ∧
    (∀ r, (gcsOpenEntries w fault bucket object e).2 = .ok r →
      ∃ data, r = .file data ∧ w.object bucket object = .content data) := by
  have hc := fun data n => entrySound_copyMoments w bucket object data e n h
  unfold gcsOpenEntries
  split
  · exact ⟨fun m hm => by rw [List.mem_singleton] at hm; exact hm ▸ h,
      fun r hr => by cases hr⟩
  · split
    · rename_i data hp
      refine ⟨fun m hm => by rw [List.mem_singleton] at hm; exact hm ▸ h, fun r hr => ?_⟩
      injection hr with hr
      unfold EntrySound at h
      rw [hp] at h
      exact ⟨data, hr.symm, h⟩
    · rename_i hp
      unfold EntrySound at h
      rw [hp] at h
      exact absurd h id
    · split
      · exact ⟨fun m hm => by rw [List.mem_singleton] at hm; exact hm ▸ h,
          fun r hr => by cases hr⟩
      · split
        · exact ⟨fun m hm => by rw [List.mem_singleton] at hm; exact hm ▸ h,
            fun r hr => by cases hr⟩
        · exact ⟨fun m hm => by rw [List.mem_singleton] at hm; exact hm ▸ h,
            fun r hr => by cases hr⟩
        · rename_i data hobj
          have hfin : EntrySound w bucket object ⟨.file data, .absent⟩ := hobj
          split
          · exact ⟨fun m hm => by rw [List.mem_singleton] at hm; exact hm ▸ h,
              fun r hr => by cases hr⟩
          · split
            · split
              · refine ⟨fun m hm => ?_, fun r hr => by cases hr⟩
                rw [List.mem_cons] at hm
                rcases hm with rfl | hm
                · exact h
                · exact hc _ _ m hm
              · refine ⟨fun m hm => ?_, fun r hr => by cases hr⟩
                simp only [List.mem_append, List.mem_cons, List.mem_singleton,
                  List.not_mem_nil, or_false] at hm
                rcases hm with (rfl | hm) | rfl
                · exact h
                · exact hc _ _ m hm
                · exact h
            · split
              · refine ⟨fun m hm => ?_, fun r hr => by cases hr⟩
                rw [List.mem_cons] at hm
                rcases hm with rfl | hm
                · exact h
                · exact hc _ _ m hm
              · split
                · refine ⟨fun m hm => ?_, fun r hr => by cases hr⟩
                  rw [List.mem_cons] at hm
                  rcases hm with rfl | hm
                  · exact h
                  · exact hc _ _ m hm
                · split
                  · refine ⟨fun m hm => ?_, fun r hr => by cases hr⟩
                    simp only [List.mem_append, List.mem_cons, List.mem_singleton,
                      List.not_mem_nil, or_false] at hm
                    rcases hm with (rfl | hm) | rfl
                    · exact h
                    · exact hc _ _ m hm
                    · exact hfin
                  · refine ⟨fun m hm => ?_, fun r hr => ?_⟩
                    · simp only [List.mem_append, List.mem_cons, List.mem_singleton,
                        List.not_mem_nil, or_false] at hm
                      rcases hm with (rfl | hm) | rfl
                      · exact h
                      · exact hc _ _ m hm
                      · exact hfin
                    · injection hr with hr
                      exact ⟨data, hr.symm, hobj⟩

/-- The entries a call leaves are sound when the entries it found were. -/
theorem entriesAfter_sound (w : World) (fault : Fault) (bucket object : Str) (e : Slots)
    (h : EntrySound w bucket object e) :
    EntrySound w bucket object
      (entriesAfter (gcsOpenEntries w fault bucket object e).1 e) := by
  unfold entriesAfter
  cases hl : (gcsOpenEntries w fault bucket object e).1.getLast? with
  | none => exact h
  | some m =>
    exact (gcsOpenEntries_sound w fault bucket object e h).1 m (List.mem_of_mem_getLast? hl)

theorem repeatEntries_sound (w : World) (bucket object : Str) :
    ∀ (faults : List Fault) (e : Slots), EntrySound w bucket object e →
    (∀ m ∈ (repeatEntries w bucket object faults e).1, EntrySound w bucket object m) ∧
    (∀ (i : Nat) (r : Opened), (repeatEntries w bucket object faults e).2[i]? = some (.ok r) →
      ∃ data, r = .file data ∧ w.object bucket object = .content data) ∧
    (repeatEntries w bucket object faults e).2.length = faults.length
  | [], e, h => by
    refine ⟨fun m hm => ?_, fun i r hr => ?_, rfl⟩
    · have hm' : m ∈ [e] := hm
      rw [List.mem_singleton] at hm'
      exact hm' ▸ h
    · have hr' : ([] : List (Except Err Opened))[i]? = some (.ok r) := hr
      simp at hr'
  | fault :: rest, e, h => by
    obtain ⟨g1, g2⟩ := gcsOpenEntries_sound w fault bucket object e h
    obtain ⟨i1, i2, i3⟩ := repeatEntries_sound w bucket object rest _
      (entriesAfter_sound w fault bucket object e h)
    refine ⟨fun m hm => ?_, fun i r hr => ?_, ?_⟩
    · have hm' : m ∈ (gcsOpenEntries w fault bucket object e).1 ++
          (repeatEntries w bucket object rest
            (entriesAfter (gcsOpenEntries w fault bucket object e).1 e)).1 := hm
      rw [List.mem_append] at hm'
      rcases hm' with hm' | hm'
      · exact g1 m hm'
      · exact i1 m hm'
    · have hr' : ((gcsOpenEntries w fault bucket object e).2 ::
          (repeatEntries w bucket object rest
            (entriesAfter (gcsOpenEntries w fault bucket object e).1 e)).2)[i]? =
          some (.ok r) := hr
      cases i with
      | zero =>
        have : (gcsOpenEntries w fault bucket object e).2 = .ok r := by simpa using hr'
        exact g2 r this
      | succ i => exact i2 i r (by simpa using hr')
    · show ((gcsOpenEntries w fault bucket object e).2 ::
          (repeatEntries w bucket object rest
            (entriesAfter (gcsOpenEntries w fault bucket object e).1 e)).2).length = _
      rw [List.length_cons, i3]
      rfl

/-- The temporary file of the object `o` is the cache file of the object `o.part`.  In the
world `World.partCopy` the call for `o` fails in `io.Copy` after one character and cannot
remove its temporary file: the cache path of `o.part` now holds `a`, while the remote object
`o.part` holds `xyz`, and the next call for `o.part` is a cache hit that returns `a`. -/
theorem gcsOpen_part_alias :
    (gcsOpen World.partCopy Sys.empty "b".toList "o".toList).2 = .error (.os 4) ∧
    fileGet (gcsOpen World.partCopy Sys.empty "b".toList "o".toList).1.cache
      (cachePath "b".toList "o.part".toList) = some "a".toList ∧
    World.partCopy.object "b".toList "o.part".toList = .content "xyz".toList ∧
    (gcsOpen World.partCopy (gcsOpen World.partCopy Sys.empty "b".toList "o".toList).1
      "b".toList "o.part".toList).2 = .ok "a".toList := by
  refine ⟨?_, ?_, ?_, ?_⟩
  · rfl
  · decide
  · decide
  · rfl

theorem getLast?_cons_snoc {α : Type} (a : α) (l : List α) (x : α) :
    (a :: (l ++ [x])).getLast? = some x := by
  rw [← List.cons_append, List.getLast?_append]
  rfl

theorem copyMoments_last (e : Slots) (data : Str) (n : Nat) :
    (e :: copyMoments e data n).getLast? = some { e with part := .file (data.take n) } := by
  unfold copyMoments
  rw [List.range_succ, List.map_append]
  exact getLast?_cons_snoc _ _ _

theorem copyMoments_last_snoc (e : Slots) (data : Str) (n : Nat) (x : Slots) :
    (e :: copyMoments e data n ++ [x]).getLast? = some x := by
  rw [List.cons_append]
  exact getLast?_cons_snoc _ _ _

theorem entryOf_ne_dir (file : Option Str) : entryOf file ≠ .dir := by
  cases file <;> intro h <;> cases h

/-- On a cache directory that holds regular files only, `gcsOpenEntries` does to the two
entries of the object what `gcsOpen` does to the cache directory, and returns the same. -/
theorem gcsOpen_entries (w : World) (s : Sys) (bucket object : Str) :
    entriesAfter (gcsOpenEntries w (w.ioFault s.trace.length) bucket object
        (slotsOf s.cache bucket object)).1 (slotsOf s.cache bucket object) =
      slotsOf (gcsOpen w s bucket object).1.cache bucket object ∧
    (gcsOpenEntries w (w.ioFault s.trace.length) bucket object
        (slotsOf s.cache bucket object)).2 =
      (gcsOpen w s bucket object).2.map Opened.file := by
  have hne := cachePath_ne_part bucket object
  have hne' : cachePath bucket object ++ ".part".toList ≠ cachePath bucket object :=
    fun h => hne h.symm
  have hnd := entryOf_ne_dir (fileGet s.cache (cachePath bucket object ++ ".part".toList))
  unfold gcsOpenEntries gcsOpen entriesAfter slotsOf Sys.log
  dsimp only
  generalize w.ioFault s.trace.length = fault
  by_cases h1 : fault = .openErr
  · rw [if_pos h1, if_pos h1]
    exact ⟨rfl, rfl⟩
  · rw [if_neg h1, if_neg h1]
    cases hget : fileGet s.cache (cachePath bucket object) with
    | some data =>
      have e1 : entryOf (some data) = .file data := rfl
      rw [e1]
      dsimp only
      exact ⟨by simp [hget, e1], rfl⟩
    | none =>
      have e0 : entryOf (none : Option Str) = .absent := rfl
      rw [e0]
      dsimp only
      by_cases h2 : fault = .mkdir
      · rw [if_pos h2, if_pos h2]
        exact ⟨by simp [hget, e0], rfl⟩
      · rw [if_neg h2, if_neg h2]
        cases hobj : w.object bucket object with
        | notExist => exact ⟨by simp [hget, e0], rfl⟩
        | fail code => exact ⟨by simp [hget, e0], rfl⟩
        | content data =>
          dsimp only
          by_cases h3 : fault = .create
          · rw [if_pos (Or.inl h3), if_pos h3]
            exact ⟨by simp [hget, e0], rfl⟩
          · rw [if_neg (fun h => h.elim h3 hnd), if_neg h3]
            have e1 : ∀ d : Str, entryOf (some d) = .file d := fun _ => rfl
            cases fault with
            | copy n rm =>
              dsimp only
              cases rm with
              | true =>
                simp only [if_true, copyMoments_last]
                refine ⟨?_, rfl⟩
                simp [fileGet_fileSet, hne, hget, e0, e1]
              | false =>
                simp only [Bool.false_eq_true, if_false]
                refine ⟨?_, rfl⟩
                rw [copyMoments_last_snoc]
                simp [fileGet_fileRemove, fileGet_fileSet, hne, hget, e0]
            | none =>
              simp [getLast?_cons_snoc, fileGet_fileSet, fileGet_fileRemove, hne', e0, e1,
                Except.map]
            | openErr => exact absurd rfl h1
            | mkdir => exact absurd rfl h2
            | create => exact absurd rfl h3
            | close =>
              simp [copyMoments_last, fileGet_fileSet, hne, hget, e0, e1, Except.map]
            | rename =>
              simp [copyMoments_last, fileGet_fileSet, hne, hget, e0, e1, Except.map]
            | reopen =>
              simp [getLast?_cons_snoc, fileGet_fileSet, fileGet_fileRemove, hne', e0, e1,
                Except.map]

/-! ### Calls that overlap in time, and names of one file -/

/-- A single call of the step model, run to its end on an empty directory, returns the open
file with the complete bytes, as `gcsOpen` does. -/
theorem gcsOpenStep_alone :
    (runOverlapped World.plain [("bkt".toList, "logs/job/1/finished.json".toList)] ⟨[], []⟩
      [.osOpen] [0, 0, 0, 0, 0, 0, 0, 0, 0, 0, 0]) =
      (⟨[(cachePath "bkt".toList "logs/job/1/finished.json".toList, 0)], ["abc".toList]⟩,
        [.opened 0]) ∧
    (gcsOpen World.plain Sys.empty "bkt".toList "logs/job/1/finished.json".toList).1.cache =
      [(cachePath "bkt".toList "logs/job/1/finished.json".toList, "abc".toList)] := by
  constructor <;> decide

/-- C12, as the spec states it, fails, without any I/O failure, for calls that overlap in
time and for calls made one after another.

Two calls for the object `logs/job/1/finished.json`, which holds `abc`, both miss the cache.
The first call creates the temporary file, writes `abc` and closes it; the second call
truncates that same file in `os.Create`; the first call renames it into place, opens it and
returns it.  The file at the cache path exists and is empty, the first call has returned it,
and a third call hits the cache and gets it too.

The remote store holds the objects `logs/job/1//junit.xml`, with `abc`, and
`logs/job/1/junit.xml`, with `xyz`; both names match the report pattern of `GetTestResults`.
Their cache paths name one file: after the call for the first name, the call for the second
is a cache hit that returns `abc`. -/
theorem gcsOpen_cache_not_atomic :
    (World.plain.object "bkt".toList "logs/job/1/finished.json".toList =
      .content "abc".toList ∧
    (runOverlapped World.plain
      [("bkt".toList, "logs/job/1/finished.json".toList),
        ("bkt".toList, "logs/job/1/finished.json".toList),
        ("bkt".toList, "logs/job/1/finished.json".toList)]
      ⟨[], []⟩ [.osOpen, .osOpen, .osOpen]
      [0, 1, 0, 0, 0, 0, 0, 0, 0, 0, 1, 1, 1, 0, 0, 2]) =
      (⟨[(cachePath "bkt".toList "logs/job/1/finished.json".toList, 0)], [[]]⟩,
        [.opened 0, .copy 0 "abc".toList 0, .opened 0]) ∧
    Disk.read ⟨[(cachePath "bkt".toList "logs/job/1/finished.json".toList, 0)], [[]]⟩
      (cachePath "bkt".toList "logs/job/1/finished.json".toList) = some []) ∧
    (World.twoReports.object "bkt".toList "logs/job/1//junit.xml".toList =
      .content "abc".toList ∧
    World.twoReports.object "bkt".toList "logs/job/1/junit.xml".toList =
      .content "xyz".toList ∧
    matchString junitObject "logs/job/1//junit.xml".toList = true ∧
    matchString junitObject "logs/job/1/junit.xml".toList = true ∧
    (runOverlapped World.twoReports
      [("bkt".toList, "logs/job/1//junit.xml".toList),
        ("bkt".toList, "logs/job/1/junit.xml".toList)]
      ⟨[], []⟩ [.osOpen, .osOpen]
      [0, 0, 0, 0, 0, 0, 0, 0, 0, 0, 0, 1]) =
      (⟨[(cachePath "bkt".toList "logs/job/1//junit.xml".toList, 0)], ["abc".toList]⟩,
        [.opened 0, .opened 0]) ∧
    Disk.read ⟨[(cachePath "bkt".toList "logs/job/1//junit.xml".toList, 0)], ["abc".toList]⟩
      (cachePath "bkt".toList "logs/job/1/junit.xml".toList) = some "abc".toList) := by
  refine ⟨⟨?_, ?_, ?_⟩, ?_, ?_, ?_, ?_, ?_, ?_⟩ <;> decide

/-- C12 (amended).  For calls of `gcsOpen` for one object, made one after another, each of
which may fail at any I/O step (`faults` names the failing step of every call): when the
object's name ends in a file name, and at the start the entry at its cache path is absent or
is a regular file that holds the complete bytes of the remote object, then at every moment
of the calls the entry at the cache path is absent or is a regular file that holds the
complete bytes; every call that returns a file returns a regular file with the complete
bytes of the remote object; and there is one result for every call.  The entry at the
temporary path may be anything at the start.

The condition on the name says when the cache path and the temporary path are two entries of
one directory, which is what `gcsOpenEntries` describes; the proof does not use it. -/
theorem gcsOpen_cache_atomic (w : World) (bucket object : Str) (faults : List Fault)
    (e : Slots) (_hname : endsInFileName object = true)
    (he : EntrySound w bucket object e) :
    (∀ m ∈ (repeatEntries w bucket object faults e).1, EntrySound w bucket object m) ∧
    (∀ (i : Nat) (r : Opened),
      (repeatEntries w bucket object faults e).2[i]? = some (.ok r) →
      ∃ data, r = .file data ∧ w.object bucket object = .content data) ∧
    (repeatEntries w bucket object faults e).2.length = faults.length :=
  repeatEntries_sound w bucket object faults e he

/-- Four calls for the object `logs/job/1/finished.json`, which holds `abc`, from an empty
cache directory in which the temporary path is a left-over file: the first call fails in
`io.Copy` after one character and cannot remove its temporary file, the second fails in
`os.Rename`, the third fetches the complete `abc`, the fourth finds it in the cache. -/
theorem gcsOpen_cache_atomic_witness :
    endsInFileName "logs/job/1/finished.json".toList = true ∧
    EntrySound World.plain "bkt".toList "logs/job/1/finished.json".toList
      ⟨.absent, .file "zz".toList⟩ ∧
    (repeatEntries World.plain "bkt".toList "logs/job/1/finished.json".toList
      [.copy 1 true, .rename, .none, .none] ⟨.absent, .file "zz".toList⟩).1 =
      [⟨.absent, .file "zz".toList⟩, ⟨.absent, .file []⟩, ⟨.absent, .file "a".toList⟩,
        ⟨.absent, .file "a".toList⟩, ⟨.absent, .file []⟩, ⟨.absent, .file "a".toList⟩,
        ⟨.absent, .file "ab".toList⟩, ⟨.absent, .file "abc".toList⟩,
        ⟨.absent, .file "abc".toList⟩, ⟨.absent, .file []⟩, ⟨.absent, .file "a".toList⟩,
        ⟨.absent, .file "ab".toList⟩, ⟨.absent, .file "abc".toList⟩,
        ⟨.file "abc".toList, .absent⟩, ⟨.file "abc".toList, .absent⟩,
        ⟨.file "abc".toList, .absent⟩] ∧
    ((∀ m ∈ (repeatEntries World.plain "bkt".toList "logs/job/1/finished.json".toList
        [.copy 1 true, .rename, .none, .none] ⟨.absent, .file "zz".toList⟩).1,
      EntrySound World.plain "bkt".toList "logs/job/1/finished.json".toList m) ∧
    (∀ (i : Nat) (r : Opened),
      (repeatEntries World.plain "bkt".toList "logs/job/1/finished.json".toList
        [.copy 1 true, .rename, .none, .none] ⟨.absent, .file "zz".toList⟩).2[i]? =
        some (.ok r) →
      ∃ data, r = .file data ∧
        World.plain.object "bkt".toList "logs/job/1/finished.json".toList = .content data) ∧
    (repeatEntries World.plain "bkt".toList "logs/job/1/finished.json".toList
      [.copy 1 true, .rename, .none, .none] ⟨.absent, .file "zz".toList⟩).2.length =
      [Fault.copy 1 true, .rename, .none, .none].length) :=
  ⟨by decide, trivial, by decide,
    gcsOpen_cache_atomic World.plain "bkt".toList "logs/job/1/finished.json".toList
      [.copy 1 true, .rename, .none, .none] ⟨.absent, .file "zz".toList⟩ (by decide) trivial⟩

end Deepgrid
